import Mathlib

/-!
Verification of the TangoTree repository (Za0Warudo/TangoTree).

The development shallowly embeds the left-leaning red-black tree
(`RedBlackTree.h`, in its several shipped variants) and the tango layer
(`TangoTree.cpp` / the unnamed newest tango translation unit) as pure
Lean functions over an inductive `Tree` mirroring `struct Node`.

Modelling conventions:
* The process-wide dummy sentinel is the dedicated constructor `Tree.nil`;
  its C++ payload fields (size 1, height 0, depth INT_MAX, maxDepth
  -INT_MAX, minDepth INT_MAX, color BLACK) are produced by the field
  projections below, so reading a field of the dummy behaves as in C++.
  The dummy is immutable: every functional "mutation" of `Tree.nil`
  returns `Tree.nil` (the C++ code only ever writes values the dummy
  already holds on legal paths).
* Machine `int` is modelled as `Int`; no operation of the program
  overflows on the values it actually manipulates.
* In-place pointer mutation becomes persistent rebuilding.  The only
  aliasing the tango layer exploits (saving `min->left` / `max->right`
  before detaching the extracted node) is threaded explicitly.
* C++ `assert` is a no-op (NDEBUG semantics); the `throw` of `Split`
  and the reads of uninitialized locals in `Tango` are modelled by
  `Option`/`Except` failure.
-/

namespace TangoTree

/-- Machine INT_MAX, the infinity sentinel of the sources. -/
def INT_MAX : Int := 2147483647

/-- Link colors, `enum Color` of RedBlackTree.h. -/
inductive Color where
  | RED : Color
  | BLACK : Color
deriving DecidableEq, Repr

/-- Node types, `enum Type` of RedBlackTree.h.  The DUMMY sentinel is
represented by the dedicated `Tree.nil` constructor of `Tree`, so only the
two payload types appear here. -/
inductive NType where
  | REGULAR : NType
  | EXTERNAL : NType
deriving DecidableEq, Repr

/-- Shallow embedding of `struct Node<T>` with `T = int`: key, children,
aggregates, color and type, in the order of the C++ struct.  `Tree.nil` is
the process-wide dummy sentinel. -/
inductive Tree where
  | nil : Tree
  | node (data : Int) (left right : Tree) (size height depth maxDepth minDepth : Int)
      (color : Color) (ty : NType) : Tree
deriving DecidableEq, Repr

/-- Field read `x->data` (the dummy holds `T() = 0`). -/
def fdata : Tree → Int
  | .nil => 0
  | .node d _ _ _ _ _ _ _ _ _ => d

/-- Field read `x->left`.  The C++ dummy's `left` is `nullptr` and is never
dereferenced on a defined path; we return the dummy itself. -/
def fleft : Tree → Tree
  | .nil => .nil
  | .node _ l _ _ _ _ _ _ _ _ => l

/-- Field read `x->right` (see `fleft` about the dummy). -/
def fright : Tree → Tree
  | .nil => .nil
  | .node _ _ r _ _ _ _ _ _ _ => r

/-- Field read `x->size` (the dummy was constructed with size 1). -/
def fsize : Tree → Int
  | .nil => 1
  | .node _ _ _ s _ _ _ _ _ _ => s

/-- Field read `x->height` (the dummy was constructed with height 0). -/
def fheight : Tree → Int
  | .nil => 0
  | .node _ _ _ _ h _ _ _ _ _ => h

/-- Field read `x->depth` (the dummy was constructed with depth INT_MAX). -/
def fdepth : Tree → Int
  | .nil => INT_MAX
  | .node _ _ _ _ _ dp _ _ _ _ => dp

/-- Field read `x->maxDepth` (the dummy holds -INT_MAX). -/
def fmaxDepth : Tree → Int
  | .nil => -INT_MAX
  | .node _ _ _ _ _ _ mx _ _ _ => mx

/-- Field read `x->minDepth` (the dummy holds INT_MAX). -/
def fminDepth : Tree → Int
  | .nil => INT_MAX
  | .node _ _ _ _ _ _ _ mn _ _ => mn

/-- Field read `x->color` (the dummy is BLACK). -/
def fcolor : Tree → Color
  | .nil => .BLACK
  | .node _ _ _ _ _ _ _ _ c _ => c

/-- `IsDummy(x)`: `x->type == DUMMY`. -/
def IsDummy : Tree → Bool
  | .nil => true
  | .node _ _ _ _ _ _ _ _ _ _ => false

/-- `IsExternal(x)`: `x->type == EXTERNAL`. -/
def IsExternal : Tree → Bool
  | .nil => false
  | .node _ _ _ _ _ _ _ _ _ ty => ty = .EXTERNAL

/-- `IsExternalOrDummy(x)`. -/
def IsExternalOrDummy (x : Tree) : Bool := IsExternal x || IsDummy x

/-- `IsEmpty(t)`: an external or dummy node roots an "empty" subtree as far
as the red-black layer is concerned. -/
def IsEmpty (t : Tree) : Bool := IsExternalOrDummy t

/-- Accessor `Size(x)`: 0 on empty subtrees. -/
def Size (x : Tree) : Int := if IsEmpty x then 0 else fsize x

/-- Accessor `Height(x)`: -1 on empty subtrees. -/
def Height (x : Tree) : Int := if IsEmpty x then -1 else fheight x

/-- Accessor `MinDepth(x)`: INT_MAX on empty subtrees. -/
def MinDepth (x : Tree) : Int := if IsEmpty x then INT_MAX else fminDepth x

/-- Accessor `MaxDepth(x)`: -INT_MAX on empty subtrees. -/
def MaxDepth (x : Tree) : Int := if IsEmpty x then -INT_MAX else fmaxDepth x

/-- Accessor `Depth(x)`: -INT_MAX on empty subtrees. -/
def Depth (x : Tree) : Int := if IsEmpty x then -INT_MAX else fdepth x

/-- Accessor `IsRedLink(x)`: empty subtrees read as BLACK. -/
def IsRedLink (x : Tree) : Bool := if IsEmpty x then false else fcolor x = .RED

/-- Functional write `x->color = c` (the dummy is immutable). -/
def setColor : Tree → Color → Tree
  | .nil, _ => .nil
  | .node d l r s h dp mx mn _ ty, c => .node d l r s h dp mx mn c ty

/-- Functional write `x->type = t` (the dummy is immutable). -/
def setType : Tree → NType → Tree
  | .nil, _ => .nil
  | .node d l r s h dp mx mn c _, ty => .node d l r s h dp mx mn c ty

/-- Functional write `x->left = l'`. -/
def setLeft : Tree → Tree → Tree
  | .nil, _ => .nil
  | .node d _ r s h dp mx mn c ty, l' => .node d l' r s h dp mx mn c ty

/-- Functional write `x->right = r'`. -/
def setRight : Tree → Tree → Tree
  | .nil, _ => .nil
  | .node d l _ s h dp mx mn c ty, r' => .node d l r' s h dp mx mn c ty

/-- Functional write `x->height = h'`. -/
def setHeight : Tree → Int → Tree
  | .nil, _ => .nil
  | .node d l r s _ dp mx mn c ty, h' => .node d l r s h' dp mx mn c ty

/-- Functional write `x->size = s'`. -/
def setSize : Tree → Int → Tree
  | .nil, _ => .nil
  | .node d l r _ h dp mx mn c ty, s' => .node d l r s' h dp mx mn c ty

/-- `UpdateSize(x)`: `x->size = Size(left) + Size(right) + 1` on non-empty x. -/
def UpdateSize (x : Tree) : Tree :=
  if IsEmpty x then x else setSize x (Size (fleft x) + Size (fright x) + 1)

/-- `UpdateHeight(x)` exactly as the sources parse: the C++ expression
`Height(x->left) + IsRedLink(x->left)? 0 : 1` groups as
`(Height(x->left) + IsRedLink(x->left)) ? 0 : 1` (operator precedence),
so the left summand is 0 unless `Height(left) + redbit(left)` equals 0. -/
def UpdateHeight (x : Tree) : Tree :=
  if IsEmpty x then x else
  let lH : Int := if Height (fleft x) + (if IsRedLink (fleft x) then 1 else 0) ≠ 0 then 0 else 1
  let rH : Int := if ¬ IsEmpty (fright x) then Height (fright x) + 1 else 0
  setHeight x (max lH rH)

/-- Functional write of both depth aggregates. -/
def setMinMaxDepth : Tree → Int → Int → Tree
  | .nil, _, _ => .nil
  | .node d l r s h dp _ _ c ty, mx, mn => .node d l r s h dp mx mn c ty

/-- `UpdateDepth(x)`: recompute `minDepth`/`maxDepth` from the node's own
depth and the children's aggregates. -/
def UpdateDepth (x : Tree) : Tree :=
  if IsEmpty x then x else
  setMinMaxDepth x
    (max (fdepth x) (max (MaxDepth (fleft x)) (MaxDepth (fright x))))
    (min (fdepth x) (min (MinDepth (fleft x)) (MinDepth (fright x))))

/-- `Update(x)`: UpdateSize; UpdateHeight; UpdateDepth. -/
def Update (x : Tree) : Tree := UpdateDepth (UpdateHeight (UpdateSize x))

/-- `Detach(x)` (src/src/RedBlackTree.cpp): save the children, replace them
with the dummy, recolor BLACK, recompute aggregates.  Returns
(old left, old right, detached node). -/
def Detach : Tree → Tree × Tree × Tree
  | .nil => (.nil, .nil, .nil)
  | .node d l r s h dp mx mn _ ty =>
      (l, r, Update (.node d .nil .nil s h dp mx mn .BLACK ty))

/-- `RotateRight(h)`: classical right rotation; the callers guarantee a
non-empty red left child.  Aggregates of both nodes are recomputed. -/
def RotateRight (h : Tree) : Tree :=
  match h with
  | .nil => .nil
  | .node d l r s ht dp mx mn c ty =>
    match l with
    | .nil => .node d l r s ht dp mx mn c ty
    | .node ld ll lr ls lh ldp lmx lmn _ lty =>
        let h' := Update (.node d lr r s ht dp mx mn .RED ty)
        Update (.node ld ll h' ls lh ldp lmx lmn c lty)

/-- `RotateLeft(h)`: classical left rotation, mirror of `RotateRight`. -/
def RotateLeft (h : Tree) : Tree :=
  match h with
  | .nil => .nil
  | .node d l r s ht dp mx mn c ty =>
    match r with
    | .nil => .node d l r s ht dp mx mn c ty
    | .node rd rl rr rs rh rdp rmx rmn _ rty =>
        let h' := Update (.node d l rl s ht dp mx mn .RED ty)
        Update (.node rd h' rr rs rh rdp rmx rmn c rty)

/-- Color complement used by `FlipColors`. -/
def flipC : Color → Color
  | .RED => .BLACK
  | .BLACK => .RED

/-- Flip of one child's color (the dummy is immutable). -/
def flipChild : Tree → Tree
  | .nil => .nil
  | .node d l r s h dp mx mn c ty => .node d l r s h dp mx mn (flipC c) ty

/-- `FlipColors(h)`: toggle the colors of h and of both children (the
asserts of the source restrict the legal call sites; they are no-ops here). -/
def FlipColors : Tree → Tree
  | .nil => .nil
  | .node d l r s h dp mx mn c ty =>
      .node d (flipChild l) (flipChild r) s h dp mx mn (flipC c) ty

/-- `MoveRedLeft(h)`. -/
def MoveRedLeft (h : Tree) : Tree :=
  let h := FlipColors h
  if IsRedLink (fleft (fright h)) then
    let h := setRight h (RotateRight (fright h))
    let h := RotateLeft h
    FlipColors h
  else h

/-- `MoveRedRight(h)`. -/
def MoveRedRight (h : Tree) : Tree :=
  let h := FlipColors h
  if IsRedLink (fleft (fleft h)) then
    let h := RotateRight h
    FlipColors h
  else h

/-- `Balance(x)`: rotate left, rotate right, flip, then recompute the
aggregates; empty subtrees are returned unchanged. -/
def Balance (x : Tree) : Tree :=
  if IsEmpty x then x else
  let x := if ¬ IsRedLink (fleft x) && IsRedLink (fright x) then RotateLeft x else x
  let x := if IsRedLink (fleft x) && IsRedLink (fleft (fleft x)) then RotateRight x else x
  let x := if IsRedLink (fleft x) && IsRedLink (fright x) then FlipColors x else x
  Update x

/-- `BuildNode(data)`: a fresh RED REGULAR node with dummy children and the
constructor's aggregate defaults. -/
def BuildNode (data : Int) : Tree :=
  .node data .nil .nil 1 0 INT_MAX (-INT_MAX) INT_MAX .RED .REGULAR

/-- `Search(h, data, p)`: BST descent over the red-black layer (it stops on
empty, i.e. external or dummy, subtrees); returns the stopping node and its
parent. -/
def Search : Tree → Int → Tree → Tree × Tree
  | .nil, _, p => (.nil, p)
  | h@(.node d l r _ _ _ _ _ _ ty), k, p =>
      if ty = .EXTERNAL then (h, p)
      else if k < d then Search l k h
      else if k > d then Search r k h
      else (h, p)

/-- `Contains(h, data)`. -/
def Contains (h : Tree) (k : Int) : Bool := ¬ IsEmpty (Search h k .nil).1

/-- `Min(t)`: leftmost node of the red-black layer (the `EmptyTree` throw of
the source corresponds to the argument being empty; callers guard). -/
def Min : Tree → Tree
  | .nil => .nil
  | h@(.node _ l _ _ _ _ _ _ _ ty) =>
      if ty = .EXTERNAL then h
      else if IsEmpty l then h else Min l

/-- `Max(t)`: rightmost node of the red-black layer. -/
def Max : Tree → Tree
  | .nil => .nil
  | h@(.node _ _ r _ _ _ _ _ _ ty) =>
      if ty = .EXTERNAL then h
      else if IsEmpty r then h else Max r

/-- Number of `Tree.node` constructors, the termination measure for the
removal and join recursions. -/
def numNodes : Tree → Nat
  | .nil => 0
  | .node _ l r _ _ _ _ _ _ _ => numNodes l + numNodes r + 1

theorem numNodes_flipChild (t : Tree) : numNodes (flipChild t) = numNodes t := by
  cases t <;> simp [flipChild, numNodes]

theorem numNodes_FlipColors (t : Tree) : numNodes (FlipColors t) = numNodes t := by
  cases t <;> simp [FlipColors, numNodes, numNodes_flipChild]

theorem numNodes_setSize (t : Tree) (s : Int) : numNodes (setSize t s) = numNodes t := by
  cases t <;> rfl

theorem numNodes_setHeight (t : Tree) (h : Int) : numNodes (setHeight t h) = numNodes t := by
  cases t <;> rfl

theorem numNodes_setMinMaxDepth (t : Tree) (a b : Int) :
    numNodes (setMinMaxDepth t a b) = numNodes t := by
  cases t <;> rfl

theorem numNodes_UpdateSize (t : Tree) : numNodes (UpdateSize t) = numNodes t := by
  unfold UpdateSize; split
  · rfl
  · exact numNodes_setSize _ _

theorem numNodes_UpdateHeight (t : Tree) : numNodes (UpdateHeight t) = numNodes t := by
  unfold UpdateHeight; split
  · rfl
  · exact numNodes_setHeight _ _

theorem numNodes_UpdateDepth (t : Tree) : numNodes (UpdateDepth t) = numNodes t := by
  unfold UpdateDepth; split
  · rfl
  · exact numNodes_setMinMaxDepth _ _ _

theorem numNodes_Update (t : Tree) : numNodes (Update t) = numNodes t := by
  unfold Update
  rw [numNodes_UpdateDepth, numNodes_UpdateHeight, numNodes_UpdateSize]

theorem numNodes_setRight (t r : Tree) :
    numNodes (setRight t r) = numNodes t - numNodes (fright t) + numNodes r ∨ t = .nil := by
  cases t <;> simp [setRight, numNodes, fright]; omega

theorem numNodes_RotateRight (t : Tree) : numNodes (RotateRight t) = numNodes t := by
  cases t with
  | nil => rfl
  | node d l r s h dp mx mn c ty =>
    cases l <;> simp [RotateRight, numNodes, numNodes_Update] <;> omega

theorem numNodes_RotateLeft (t : Tree) : numNodes (RotateLeft t) = numNodes t := by
  cases t with
  | nil => rfl
  | node d l r s h dp mx mn c ty =>
    cases r <;> simp [RotateLeft, numNodes, numNodes_Update] <;> omega

theorem numNodes_setRight_rr (t : Tree) :
    numNodes (setRight t (RotateRight (fright t))) = numNodes t := by
  cases t <;> simp [setRight, fright, numNodes, numNodes_RotateRight]

theorem numNodes_MoveRedLeft (t : Tree) : numNodes (MoveRedLeft t) = numNodes t := by
  unfold MoveRedLeft
  dsimp only
  split
  · rw [numNodes_FlipColors, numNodes_RotateLeft, numNodes_setRight_rr, numNodes_FlipColors]
  · exact numNodes_FlipColors t

theorem numNodes_MoveRedRight (t : Tree) : numNodes (MoveRedRight t) = numNodes t := by
  unfold MoveRedRight
  dsimp only
  split
  · rw [numNodes_FlipColors, numNodes_RotateRight, numNodes_FlipColors]
  · exact numNodes_FlipColors t

theorem numNodes_Balance (t : Tree) : numNodes (Balance t) = numNodes t := by
  unfold Balance
  split
  · rfl
  · simp only [numNodes_Update]
    split <;> split <;> split <;>
      simp [numNodes_FlipColors, numNodes_RotateLeft, numNodes_RotateRight]

theorem numNodes_fleft_lt (t : Tree) (h : t ≠ .nil) : numNodes (fleft t) < numNodes t := by
  cases t <;> simp_all [fleft, numNodes]; omega

theorem numNodes_fright_lt (t : Tree) (h : t ≠ .nil) : numNodes (fright t) < numNodes t := by
  cases t <;> simp_all [fright, numNodes]; omega

theorem isEmpty_nil_true : IsEmpty Tree.nil = true := rfl

theorem ne_nil_of_not_isEmpty {t : Tree} (h : ¬ IsEmpty t = true) : t ≠ .nil := by
  intro hn; subst hn; exact h rfl

/-- `RemoveMinRec(h)`: drop the leftmost red-black node (its left, an
external subtree or the dummy, falls out of the tree; its right subtree is
pulled up); `MoveRedLeft` keeps a red link on the descent. -/
def RemoveMinRec (h : Tree) : Tree :=
  if hl : IsEmpty (fleft h) then fright h
  else
    let h' := if ¬ IsRedLink (fleft h) && ¬ IsRedLink (fleft (fleft h)) then MoveRedLeft h else h
    Balance (setLeft h' (RemoveMinRec (fleft h')))
termination_by numNodes h
decreasing_by
  have hne : h ≠ .nil := by
    intro hn; subst hn; exact hl rfl
  have h1 : numNodes h' = numNodes h := by
    show numNodes (if _ then _ else _) = _
    split
    · exact numNodes_MoveRedLeft h
    · rfl
  have h2 : h' ≠ .nil := by
    intro hn
    rw [hn] at h1
    cases h : h with
    | nil => exact hne h
    | node d l r s ht dp mx mn c ty => rw [h] at h1; simp [numNodes] at h1
  calc numNodes (fleft h') < numNodes h' := numNodes_fleft_lt h' h2
    _ = numNodes h := h1

/-- `RemoveMin(t)`: seed a red link at the root if both children are black,
recurse, recolor the root BLACK. -/
def RemoveMin (t : Tree) : Tree :=
  let t := if ¬ IsRedLink (fleft t) && ¬ IsRedLink (fright t) then setColor t .RED else t
  setColor (RemoveMinRec t) .BLACK

/-- `RemoveMaxRec(h)`: mirror removal of the rightmost red-black node. -/
def RemoveMaxRec (h : Tree) : Tree :=
  let h0 := if IsRedLink (fleft h) then RotateRight h else h
  if IsEmpty (fright h0) then fleft h0
  else
    let h' := if ¬ IsRedLink (fright h0) && ¬ IsRedLink (fleft (fright h0)) then MoveRedRight h0 else h0
    Balance (setRight h' (RemoveMaxRec (fright h')))
termination_by numNodes h
decreasing_by
  rename_i hr
  have h0eq : numNodes h0 = numNodes h := by
    show numNodes (if _ then _ else _) = _
    split
    · exact numNodes_RotateRight h
    · rfl
  have h1 : numNodes h' = numNodes h0 := by
    show numNodes (if _ then _ else _) = _
    split
    · exact numNodes_MoveRedRight h0
    · rfl
  have h2 : h' ≠ .nil := by
    intro hn
    have : ¬ IsEmpty (fright h0) = true := hr
    have hne : h0 ≠ .nil := by
      intro h0n
      exact this (by rw [h0n]; rfl)
    rw [hn] at h1
    cases hh : h0 with
    | nil => exact hne hh
    | node d l r s ht dp mx mn c ty => rw [hh] at h1; simp [numNodes] at h1
  calc numNodes (fright h') < numNodes h' := numNodes_fright_lt h' h2
    _ = numNodes h0 := h1
    _ = numNodes h := h0eq

/-- `RemoveMax(t)`. -/
def RemoveMax (t : Tree) : Tree :=
  let t := if ¬ IsRedLink (fleft t) && ¬ IsRedLink (fright t) then setColor t .RED else t
  setColor (RemoveMaxRec t) .BLACK

/-- `ExtractMin(t)` of src/src/RedBlackTree.cpp lines 727-733: locate the
min node and remove it; the returned node keeps its own child pointers
(nothing is detached). -/
def ExtractMin (t : Tree) : Tree × Tree := (Min t, RemoveMin t)

/-- Modelled from the spec: `extract-max(t) → (t', max-node)` equivalent to
locating the max and removing it.  The repository ships three divergent
`ExtractMax` bodies (the src/src variant swaps the pair components against
its own documentation, the TangoTree.cpp variant additionally detaches the
node); the tango translation unit requires the pair `(t', max-node)` with
the max node's right pointer still intact, which is what this definition
provides. -/
def ExtractMax (t : Tree) : Tree × Tree := (RemoveMax t, Max t)

/-- `ExtractMin(t)` of TangoTree.cpp lines 830-837: as `ExtractMin`, but the
returned min node is `Detach`ed (both children dummy) before being handed
out. -/
def ExtractMinD (t : Tree) : Tree × Tree := ((Detach (Min t)).2.2, RemoveMin t)

/-- `ExtractMax(t)` of TangoTree.cpp lines 845-852: the remaining tree and
the detached max node. -/
def ExtractMaxD (t : Tree) : Tree × Tree := (RemoveMax t, (Detach (Max t)).2.2)

/-- `JoinRec(t1, x, t2)`: descend the taller side (stored black heights),
then insert `x` as a RED seam node and rebalance on the way out.  The
`.nil` arms of the inner matches are unreachable: `Height .nil = -1` is
minimal, so the strict comparisons cannot select an empty tree to descend
into (the C++ would dereference the dummy's null child there). -/
def JoinRec (t1 x t2 : Tree) : Tree :=
  if Height t1 < Height t2 then
    match t2 with
    | .node d l r s h dp mx mn c ty => Balance (.node d (JoinRec t1 x l) r s h dp mx mn c ty)
    | .nil => Balance (setRight (setLeft (setColor x .RED) t1) t2)
  else if Height t1 > Height t2 then
    match t1 with
    | .node d l r s h dp mx mn c ty => Balance (.node d l (JoinRec r x t2) s h dp mx mn c ty)
    | .nil => Balance (setRight (setLeft (setColor x .RED) t1) t2)
  else
    Balance (setRight (setLeft (setColor x .RED) t1) t2)
termination_by numNodes t1 + numNodes t2
decreasing_by
  · simp [numNodes]; omega
  · simp [numNodes]; omega

/-- `Join(t1, x, t2)`: recursive join, then the root is recolored BLACK
(the asserts of the source are no-ops here). -/
def Join (t1 x t2 : Tree) : Tree := setColor (JoinRec t1 x t2) .BLACK

/-- `SplitRec(h, k)`: BST descent to `k`; each traversed node is detached
and re-joined onto the matching returned half, with the kept subtree
recolored BLACK.  The `.nil` case is unreachable under `Split`'s
`Contains` guard (the C++ would dereference null). -/
def SplitRec : Tree → Int → Tree × Tree × Tree
  | .nil, _ => (.nil, .nil, .nil)
  | h@(.node d l r _ _ _ _ _ _ _), k =>
      if d < k then
        let p := SplitRec r k
        let dt := Detach h
        (Join (setColor dt.1 .BLACK) dt.2.2 p.1, p.2.1, p.2.2)
      else if d > k then
        let p := SplitRec l k
        let dt := Detach h
        (p.1, p.2.1, Join p.2.2 dt.2.2 (setColor dt.2.1 .BLACK))
      else
        let dt := Detach h
        (setColor dt.1 .BLACK, dt.2.2, setColor dt.2.1 .BLACK)

/-- `Split(y, k)`: throws "key not found" when `k` is not in the red-black
layer of `y`, otherwise the `SplitRec` triple. -/
def Split (y : Tree) (k : Int) : Except String (Tree × Tree × Tree) :=
  if Contains y k then .ok (SplitRec y k) else .error "key not found"

/-- `PredecessorRec(h, d)` of the tango translation unit: pair of the
predecessor key (or -1) and the key of the shallowest node of depth ≥ d
found by the left-first descent.  The `.nil` case is unreachable under the
asserted precondition `MaxDepth(h) ≥ d`. -/
def PredecessorRec : Tree → Int → Int × Int
  | .nil, _ => (-1, -1)
  | .node d l r _ _ dp _ _ _ _, dd =>
      if MaxDepth l ≥ dd then PredecessorRec l dd
      else if dp ≥ dd then (if ¬ IsEmpty l then fdata (Max l) else -1, d)
      else
        let p := PredecessorRec r dd
        if p.1 ≠ -1 then p else (d, p.2)

/-- `Predecessor(h, d)`: the assert `MaxDepth(h) ≥ d` is a no-op here. -/
def Predecessor (h : Tree) (d : Int) : Int × Int := PredecessorRec h d

/-- `SuccessorRec(h, d)`: right-first mirror of `PredecessorRec`. -/
def SuccessorRec : Tree → Int → Int × Int
  | .nil, _ => (-1, -1)
  | .node d l r _ _ dp _ _ _ _, dd =>
      if MaxDepth r ≥ dd then SuccessorRec r dd
      else if dp ≥ dd then (if ¬ IsEmpty r then fdata (Min r) else -1, d)
      else
        let s := SuccessorRec l dd
        if s.1 ≠ -1 then s else (d, s.2)

/-- `Successor(h, d)`. -/
def Successor (h : Tree) (d : Int) : Int × Int := SuccessorRec h d

/-- `TangoBuildRec(l, r, d)`: the perfectly balanced reference tree over
keys `[l, r]` at depth `d`: midpoint key `m = (l + r + 1) / 2`, BLACK,
EXTERNAL, `depth = minDepth = maxDepth = d`, size/height left at the
`BuildNode` defaults (1 and 0).  The extra `l ≤ 0` guard only serves
Lean's termination checker: with C++ truncating division the recursion is
ill-founded for nonpositive `l`, which no call from `TangoBuild` (ranges
inside `[1, n]`) ever produces. -/
def TangoBuildRec (l r d : Int) : Tree :=
  if l > r then .nil
  else if l ≤ 0 then .nil
  else
    let m := (l + r + 1) / 2
    .node m (TangoBuildRec l (m - 1) (d + 1)) (TangoBuildRec (m + 1) r (d + 1))
      1 0 d d d .BLACK .EXTERNAL
termination_by (r + 1 - l).toNat
decreasing_by
  · omega
  · omega

/-- `TangoBuild(n)`: build the reference tree over `{1..n}` and mark the
overall root REGULAR. -/
def TangoBuild (n : Int) : Tree := setType (TangoBuildRec 1 n 0) .REGULAR

/-- The in-place child write `p-><side> = v` of the tango code, as a
persistent update: descend exactly as `Search h k` does and replace the
subtree at which the descent stops by `v`. -/
def ReplaceQ : Tree → Int → Tree → Tree
  | .nil, _, v => v
  | .node d l r s h dp mx mn c ty, k, v =>
      if ty = .EXTERNAL then v
      else if k < d then .node d (ReplaceQ l k v) r s h dp mx mn c ty
      else if k > d then .node d l (ReplaceQ r k v) s h dp mx mn c ty
      else v

/-- Case 2 tail of `Tango` (the Rx non-empty case): carve `h'` along the
boundary keys `pred`/`suc` and reassemble with the anchor.  `mxO`/`mnO`
carry the locals `max`/`min` of the C++, which are initialized only on one
extraction path; reading an uninitialized one — as well as the failing
`assert(!IsDummy(..))` and a failing `Split` — is modelled as `none`. -/
def tangoCut (h' : Tree) (pred suc qData : Int) (qq : Tree) (mxO mnO : Option Tree) :
    Option Tree :=
  let s1 : Option (Tree × Tree × Tree) :=
    if pred = -1 then some (.nil, .nil, h')
    else match Split h' pred with
      | .error _ => none
      | .ok t => some t
  match s1 with
  | none => none
  | some (tl, xl, ta) =>
    let s2 : Option (Tree × Tree × Tree) :=
      if suc = -1 then some (ta, .nil, .nil)
      else match Split ta suc with
        | .error _ => none
        | .ok t => some t
    match s2 with
    | none => none
    | some (tm, xr, tg) =>
      let tm := setType tm .EXTERNAL
      if fdata tm < qData then
        let tp := if IsDummy xl then tm else Join tl xl tm
        if IsDummy xr then none
        else match mxO with
          | none => none
          | some mx => some (Join (Join tp xr qq) mx tg)
      else
        let tp := if IsDummy xr then tm else Join tm xr tg
        if IsDummy xl then none
        else match mnO with
          | none => none
          | some mn => some (Join tl mn (Join qq xl tp))

/-- `Tango(h, q, p)` of the tango translation unit, with `q` and `p`
recovered from the search for `k` (in `SearchTango` they come from
`Search(root, k)`, and the side test `p->left == q` is equivalent to
`k < p->data`).  Reads of `h->maxDepth` / `q->minDepth` are direct field
reads of the C++, hence `fmaxDepth` / `fminDepth`. -/
def Tango (h : Tree) (k : Int) : Option Tree :=
  let qp := Search h k .nil
  let q := qp.1
  let p := qp.2
  if fmaxDepth h < fminDepth q then
    let q := setType q .REGULAR
    if k < fdata p then
      let e := ExtractMin q
      let saved := fleft e.1
      let mnD := (Detach e.1).2.2
      let h' := ReplaceQ h k saved
      match Split h' (fdata p) with
      | .error _ => none
      | .ok (tl, y, tg) => some (Join tl mnD (Join e.2 y tg))
    else
      let e := ExtractMax q
      let saved := fright e.2
      let mxD := (Detach e.2).2.2
      let h' := ReplaceQ h k saved
      match Split h' (fdata p) with
      | .error _ => none
      | .ok (tl, y, tg) => some (Join (Join tl y e.1) mxD tg)
  else
    let d := fminDepth q
    let pl := Predecessor h d
    let sr := Successor h d
    let q := setType q .REGULAR
    if pl.2 < fdata q then
      let e := ExtractMax q
      let saved := fright e.2
      let h' := ReplaceQ h k saved
      tangoCut h' pl.1 sr.1 (fdata q) e.1 (some ((Detach e.2).2.2)) none
    else
      let e := ExtractMin q
      let saved := fleft e.1
      let h' := ReplaceQ h k saved
      tangoCut h' pl.1 sr.1 (fdata q) e.2 none (some ((Detach e.1).2.2))

/-- `SearchTango(root, k)` with explicit fuel for the unbounded C++ loop:
while the search for `k` stops on an EXTERNAL node, re-splice via `Tango`.
`none` means the fuel ran out or a tango step failed. -/
def SearchTangoF : Nat → Tree → Int → Option Tree
  | 0, _, _ => none
  | fuel + 1, root, k =>
      if IsExternal (Search root k .nil).1 then
        match Tango root k with
        | none => none
        | some root' => SearchTangoF fuel root' k
      else some root

/-- `IsBSTRec(h, min, max)`: the source's BST check over the red-black
layer; the bound arguments are nodes (the dummy meaning unbounded). -/
def IsBSTRec : Tree → Tree → Tree → Bool
  | .nil, _, _ => true
  | h@(.node d l r _ _ _ _ _ _ ty), mn, mx =>
      if ty = .EXTERNAL then true
      else if ¬ IsEmpty mn && d < fdata mn then false
      else if ¬ IsEmpty mx && d > fdata mx then false
      else IsBSTRec l mn h && IsBSTRec r h mx

/-- `IsBST(t)`. -/
def IsBST (t : Tree) : Bool :=
  if IsEmpty t then true else IsBSTRec t .nil .nil

/-- The left-spine black count seeding `IsBalanced`. -/
def leftSpineBlacks : Tree → Int
  | .nil => 0
  | h@(.node _ l _ _ _ _ _ _ _ ty) =>
      if ty = .EXTERNAL then 0
      else (if ¬ IsRedLink h then 1 else 0) + leftSpineBlacks l

/-- `IsBalanced(h, black)`: every path to an empty subtree crosses the same
number of black links. -/
def IsBalancedRec : Tree → Int → Bool
  | .nil, black => black == 0
  | h@(.node _ l r _ _ _ _ _ _ ty), black =>
      if ty = .EXTERNAL then black == 0
      else
        let black := if ¬ IsRedLink h then black - 1 else black
        IsBalancedRec l black && IsBalancedRec r black

/-- `IsBalanced(t)`. -/
def IsBalanced (t : Tree) : Bool := IsBalancedRec t (leftSpineBlacks t)

/-- `Is23Rec(h)`: no red right link, no two consecutive red links. -/
def Is23Rec : Tree → Bool
  | .nil => true
  | h@(.node _ l r _ _ _ _ _ _ ty) =>
      if ty = .EXTERNAL then true
      else if IsRedLink r then false
      else if IsRedLink h && IsRedLink l then false
      else Is23Rec l && Is23Rec r

/-- `Check(r)`: the source's left-leaning red-black tree checker. -/
def Check (r : Tree) : Bool := IsBalanced r && Is23Rec r && IsBST r

/-- In-order keys of the red-black layer of one auxiliary tree (the
traversal stops on EXTERNAL and dummy subtrees). -/
def keys : Tree → List Int
  | .nil => []
  | .node d l r _ _ _ _ _ _ ty => if ty = .EXTERNAL then [] else keys l ++ d :: keys r

/-- Multiset of the keys of every REGULAR and EXTERNAL node reachable from
the root, crossing auxiliary-tree boundaries. -/
def allKeys : Tree → Multiset Int
  | .nil => 0
  | .node d l r _ _ _ _ _ _ _ => allKeys l + {d} + allKeys r

/-- In-order key list over every node (REGULAR and EXTERNAL alike). -/
def inorderKeys : Tree → List Int
  | .nil => []
  | .node d l r _ _ _ _ _ _ _ => inorderKeys l ++ d :: inorderKeys r

/-- The ascending list of the integers of `[l, r]`. -/
def intList (l r : Int) : List Int :=
  if l > r then [] else l :: intList (l + 1) r
termination_by (r + 1 - l).toNat
decreasing_by omega

/-- `InsertRec(h, data)` (the bodies of the shipped variants agree): an
empty subtree is replaced by a fresh `BuildNode`. -/
def InsertRec : Tree → Int → Tree
  | .nil, d => BuildNode d
  | h@(.node hd l r s ht dp mx mn c ty), d =>
      if ty = .EXTERNAL then BuildNode d
      else if d < hd then Balance (.node hd (InsertRec l d) r s ht dp mx mn c ty)
      else if d > hd then Balance (.node hd l (InsertRec r d) s ht dp mx mn c ty)
      else Balance h

/-- `Insert(h, data)`: recursive insert, then the root is recolored BLACK. -/
def Insert (h : Tree) (d : Int) : Tree := setColor (InsertRec h d) .BLACK

/-- No EXTERNAL node anywhere: the standalone red-black setting. -/
def NoExt : Tree → Bool
  | .nil => true
  | .node _ l r _ _ _ _ _ _ ty => ty == .REGULAR && NoExt l && NoExt r

/-- Aggregate fields as the code's own `Update` recomputes them: `size`,
`height` (with the sources' mis-parenthesized conditional), `minDepth`,
`maxDepth` of every node of the red-black layer equal the recomputation
from its children. -/
def updConsistent : Tree → Bool
  | .nil => true
  | x@(.node _ l r s h _ _ _ _ ty) =>
      if ty == .EXTERNAL then true else
      s == Size l + Size r + 1 &&
      h == max (if Height l + (if IsRedLink l then 1 else 0) ≠ 0 then (0 : Int) else 1)
               (if ¬ IsEmpty r then Height r + 1 else 0) &&
      fminDepth x == min (fdepth x) (min (MinDepth l) (MinDepth r)) &&
      fmaxDepth x == max (fdepth x) (max (MaxDepth l) (MaxDepth r)) &&
      updConsistent l && updConsistent r

/-- Aggregate fields as the specification's canonical recomputation: the
height term is the parenthesized `Height(left) + (IsRedLink(left) ? 0 : 1)`
(spec §3.2, §9), the other three as in `updConsistent`. -/
def specConsistent : Tree → Bool
  | .nil => true
  | x@(.node _ l r s h _ _ _ _ ty) =>
      if ty == .EXTERNAL then true else
      s == Size l + Size r + 1 &&
      h == max (Height l + (if IsRedLink l then (0 : Int) else 1))
               (if IsEmpty r then 0 else Height r + 1) &&
      fminDepth x == min (fdepth x) (min (MinDepth l) (MinDepth r)) &&
      fmaxDepth x == max (fdepth x) (max (MaxDepth l) (MaxDepth r)) &&
      specConsistent l && specConsistent r

/-! Basic preservation lemmas: the scalar-field writers do not change the
key multiset, and rotations/flips/balance permute it. -/

theorem allKeys_setColor (t : Tree) (c : Color) : allKeys (setColor t c) = allKeys t := by
  cases t <;> rfl

theorem allKeys_setType (t : Tree) (ty : NType) : allKeys (setType t ty) = allKeys t := by
  cases t <;> rfl

theorem allKeys_setSize (t : Tree) (v : Int) : allKeys (setSize t v) = allKeys t := by
  cases t <;> rfl

theorem allKeys_setHeight (t : Tree) (v : Int) : allKeys (setHeight t v) = allKeys t := by
  cases t <;> rfl

theorem allKeys_setMinMaxDepth (t : Tree) (a b : Int) :
    allKeys (setMinMaxDepth t a b) = allKeys t := by
  cases t <;> rfl

theorem allKeys_UpdateSize (t : Tree) : allKeys (UpdateSize t) = allKeys t := by
  unfold UpdateSize; split
  · rfl
  · exact allKeys_setSize _ _

theorem allKeys_UpdateHeight (t : Tree) : allKeys (UpdateHeight t) = allKeys t := by
  unfold UpdateHeight; split
  · rfl
  · exact allKeys_setHeight _ _

theorem allKeys_UpdateDepth (t : Tree) : allKeys (UpdateDepth t) = allKeys t := by
  unfold UpdateDepth; split
  · rfl
  · exact allKeys_setMinMaxDepth _ _ _

theorem allKeys_Update (t : Tree) : allKeys (Update t) = allKeys t := by
  unfold Update
  rw [allKeys_UpdateDepth, allKeys_UpdateHeight, allKeys_UpdateSize]

theorem allKeys_flipChild (t : Tree) : allKeys (flipChild t) = allKeys t := by
  cases t <;> rfl

theorem allKeys_FlipColors (t : Tree) : allKeys (FlipColors t) = allKeys t := by
  cases t with
  | nil => rfl
  | node d l r s h dp mx mn c ty =>
      simp [FlipColors, allKeys, allKeys_flipChild]

theorem allKeys_RotateRight (t : Tree) : allKeys (RotateRight t) = allKeys t := by
  cases t with
  | nil => rfl
  | node d l r s h dp mx mn c ty =>
    cases l with
    | nil => rfl
    | node ld ll lr ls lh ldp lmx lmn lc lty =>
        simp only [RotateRight, allKeys_Update, allKeys]
        abel

theorem allKeys_RotateLeft (t : Tree) : allKeys (RotateLeft t) = allKeys t := by
  cases t with
  | nil => rfl
  | node d l r s h dp mx mn c ty =>
    cases r with
    | nil => rfl
    | node rd rl rr rs rh rdp rmx rmn rc rty =>
        simp only [RotateLeft, allKeys_Update, allKeys]
        abel

theorem allKeys_setRight_rr (t : Tree) :
    allKeys (setRight t (RotateRight (fright t))) = allKeys t := by
  cases t with
  | nil => rfl
  | node d l r s h dp mx mn c ty =>
      simp [setRight, fright, allKeys, allKeys_RotateRight]

theorem allKeys_MoveRedLeft (t : Tree) : allKeys (MoveRedLeft t) = allKeys t := by
  unfold MoveRedLeft
  dsimp only
  split
  · rw [allKeys_FlipColors, allKeys_RotateLeft, allKeys_setRight_rr, allKeys_FlipColors]
  · exact allKeys_FlipColors t

theorem allKeys_MoveRedRight (t : Tree) : allKeys (MoveRedRight t) = allKeys t := by
  unfold MoveRedRight
  dsimp only
  split
  · rw [allKeys_FlipColors, allKeys_RotateRight, allKeys_FlipColors]
  · exact allKeys_FlipColors t

theorem allKeys_Balance (t : Tree) : allKeys (Balance t) = allKeys t := by
  unfold Balance
  split
  · rfl
  · dsimp only
    rw [allKeys_Update]
    split
    · split
      · split
        · rw [allKeys_FlipColors, allKeys_RotateRight, allKeys_RotateLeft]
        · rw [allKeys_RotateRight, allKeys_RotateLeft]
      · split
        · rw [allKeys_FlipColors, allKeys_RotateLeft]
        · rw [allKeys_RotateLeft]
    · split
      · split
        · rw [allKeys_FlipColors, allKeys_RotateRight]
        · rw [allKeys_RotateRight]
      · split
        · rw [allKeys_FlipColors]
        · rfl

theorem Detach_fst (t : Tree) : (Detach t).1 = fleft t := by
  cases t <;> rfl

theorem Detach_snd_fst (t : Tree) : (Detach t).2.1 = fright t := by
  cases t <;> rfl

theorem fdata_setSize (t : Tree) (v : Int) : fdata (setSize t v) = fdata t := by
  cases t <;> rfl

theorem fdata_setHeight (t : Tree) (v : Int) : fdata (setHeight t v) = fdata t := by
  cases t <;> rfl

theorem fdata_setMinMaxDepth (t : Tree) (a b : Int) :
    fdata (setMinMaxDepth t a b) = fdata t := by
  cases t <;> rfl

theorem fdata_UpdateSize (t : Tree) : fdata (UpdateSize t) = fdata t := by
  unfold UpdateSize; split
  · rfl
  · exact fdata_setSize _ _

theorem fdata_UpdateHeight (t : Tree) : fdata (UpdateHeight t) = fdata t := by
  unfold UpdateHeight; split
  · rfl
  · exact fdata_setHeight _ _

theorem fdata_UpdateDepth (t : Tree) : fdata (UpdateDepth t) = fdata t := by
  unfold UpdateDepth; split
  · rfl
  · exact fdata_setMinMaxDepth _ _ _

theorem fdata_Update (t : Tree) : fdata (Update t) = fdata t := by
  unfold Update
  rw [fdata_UpdateDepth, fdata_UpdateHeight, fdata_UpdateSize]

theorem allKeys_Detach_last (t : Tree) (h : t ≠ .nil) :
    allKeys (Detach t).2.2 = {fdata t} := by
  cases t with
  | nil => exact absurd rfl h
  | node d l r s ht dp mx mn c ty =>
      simp [Detach, allKeys_Update, allKeys, fdata]

theorem fdata_Detach_last (t : Tree) : fdata (Detach t).2.2 = fdata t := by
  cases t with
  | nil => rfl
  | node d l r s ht dp mx mn c ty =>
      show fdata (Update (.node d .nil .nil s ht dp mx mn .BLACK ty)) = _
      rw [fdata_Update]; rfl

theorem Detach_last_ne_nil (t : Tree) (h : t ≠ .nil) : (Detach t).2.2 ≠ .nil := by
  cases t with
  | nil => exact absurd rfl h
  | node d l r s ht dp mx mn c ty =>
      simp only [Detach]
      intro hc
      have := allKeys_Update (Tree.node d .nil .nil s ht dp mx mn .BLACK ty)
      rw [hc] at this
      simp [allKeys] at this

theorem fleft_setSize (t : Tree) (v : Int) : fleft (setSize t v) = fleft t := by
  cases t <;> rfl

theorem fleft_setHeight (t : Tree) (v : Int) : fleft (setHeight t v) = fleft t := by
  cases t <;> rfl

theorem fleft_setMinMaxDepth (t : Tree) (a b : Int) :
    fleft (setMinMaxDepth t a b) = fleft t := by
  cases t <;> rfl

theorem fleft_UpdateSize (t : Tree) : fleft (UpdateSize t) = fleft t := by
  unfold UpdateSize; split
  · rfl
  · exact fleft_setSize _ _

theorem fleft_UpdateHeight (t : Tree) : fleft (UpdateHeight t) = fleft t := by
  unfold UpdateHeight; split
  · rfl
  · exact fleft_setHeight _ _

theorem fleft_UpdateDepth (t : Tree) : fleft (UpdateDepth t) = fleft t := by
  unfold UpdateDepth; split
  · rfl
  · exact fleft_setMinMaxDepth _ _ _

theorem fleft_Update (t : Tree) : fleft (Update t) = fleft t := by
  unfold Update
  rw [fleft_UpdateDepth, fleft_UpdateHeight, fleft_UpdateSize]

theorem fright_setSize (t : Tree) (v : Int) : fright (setSize t v) = fright t := by
  cases t <;> rfl

theorem fright_setHeight (t : Tree) (v : Int) : fright (setHeight t v) = fright t := by
  cases t <;> rfl

theorem fright_setMinMaxDepth (t : Tree) (a b : Int) :
    fright (setMinMaxDepth t a b) = fright t := by
  cases t <;> rfl

theorem fright_UpdateSize (t : Tree) : fright (UpdateSize t) = fright t := by
  unfold UpdateSize; split
  · rfl
  · exact fright_setSize _ _

theorem fright_UpdateHeight (t : Tree) : fright (UpdateHeight t) = fright t := by
  unfold UpdateHeight; split
  · rfl
  · exact fright_setHeight _ _

theorem fright_UpdateDepth (t : Tree) : fright (UpdateDepth t) = fright t := by
  unfold UpdateDepth; split
  · rfl
  · exact fright_setMinMaxDepth _ _ _

theorem fright_Update (t : Tree) : fright (Update t) = fright t := by
  unfold Update
  rw [fright_UpdateDepth, fright_UpdateHeight, fright_UpdateSize]

theorem fleft_Detach_last (t : Tree) : fleft (Detach t).2.2 = .nil := by
  cases t with
  | nil => rfl
  | node d l r s ht dp mx mn c ty =>
      show fleft (Update (.node d .nil .nil s ht dp mx mn .BLACK ty)) = _
      rw [fleft_Update]; rfl

theorem fright_Detach_last (t : Tree) : fright (Detach t).2.2 = .nil := by
  cases t with
  | nil => rfl
  | node d l r s ht dp mx mn c ty =>
      show fright (Update (.node d .nil .nil s ht dp mx mn .BLACK ty)) = _
      rw [fright_Update]; rfl

/-! Key algebra of join and split. -/

theorem allKeys_seam (t1 x t2 : Tree) (hx : x ≠ .nil) :
    allKeys (Balance (setRight (setLeft (setColor x .RED) t1) t2))
      = allKeys t1 + {fdata x} + allKeys t2 := by
  cases x with
  | nil => exact absurd rfl hx
  | node xd xl xr xs xh xdp xmx xmn xc xty =>
      rw [allKeys_Balance]
      simp [setColor, setLeft, setRight, allKeys, fdata]

theorem allKeys_JoinRec (t1 x t2 : Tree) (hx : x ≠ .nil) :
    allKeys (JoinRec t1 x t2) = allKeys t1 + {fdata x} + allKeys t2 := by
  induction t1, x, t2 using JoinRec.induct with
  | case1 t1 x d l r s h dp mx mn c ty hlt ih =>
      rw [JoinRec.eq_def]
      simp only [if_pos hlt]
      rw [allKeys_Balance]
      simp only [allKeys, ih hx]
      abel
  | case2 t1 x hlt =>
      rw [JoinRec.eq_def]
      simp only [if_pos hlt]
      exact allKeys_seam t1 x .nil hx
  | case3 x t2 d l r s h dp mx mn c ty hnlt hgt ih =>
      rw [JoinRec.eq_def]
      simp only [if_neg hnlt, if_pos hgt]
      rw [allKeys_Balance]
      simp only [allKeys, ih hx]
      abel
  | case4 x t2 hnlt hgt =>
      rw [JoinRec.eq_def]
      simp only [if_neg hnlt, if_pos hgt]
      exact allKeys_seam .nil x t2 hx
  | case5 t1 x t2 hnlt hngt =>
      rw [JoinRec.eq_def]
      simp only [if_neg hnlt, if_neg hngt]
      exact allKeys_seam t1 x t2 hx

theorem allKeys_Join (t1 x t2 : Tree) (hx : x ≠ .nil) :
    allKeys (Join t1 x t2) = allKeys t1 + {fdata x} + allKeys t2 := by
  unfold Join
  rw [allKeys_setColor, allKeys_JoinRec t1 x t2 hx]

theorem allKeys_SplitRec (t : Tree) (k : Int) :
    allKeys (SplitRec t k).1 + allKeys (SplitRec t k).2.1 + allKeys (SplitRec t k).2.2
      = allKeys t := by
  induction t with
  | nil => simp [SplitRec, allKeys]
  | node d l r s h dp mx mn c ty ihl ihr =>
    rw [SplitRec]
    dsimp only
    split
    · have hne : (Detach (Tree.node d l r s h dp mx mn c ty)).2.2 ≠ .nil :=
        Detach_last_ne_nil _ (by intro hc; cases hc)
      rw [allKeys_Join _ _ _ hne, allKeys_setColor, Detach_fst, fdata_Detach_last]
      show allKeys (fleft (Tree.node d l r s h dp mx mn c ty)) + _ + _ + _ + _ = _
      simp only [fleft, fdata, allKeys]
      calc allKeys l + {d} + allKeys (SplitRec r k).1 + allKeys (SplitRec r k).2.1
            + allKeys (SplitRec r k).2.2
          = allKeys l + {d}
            + (allKeys (SplitRec r k).1 + allKeys (SplitRec r k).2.1
                + allKeys (SplitRec r k).2.2) := by abel
        _ = allKeys l + {d} + allKeys r := by rw [ihr]
    · split
      · have hne : (Detach (Tree.node d l r s h dp mx mn c ty)).2.2 ≠ .nil :=
          Detach_last_ne_nil _ (by intro hc; cases hc)
        rw [allKeys_Join _ _ _ hne, allKeys_setColor, Detach_snd_fst, fdata_Detach_last]
        show _ + _ + (allKeys (SplitRec l k).2.2 + {fdata (Tree.node d l r s h dp mx mn c ty)}
          + allKeys (fright (Tree.node d l r s h dp mx mn c ty))) = _
        simp only [fright, fdata, allKeys]
        calc allKeys (SplitRec l k).1 + allKeys (SplitRec l k).2.1
              + (allKeys (SplitRec l k).2.2 + {d} + allKeys r)
            = (allKeys (SplitRec l k).1 + allKeys (SplitRec l k).2.1
                + allKeys (SplitRec l k).2.2) + {d} + allKeys r := by abel
          _ = allKeys l + {d} + allKeys r := by rw [ihl]
      · rw [allKeys_setColor, allKeys_setColor, Detach_fst, Detach_snd_fst,
          allKeys_Detach_last _ (by intro hc; cases hc), fdata]
        show allKeys (fleft (Tree.node d l r s h dp mx mn c ty)) + {d}
          + allKeys (fright (Tree.node d l r s h dp mx mn c ty)) = _
        simp only [fleft, fright, allKeys]

/-! Projection and emptiness lemmas used to track the extremal nodes
through the removal recursions. -/

theorem IsEmpty_flipChild (t : Tree) : IsEmpty (flipChild t) = IsEmpty t := by
  cases t <;> rfl

theorem IsEmpty_setColor (t : Tree) (c : Color) : IsEmpty (setColor t c) = IsEmpty t := by
  cases t <;> rfl

theorem IsEmpty_setType_REGULAR (t : Tree) (h : t ≠ .nil) :
    IsEmpty (setType t .REGULAR) = false := by
  cases t with
  | nil => exact absurd rfl h
  | node d l r s ht dp mx mn c ty => rfl

theorem IsEmpty_setLeft (t v : Tree) : IsEmpty (setLeft t v) = IsEmpty t := by
  cases t <;> rfl

theorem IsEmpty_setRight (t v : Tree) : IsEmpty (setRight t v) = IsEmpty t := by
  cases t <;> rfl

theorem IsEmpty_setSize (t : Tree) (v : Int) : IsEmpty (setSize t v) = IsEmpty t := by
  cases t <;> rfl

theorem IsEmpty_setHeight (t : Tree) (v : Int) : IsEmpty (setHeight t v) = IsEmpty t := by
  cases t <;> rfl

theorem IsEmpty_setMinMaxDepth (t : Tree) (a b : Int) :
    IsEmpty (setMinMaxDepth t a b) = IsEmpty t := by
  cases t <;> rfl

theorem IsEmpty_UpdateSize (t : Tree) : IsEmpty (UpdateSize t) = IsEmpty t := by
  unfold UpdateSize; split
  · rfl
  · exact IsEmpty_setSize _ _

theorem IsEmpty_UpdateHeight (t : Tree) : IsEmpty (UpdateHeight t) = IsEmpty t := by
  unfold UpdateHeight; split
  · rfl
  · exact IsEmpty_setHeight _ _

theorem IsEmpty_UpdateDepth (t : Tree) : IsEmpty (UpdateDepth t) = IsEmpty t := by
  unfold UpdateDepth; split
  · rfl
  · exact IsEmpty_setMinMaxDepth _ _ _

theorem IsEmpty_Update (t : Tree) : IsEmpty (Update t) = IsEmpty t := by
  unfold Update
  rw [IsEmpty_UpdateDepth, IsEmpty_UpdateHeight, IsEmpty_UpdateSize]

theorem IsEmpty_FlipColors (t : Tree) : IsEmpty (FlipColors t) = IsEmpty t := by
  cases t <;> rfl

theorem fleft_setColor (t : Tree) (c : Color) : fleft (setColor t c) = fleft t := by
  cases t <;> rfl

theorem fright_setColor (t : Tree) (c : Color) : fright (setColor t c) = fright t := by
  cases t <;> rfl

theorem fleft_setRight (t v : Tree) : fleft (setRight t v) = fleft t := by
  cases t <;> rfl

theorem fright_setLeft (t v : Tree) : fright (setLeft t v) = fright t := by
  cases t <;> rfl

theorem fleft_FlipColors (t : Tree) : fleft (FlipColors t) = flipChild (fleft t) := by
  cases t <;> rfl

theorem fright_FlipColors (t : Tree) : fright (FlipColors t) = flipChild (fright t) := by
  cases t <;> rfl

theorem flipChild_ne_nil (t : Tree) (h : t ≠ .nil) : flipChild t ≠ .nil := by
  cases t with
  | nil => exact absurd rfl h
  | node d l r s ht dp mx mn c ty => intro hc; cases hc

theorem setter_ne_nil (t : Tree) (h : t ≠ .nil) :
    (∀ c, setColor t c ≠ .nil) ∧ (∀ v, setLeft t v ≠ .nil) ∧ (∀ v, setRight t v ≠ .nil) ∧
    (∀ v, setSize t v ≠ .nil) ∧ (∀ v, setHeight t v ≠ .nil) ∧
    (∀ a b, setMinMaxDepth t a b ≠ .nil) := by
  cases t with
  | nil => exact absurd rfl h
  | node d l r s ht dp mx mn c ty =>
      refine ⟨?_, ?_, ?_, ?_, ?_, ?_⟩ <;> intros <;> intro hc <;> cases hc

theorem Update_ne_nil (t : Tree) (h : t ≠ .nil) : Update t ≠ .nil := by
  intro hc
  have := IsEmpty_Update t
  rw [hc] at this
  cases t with
  | nil => exact h rfl
  | node d l r s ht dp mx mn c ty =>
      have h2 := numNodes_Update (Tree.node d l r s ht dp mx mn c ty)
      rw [hc] at h2
      simp [numNodes] at h2

theorem not_isEmpty_ne_nil {t : Tree} (h : ¬ IsEmpty t = true) : t ≠ .nil := by
  intro hc; subst hc; exact h rfl

theorem redLink_ne_nil {t : Tree} (h : IsRedLink t = true) : t ≠ .nil := by
  intro hc; subst hc; simp [IsRedLink, IsEmpty, IsExternalOrDummy, IsDummy, IsExternal] at h

theorem redLink_not_empty {t : Tree} (h : IsRedLink t = true) : ¬ IsEmpty t = true := by
  intro hc; unfold IsRedLink at h; rw [hc] at h; simp at h

/-- Unfolding of `Min` toward the left child. -/
theorem Min_eq_of_left (t : Tree) (hne : ¬ IsEmpty t = true)
    (hl : ¬ IsEmpty (fleft t) = true) : Min t = Min (fleft t) := by
  cases t with
  | nil => exact absurd rfl hne
  | node d l r s ht dp mx mn c ty =>
      rw [Min]
      have hty : ty ≠ NType.EXTERNAL := by
        intro hc; subst hc; exact hne rfl
      simp only [if_neg hty, fleft] at hl ⊢
      rw [if_neg (by exact fun hc => hl hc)]

/-- Unfolding of `Min` at the minimum node itself. -/
theorem Min_eq_self (t : Tree) (hne : ¬ IsEmpty t = true)
    (hl : IsEmpty (fleft t) = true) : Min t = t := by
  cases t with
  | nil => exact absurd rfl hne
  | node d l r s ht dp mx mn c ty =>
      rw [Min]
      have hty : ty ≠ NType.EXTERNAL := by
        intro hc; subst hc; exact hne rfl
      simp only [fleft] at hl
      simp [hty, hl]

/-- Unfolding of `Max` toward the right child. -/
theorem Max_eq_of_right (t : Tree) (hne : ¬ IsEmpty t = true)
    (hr : ¬ IsEmpty (fright t) = true) : Max t = Max (fright t) := by
  cases t with
  | nil => exact absurd rfl hne
  | node d l r s ht dp mx mn c ty =>
      rw [Max]
      have hty : ty ≠ NType.EXTERNAL := by
        intro hc; subst hc; exact hne rfl
      simp only [if_neg hty, fright] at hr ⊢
      rw [if_neg (by exact fun hc => hr hc)]

/-- Unfolding of `Max` at the maximum node itself. -/
theorem Max_eq_self (t : Tree) (hne : ¬ IsEmpty t = true)
    (hr : IsEmpty (fright t) = true) : Max t = t := by
  cases t with
  | nil => exact absurd rfl hne
  | node d l r s ht dp mx mn c ty =>
      rw [Max]
      have hty : ty ≠ NType.EXTERNAL := by
        intro hc; subst hc; exact hne rfl
      simp only [fright] at hr
      simp [hty, hr]

theorem Min_flipChild (t : Tree) :
    fdata (Min (flipChild t)) = fdata (Min t) ∧
    fleft (Min (flipChild t)) = fleft (Min t) := by
  cases t with
  | nil => exact ⟨rfl, rfl⟩
  | node d l r s ht dp mx mn c ty =>
      show fdata (Min (.node d l r s ht dp mx mn (flipC c) ty)) = _ ∧
        fleft (Min (.node d l r s ht dp mx mn (flipC c) ty)) = _
      rw [Min, Min]
      by_cases hty : ty = NType.EXTERNAL
      · simp [hty, fdata, fleft]
      · by_cases hl : IsEmpty l = true
        · simp [hty, hl, fdata, fleft]
        · simp [hty, hl]

theorem Max_flipChild (t : Tree) :
    fdata (Max (flipChild t)) = fdata (Max t) ∧
    fright (Max (flipChild t)) = fright (Max t) := by
  cases t with
  | nil => exact ⟨rfl, rfl⟩
  | node d l r s ht dp mx mn c ty =>
      show fdata (Max (.node d l r s ht dp mx mn (flipC c) ty)) = _ ∧
        fright (Max (.node d l r s ht dp mx mn (flipC c) ty)) = _
      rw [Max, Max]
      by_cases hty : ty = NType.EXTERNAL
      · simp [hty, fdata, fright]
      · by_cases hr : IsEmpty r = true
        · simp [hty, hr, fdata, fright]
        · simp [hty, hr]

theorem Min_setColor (t : Tree) (c : Color) :
    fdata (Min (setColor t c)) = fdata (Min t) ∧
    fleft (Min (setColor t c)) = fleft (Min t) := by
  cases t with
  | nil => exact ⟨rfl, rfl⟩
  | node d l r s ht dp mx mn c0 ty =>
      show fdata (Min (.node d l r s ht dp mx mn c ty)) = _ ∧
        fleft (Min (.node d l r s ht dp mx mn c ty)) = _
      rw [Min, Min]
      by_cases hty : ty = NType.EXTERNAL
      · simp [hty, fdata, fleft]
      · by_cases hl : IsEmpty l = true
        · simp [hty, hl, fdata, fleft]
        · simp [hty, hl]

theorem Max_setColor (t : Tree) (c : Color) :
    fdata (Max (setColor t c)) = fdata (Max t) ∧
    fright (Max (setColor t c)) = fright (Max t) := by
  cases t with
  | nil => exact ⟨rfl, rfl⟩
  | node d l r s ht dp mx mn c0 ty =>
      show fdata (Max (.node d l r s ht dp mx mn c ty)) = _ ∧
        fright (Max (.node d l r s ht dp mx mn c ty)) = _
      rw [Max, Max]
      by_cases hty : ty = NType.EXTERNAL
      · simp [hty, fdata, fright]
      · by_cases hr : IsEmpty r = true
        · simp [hty, hr, fdata, fright]
        · simp [hty, hr]

theorem fleft_flipChild (t : Tree) : fleft (flipChild t) = fleft t := by
  cases t <;> rfl

theorem fright_flipChild (t : Tree) : fright (flipChild t) = fright t := by
  cases t <;> rfl

theorem fright_setRight_of_ne (t v : Tree) (h : t ≠ .nil) : fright (setRight t v) = v := by
  cases t with
  | nil => exact absurd rfl h
  | node d l r s ht dp mx mn c ty => rfl

theorem fleft_setLeft_of_ne (t v : Tree) (h : t ≠ .nil) : fleft (setLeft t v) = v := by
  cases t with
  | nil => exact absurd rfl h
  | node d l r s ht dp mx mn c ty => rfl

theorem RotateRight_ne_nil (t : Tree) (h : t ≠ .nil) : RotateRight t ≠ .nil := by
  cases t with
  | nil => exact absurd rfl h
  | node d l r s ht dp mx mn c ty =>
      cases l with
      | nil => intro hc; cases hc
      | node ld ll lr ls lh ldp lmx lmn lc lty =>
          exact Update_ne_nil _ (by intro hc; cases hc)

theorem RotateLeft_ne_nil (t : Tree) (h : t ≠ .nil) : RotateLeft t ≠ .nil := by
  cases t with
  | nil => exact absurd rfl h
  | node d l r s ht dp mx mn c ty =>
      cases r with
      | nil => intro hc; cases hc
      | node rd rl rr rs rh rdp rmx rmn rc rty =>
          exact Update_ne_nil _ (by intro hc; cases hc)

theorem allKeys_node_decomp (t : Tree) (h : t ≠ .nil) :
    allKeys t = allKeys (fleft t) + {fdata t} + allKeys (fright t) := by
  cases t with
  | nil => exact absurd rfl h
  | node d l r s ht dp mx mn c ty => rfl

theorem allKeys_setLeft_node (t v : Tree) (h : t ≠ .nil) :
    allKeys (setLeft t v) = allKeys v + {fdata t} + allKeys (fright t) := by
  cases t with
  | nil => exact absurd rfl h
  | node d l r s ht dp mx mn c ty => rfl

theorem allKeys_setRight_node (t v : Tree) (h : t ≠ .nil) :
    allKeys (setRight t v) = allKeys (fleft t) + {fdata t} + allKeys v := by
  cases t with
  | nil => exact absurd rfl h
  | node d l r s ht dp mx mn c ty => rfl

theorem RotateLeft_fleft (w : Tree) (hw : w ≠ .nil) (hr : fright w ≠ .nil) :
    fleft (RotateLeft w) = Update (setRight (setColor w .RED) (fleft (fright w))) := by
  cases w with
  | nil => exact absurd rfl hw
  | node d l r s h dp mx mn c ty =>
    cases r with
    | nil => exact absurd rfl hr
    | node rd rl rr rs rh rdp rmx rmn rc rty =>
        show fleft (Update (.node rd (Update (.node d l rl s h dp mx mn .RED ty))
          rr rs rh rdp rmx rmn c rty)) = _
        rw [fleft_Update]
        rfl

theorem RotateRight_fright (w : Tree) (hw : w ≠ .nil) (hl : fleft w ≠ .nil) :
    fright (RotateRight w) = Update (setLeft (setColor w .RED) (fright (fleft w))) := by
  cases w with
  | nil => exact absurd rfl hw
  | node d l r s h dp mx mn c ty =>
    cases l with
    | nil => exact absurd rfl hl
    | node ld ll lr ls lh ldp lmx lmn lc lty =>
        show fright (Update (.node ld ll (Update (.node d lr r s h dp mx mn .RED ty))
          ls lh ldp lmx lmn c lty)) = _
        rw [fright_Update]
        rfl

/-- Reading the minimum through a flipped child: if `fleft B` is the
color-flip of `l0`, then the minimum of `flipChild B` agrees with the
minimum of `l0` on key and left-hanging keys. -/
theorem Min_through_flip (B l0 : Tree) (hBe : ¬ IsEmpty B = true)
    (hBl : fleft B = flipChild l0) (hl0 : ¬ IsEmpty l0 = true) :
    ¬ IsEmpty (flipChild B) = true ∧
    fdata (Min (flipChild B)) = fdata (Min l0) ∧
    allKeys (fleft (Min (flipChild B))) = allKeys (fleft (Min l0)) := by
  have he : ¬ IsEmpty (flipChild B) = true := by rw [IsEmpty_flipChild]; exact hBe
  have hfl : fleft (flipChild B) = flipChild l0 := by rw [fleft_flipChild, hBl]
  have hm : Min (flipChild B) = Min (flipChild l0) := by
    rw [Min_eq_of_left _ he (by rw [hfl, IsEmpty_flipChild]; exact hl0), hfl]
  rw [hm]
  exact ⟨he, (Min_flipChild l0).1, by rw [(Min_flipChild l0).2]⟩

/-- Mirror of `Min_through_flip` for the maximum. -/
theorem Max_through_flip (B r0 : Tree) (hBe : ¬ IsEmpty B = true)
    (hBr : fright B = flipChild r0) (hr0 : ¬ IsEmpty r0 = true) :
    ¬ IsEmpty (flipChild B) = true ∧
    fdata (Max (flipChild B)) = fdata (Max r0) ∧
    allKeys (fright (Max (flipChild B))) = allKeys (fright (Max r0)) := by
  have he : ¬ IsEmpty (flipChild B) = true := by rw [IsEmpty_flipChild]; exact hBe
  have hfr : fright (flipChild B) = flipChild r0 := by rw [fright_flipChild, hBr]
  have hm : Max (flipChild B) = Max (flipChild r0) := by
    rw [Max_eq_of_right _ he (by rw [hfr, IsEmpty_flipChild]; exact hr0), hfr]
  rw [hm]
  exact ⟨he, (Max_flipChild r0).1, by rw [(Max_flipChild r0).2]⟩

/-- Moving a red link left does not disturb the minimum of the left
subtree: emptiness, its key, and the keys hanging below its left child. -/
theorem MoveRedLeft_min_facts (t : Tree) (hne : ¬ IsEmpty t = true)
    (hl : ¬ IsEmpty (fleft t) = true) :
    ¬ IsEmpty (fleft (MoveRedLeft t)) = true ∧
    fdata (Min (fleft (MoveRedLeft t))) = fdata (Min (fleft t)) ∧
    allKeys (fleft (Min (fleft (MoveRedLeft t)))) = allKeys (fleft (Min (fleft t))) := by
  unfold MoveRedLeft
  dsimp only
  split
  · rename_i hred
    have hAne : FlipColors t ≠ .nil := by
      intro hc
      have h1 := IsEmpty_FlipColors t
      rw [hc] at h1
      exact hne h1.symm
    have hfrAne : fright (FlipColors t) ≠ .nil := by
      intro hc
      rw [hc] at hred
      simp [fleft, IsRedLink, IsEmpty, IsExternalOrDummy, IsDummy, IsExternal] at hred
    have hZne : RotateRight (fright (FlipColors t)) ≠ .nil := RotateRight_ne_nil _ hfrAne
    have hWne : setRight (FlipColors t) (RotateRight (fright (FlipColors t))) ≠ .nil :=
      (setter_ne_nil _ hAne).2.2.1 _
    have hfrW : fright (setRight (FlipColors t) (RotateRight (fright (FlipColors t)))) ≠ .nil := by
      rw [fright_setRight_of_ne _ _ hAne]; exact hZne
    rw [fleft_FlipColors, RotateLeft_fleft _ hWne hfrW]
    exact Min_through_flip _ (fleft t)
      (by rw [IsEmpty_Update, IsEmpty_setRight, IsEmpty_setColor, IsEmpty_setRight,
        IsEmpty_FlipColors]; exact hne)
      (by rw [fleft_Update, fleft_setRight, fleft_setColor, fleft_setRight, fleft_FlipColors])
      hl
  · rw [fleft_FlipColors]
    exact ⟨by rw [IsEmpty_flipChild]; exact hl, (Min_flipChild _).1,
      by rw [(Min_flipChild _).2]⟩

/-- Mirror of `MoveRedLeft_min_facts` for the maximum and `MoveRedRight`. -/
theorem MoveRedRight_max_facts (t : Tree) (hne : ¬ IsEmpty t = true)
    (hr : ¬ IsEmpty (fright t) = true) :
    ¬ IsEmpty (fright (MoveRedRight t)) = true ∧
    fdata (Max (fright (MoveRedRight t))) = fdata (Max (fright t)) ∧
    allKeys (fright (Max (fright (MoveRedRight t)))) = allKeys (fright (Max (fright t))) := by
  unfold MoveRedRight
  dsimp only
  split
  · rename_i hred
    have hAne : FlipColors t ≠ .nil := by
      intro hc
      have h1 := IsEmpty_FlipColors t
      rw [hc] at h1
      exact hne h1.symm
    have hflAne : fleft (FlipColors t) ≠ .nil := by
      intro hc
      rw [hc] at hred
      simp [fleft, IsRedLink, IsEmpty, IsExternalOrDummy, IsDummy, IsExternal] at hred
    rw [fright_FlipColors, RotateRight_fright _ hAne hflAne]
    exact Max_through_flip _ (fright t)
      (by rw [IsEmpty_Update, IsEmpty_setLeft, IsEmpty_setColor, IsEmpty_FlipColors]; exact hne)
      (by rw [fright_Update, fright_setLeft, fright_setColor, fright_FlipColors])
      hr
  · rw [fright_FlipColors]
    exact ⟨by rw [IsEmpty_flipChild]; exact hr, (Max_flipChild _).1,
      by rw [(Max_flipChild _).2]⟩

/-- The leading right-rotation of `RemoveMaxRec` does not disturb the
maximum node's key or the keys hanging below its right child. -/
theorem Max_RotateRight_facts (t : Tree) (hne : ¬ IsEmpty t = true)
    (hred : IsRedLink (fleft t) = true) :
    ¬ IsEmpty (RotateRight t) = true ∧
    fdata (Max (RotateRight t)) = fdata (Max t) ∧
    allKeys (fright (Max (RotateRight t))) = allKeys (fright (Max t)) := by
  cases t with
  | nil => exact absurd rfl hne
  | node d l r s ht dp mx mn c ty =>
    cases l with
    | nil => simp [fleft, IsRedLink, IsEmpty, IsExternalOrDummy, IsDummy, IsExternal] at hred
    | node ld ll lr ls lh ldp lmx lmn lc lty =>
      have hlty : lty = NType.REGULAR := by
        simp only [fleft, IsRedLink] at hred
        by_cases h : lty = NType.EXTERNAL
        · rw [if_pos (by simp [IsEmpty, IsExternalOrDummy, IsExternal, h])] at hred
          simp at hred
        · cases lty
          · rfl
          · exact absurd rfl h
      subst hlty
      show _ ∧ fdata (Max (Update (.node ld ll
          (Update (.node d lr r s ht dp mx mn .RED ty)) ls lh ldp lmx lmn c .REGULAR))) = _ ∧
        allKeys (fright (Max (Update (.node ld ll
          (Update (.node d lr r s ht dp mx mn .RED ty)) ls lh ldp lmx lmn c .REGULAR)))) = _
      have htyR : ty ≠ NType.EXTERNAL := by
        intro hc; subst hc; exact hne rfl
      have houter : ¬ IsEmpty (Update (.node ld ll
          (Update (.node d lr r s ht dp mx mn .RED ty)) ls lh ldp lmx lmn c .REGULAR)) = true := by
        rw [IsEmpty_Update]
        simp [IsEmpty, IsExternalOrDummy, IsExternal, IsDummy]
      have hinner_ne : ¬ IsEmpty (Update (.node d lr r s ht dp mx mn .RED ty)) = true := by
        rw [IsEmpty_Update]
        simp [IsEmpty, IsExternalOrDummy, IsExternal, IsDummy, htyR]
      have h1 : Max (Update (.node ld ll
          (Update (.node d lr r s ht dp mx mn .RED ty)) ls lh ldp lmx lmn c .REGULAR))
          = Max (Update (.node d lr r s ht dp mx mn .RED ty)) := by
        rw [Max_eq_of_right _ houter (by rw [fright_Update]; exact hinner_ne)]
        rw [fright_Update]
        rfl
      refine ⟨houter, ?_, ?_⟩ <;> rw [h1]
      · by_cases hre : IsEmpty r = true
        · rw [Max_eq_self _ hinner_ne (by rw [fright_Update]; exact hre),
            Max_eq_self _ hne (by exact hre)]
          rw [fdata_Update]
          rfl
        · rw [Max_eq_of_right _ hinner_ne (by rw [fright_Update]; exact hre),
            Max_eq_of_right _ hne (by exact hre)]
          rw [fright_Update]
          rfl
      · by_cases hre : IsEmpty r = true
        · rw [Max_eq_self _ hinner_ne (by rw [fright_Update]; exact hre),
            Max_eq_self _ hne (by exact hre)]
          rw [fright_Update]
          rfl
        · rw [Max_eq_of_right _ hinner_ne (by rw [fright_Update]; exact hre),
            Max_eq_of_right _ hne (by exact hre)]
          rw [fright_Update]
          rfl

/-- Key accounting of `RemoveMinRec`: the removed minimum node's key and
the subtree hanging below its left child (an EXTERNAL auxiliary or the
dummy) leave the tree; everything else stays. -/
theorem allKeys_RemoveMinRec (t : Tree) :
    ¬ IsEmpty t = true →
    allKeys (RemoveMinRec t) + allKeys (fleft (Min t)) + {fdata (Min t)} = allKeys t := by
  induction t using RemoveMinRec.induct with
  | case1 x hl =>
      intro hne
      rw [RemoveMinRec]
      rw [dif_pos hl]
      rw [Min_eq_self x hne hl, allKeys_node_decomp x (not_isEmpty_ne_nil hne)]
      abel
  | case2 x hl h'v ih =>
      intro hne
      have hv : h'v = (if (decide ¬IsRedLink (fleft x) = true &&
          decide ¬IsRedLink (fleft (fleft x)) = true) = true then MoveRedLeft x else x) := rfl
      clear_value h'v
      rw [RemoveMinRec, dif_neg hl]
      rw [← hv]
      have hfacts : ¬ IsEmpty (fleft h'v) = true ∧
          fdata (Min (fleft h'v)) = fdata (Min (fleft x)) ∧
          allKeys (fleft (Min (fleft h'v))) = allKeys (fleft (Min (fleft x))) := by
        rw [hv]
        split
        · exact MoveRedLeft_min_facts x hne hl
        · exact ⟨hl, rfl, rfl⟩
      have hkeys : allKeys h'v = allKeys x := by
        rw [hv]
        split
        · exact allKeys_MoveRedLeft x
        · rfl
      obtain ⟨hfe, hfd, hfk⟩ := hfacts
      have hne' : h'v ≠ .nil := by
        intro hc
        rw [hc] at hfe
        exact hfe rfl
      have hMin : Min x = Min (fleft x) := Min_eq_of_left x hne hl
      rw [allKeys_Balance, allKeys_setLeft_node _ _ hne']
      rw [hMin, ← hfd, ← hfk]
      have hsum := ih hfe
      calc allKeys (RemoveMinRec (fleft h'v)) + {fdata h'v} + allKeys (fright h'v)
            + allKeys (fleft (Min (fleft h'v))) + {fdata (Min (fleft h'v))}
          = (allKeys (RemoveMinRec (fleft h'v)) + allKeys (fleft (Min (fleft h'v)))
              + {fdata (Min (fleft h'v))}) + {fdata h'v} + allKeys (fright h'v) := by abel
        _ = allKeys (fleft h'v) + {fdata h'v} + allKeys (fright h'v) := by rw [hsum]
        _ = allKeys h'v := (allKeys_node_decomp h'v hne').symm
        _ = allKeys x := hkeys

/-- Mirror of `allKeys_RemoveMinRec` for `RemoveMaxRec`. -/
theorem allKeys_RemoveMaxRec (t : Tree) :
    ¬ IsEmpty t = true →
    allKeys (RemoveMaxRec t) + allKeys (fright (Max t)) + {fdata (Max t)} = allKeys t := by
  induction t using RemoveMaxRec.induct with
  | case1 x h0v hr =>
      intro hne
      have hv : h0v = (if IsRedLink (fleft x) = true then RotateRight x else x) := rfl
      clear_value h0v
      rw [RemoveMaxRec]
      rw [← hv, if_pos hr]
      have hrot : ¬ IsEmpty h0v = true ∧
          fdata (Max h0v) = fdata (Max x) ∧
          allKeys (fright (Max h0v)) = allKeys (fright (Max x)) ∧
          allKeys h0v = allKeys x := by
        rw [hv]
        split
        · rename_i hred
          obtain ⟨a, b, c⟩ := Max_RotateRight_facts x hne hred
          exact ⟨a, b, c, allKeys_RotateRight x⟩
        · exact ⟨hne, rfl, rfl, rfl⟩
      obtain ⟨h0ne, h0d, h0k, h0keys⟩ := hrot
      rw [← h0d, ← h0k, ← h0keys]
      rw [Max_eq_self h0v h0ne hr, allKeys_node_decomp h0v (not_isEmpty_ne_nil h0ne)]
      abel
  | case2 x h0v hr h'v ih =>
      intro hne
      have hv : h0v = (if IsRedLink (fleft x) = true then RotateRight x else x) := rfl
      have hv' : h'v = (if (decide ¬IsRedLink (fright h0v) = true &&
          decide ¬IsRedLink (fleft (fright h0v)) = true) = true then MoveRedRight h0v else h0v) := rfl
      clear_value h'v
      clear_value h0v
      rw [RemoveMaxRec]
      rw [← hv, if_neg hr, ← hv']
      have hrot : ¬ IsEmpty h0v = true ∧
          fdata (Max h0v) = fdata (Max x) ∧
          allKeys (fright (Max h0v)) = allKeys (fright (Max x)) ∧
          allKeys h0v = allKeys x := by
        rw [hv]
        split
        · rename_i hred
          obtain ⟨a, b, c⟩ := Max_RotateRight_facts x hne hred
          exact ⟨a, b, c, allKeys_RotateRight x⟩
        · exact ⟨hne, rfl, rfl, rfl⟩
      obtain ⟨h0ne, h0d, h0k, h0keys⟩ := hrot
      rw [← h0d, ← h0k, ← h0keys]
      have hfacts : ¬ IsEmpty (fright h'v) = true ∧
          fdata (Max (fright h'v)) = fdata (Max (fright h0v)) ∧
          allKeys (fright (Max (fright h'v))) = allKeys (fright (Max (fright h0v))) := by
        rw [hv']
        split
        · exact MoveRedRight_max_facts h0v h0ne hr
        · exact ⟨hr, rfl, rfl⟩
      have hkeys : allKeys h'v = allKeys h0v := by
        rw [hv']
        split
        · exact allKeys_MoveRedRight h0v
        · rfl
      obtain ⟨hfe, hfd, hfk⟩ := hfacts
      have hne' : h'v ≠ .nil := by
        intro hc
        rw [hc] at hfe
        exact hfe rfl
      have hMax : Max h0v = Max (fright h0v) := Max_eq_of_right h0v h0ne hr
      rw [allKeys_Balance, allKeys_setRight_node _ _ hne']
      rw [hMax, ← hfd, ← hfk]
      have hsum := ih hfe
      calc allKeys (fleft h'v) + {fdata h'v} + allKeys (RemoveMaxRec (fright h'v))
            + allKeys (fright (Max (fright h'v))) + {fdata (Max (fright h'v))}
          = (allKeys (RemoveMaxRec (fright h'v)) + allKeys (fright (Max (fright h'v)))
              + {fdata (Max (fright h'v))}) + {fdata h'v} + allKeys (fleft h'v) := by abel
        _ = allKeys (fright h'v) + {fdata h'v} + allKeys (fleft h'v) := by rw [hsum]
        _ = allKeys h'v := by rw [allKeys_node_decomp h'v hne']; abel
        _ = allKeys h0v := hkeys

/-- Key accounting of `RemoveMin` (root color games do not move keys). -/
theorem allKeys_RemoveMin (t : Tree) (hne : ¬ IsEmpty t = true) :
    allKeys (RemoveMin t) + allKeys (fleft (Min t)) + {fdata (Min t)} = allKeys t := by
  unfold RemoveMin
  dsimp only
  rw [allKeys_setColor]
  split
  · rw [← (Min_setColor t .RED).1, ← (Min_setColor t .RED).2, ← allKeys_setColor t .RED]
    exact allKeys_RemoveMinRec (setColor t .RED) (by rw [IsEmpty_setColor]; exact hne)
  · exact allKeys_RemoveMinRec t hne

/-- Key accounting of `RemoveMax`. -/
theorem allKeys_RemoveMax (t : Tree) (hne : ¬ IsEmpty t = true) :
    allKeys (RemoveMax t) + allKeys (fright (Max t)) + {fdata (Max t)} = allKeys t := by
  unfold RemoveMax
  dsimp only
  rw [allKeys_setColor]
  split
  · rw [← (Max_setColor t .RED).1, ← (Max_setColor t .RED).2, ← allKeys_setColor t .RED]
    exact allKeys_RemoveMaxRec (setColor t .RED) (by rw [IsEmpty_setColor]; exact hne)
  · exact allKeys_RemoveMaxRec t hne

/-! Search, split-middle and child-replacement lemmas. -/

theorem Search_fst_parent (t : Tree) (k : Int) (p p' : Tree) :
    (Search t k p).1 = (Search t k p').1 := by
  induction t generalizing p p' with
  | nil => rfl
  | node d l r s h dp mx mn c ty ihl ihr =>
      rw [Search, Search]
      by_cases hty : ty = NType.EXTERNAL
      · simp [hty]
      · by_cases hlt : k < d
        · simp only [if_neg hty, if_pos hlt]
        · by_cases hgt : k > d
          · simp only [if_neg hty, if_neg hlt, if_pos hgt]
          · simp [hty, hlt, hgt]

theorem Contains_node (d : Int) (l r : Tree) (s h dp mx mn : Int) (c : Color) (ty : NType)
    (hty : ty ≠ NType.EXTERNAL) (k : Int) :
    Contains (.node d l r s h dp mx mn c ty) k =
      (if k < d then Contains l k else if k > d then Contains r k else true) := by
  unfold Contains
  rw [Search]
  by_cases hlt : k < d
  · simp only [if_neg hty, if_pos hlt]
    rw [Search_fst_parent l k (Tree.node d l r s h dp mx mn c ty) .nil]
  · by_cases hgt : k > d
    · simp only [if_neg hty, if_neg hlt, if_pos hgt]
      rw [Search_fst_parent r k (Tree.node d l r s h dp mx mn c ty) .nil]
    · simp only [if_neg hty, if_neg hlt, if_neg hgt]
      simp [IsEmpty, IsExternalOrDummy, IsExternal, IsDummy, hty]

theorem Contains_ext (d : Int) (l r : Tree) (s h dp mx mn : Int) (c : Color) (k : Int) :
    Contains (.node d l r s h dp mx mn c .EXTERNAL) k = false := by
  unfold Contains
  rw [Search]
  simp [IsEmpty, IsExternalOrDummy, IsExternal]

theorem Contains_nil (k : Int) : Contains .nil k = false := by
  unfold Contains
  rfl

/-- The middle component of a successful split is the detached node
holding the searched key. -/
theorem SplitRec_mid (t : Tree) (k : Int) (hc : Contains t k = true) :
    (SplitRec t k).2.1 ≠ .nil ∧ fdata (SplitRec t k).2.1 = k ∧
    allKeys (SplitRec t k).2.1 = {k} ∧
    fleft (SplitRec t k).2.1 = .nil ∧ fright (SplitRec t k).2.1 = .nil := by
  induction t with
  | nil => rw [Contains_nil] at hc; cases hc
  | node d l r s h dp mx mn c ty ihl ihr =>
      by_cases hty : ty = NType.EXTERNAL
      · subst hty; rw [Contains_ext] at hc; cases hc
      · rw [Contains_node d l r s h dp mx mn c ty hty k] at hc
        by_cases hlt : d < k
        · have hklt : ¬ k < d := by omega
          have hkgt : k > d := by omega
          rw [if_neg hklt, if_pos hkgt] at hc
          rw [SplitRec]
          dsimp only
          rw [if_pos hlt]
          exact ihr hc
        · by_cases hgt : d > k
          · have hklt : k < d := by omega
            rw [if_pos hklt] at hc
            rw [SplitRec]
            dsimp only
            rw [if_neg hlt, if_pos hgt]
            exact ihl hc
          · have hdk : d = k := by omega
            rw [SplitRec]
            dsimp only
            rw [if_neg hlt, if_neg hgt]
            refine ⟨Detach_last_ne_nil _ (by intro hx; cases hx), ?_, ?_, ?_, ?_⟩
            · rw [fdata_Detach_last]; exact hdk
            · rw [allKeys_Detach_last _ (by intro hx; cases hx)]
              simp [fdata, hdk]
            · exact fleft_Detach_last _
            · exact fright_Detach_last _

/-- `ReplaceQ` swaps the subtree at which the search stops for `v`. -/
theorem allKeys_ReplaceQ (t : Tree) (k : Int) (v : Tree) :
    allKeys (ReplaceQ t k v) + allKeys (Search t k .nil).1 = allKeys t + allKeys v := by
  induction t with
  | nil =>
      show allKeys v + allKeys .nil = allKeys .nil + allKeys v
      abel
  | node d l r s h dp mx mn c ty ihl ihr =>
      rw [ReplaceQ, Search]
      by_cases hty : ty = NType.EXTERNAL
      · simp only [if_pos hty]
        abel
      · by_cases hlt : k < d
        · simp only [if_neg hty, if_pos hlt]
          rw [Search_fst_parent l k (Tree.node d l r s h dp mx mn c ty) .nil]
          show allKeys (ReplaceQ l k v) + {d} + allKeys r + allKeys (Search l k .nil).1
            = allKeys l + {d} + allKeys r + allKeys v
          calc allKeys (ReplaceQ l k v) + {d} + allKeys r + allKeys (Search l k .nil).1
              = (allKeys (ReplaceQ l k v) + allKeys (Search l k .nil).1) + {d} + allKeys r := by
                abel
            _ = (allKeys l + allKeys v) + {d} + allKeys r := by rw [ihl]
            _ = allKeys l + {d} + allKeys r + allKeys v := by abel
        · by_cases hgt : k > d
          · simp only [if_neg hty, if_neg hlt, if_pos hgt]
            rw [Search_fst_parent r k (Tree.node d l r s h dp mx mn c ty) .nil]
            show allKeys l + {d} + allKeys (ReplaceQ r k v) + allKeys (Search r k .nil).1
              = allKeys l + {d} + allKeys r + allKeys v
            calc allKeys l + {d} + allKeys (ReplaceQ r k v) + allKeys (Search r k .nil).1
                = allKeys l + {d} + (allKeys (ReplaceQ r k v) + allKeys (Search r k .nil).1) := by
                  abel
              _ = allKeys l + {d} + (allKeys r + allKeys v) := by rw [ihr]
              _ = allKeys l + {d} + allKeys r + allKeys v := by abel
          · simp only [if_neg hty, if_neg hlt, if_neg hgt]
            abel

theorem Min_ne_nil (t : Tree) (h : t ≠ .nil) : Min t ≠ .nil := by
  induction t with
  | nil => exact absurd rfl h
  | node d l r s ht dp mx mn c ty ihl ihr =>
      rw [Min]
      split
      · intro hc; cases hc
      · split
        · intro hc; cases hc
        · rename_i hl
          exact ihl (not_isEmpty_ne_nil hl)

theorem Max_ne_nil (t : Tree) (h : t ≠ .nil) : Max t ≠ .nil := by
  induction t with
  | nil => exact absurd rfl h
  | node d l r s ht dp mx mn c ty ihl ihr =>
      rw [Max]
      split
      · intro hc; cases hc
      · split
        · intro hc; cases hc
        · rename_i hr
          exact ihr (not_isEmpty_ne_nil hr)

theorem IsDummy_iff_nil (t : Tree) : IsDummy t = true ↔ t = .nil := by
  cases t <;> simp [IsDummy]

theorem isExternal_ne_nil {t : Tree} (h : IsExternal t = true) : t ≠ .nil := by
  intro hc; subst hc; simp [IsExternal] at h

theorem Split_ok {y : Tree} {k : Int} {t : Tree × Tree × Tree} (h : Split y k = .ok t) :
    Contains y k = true ∧ t = SplitRec y k := by
  unfold Split at h
  split at h
  · rename_i hc
    cases h
    exact ⟨hc, rfl⟩
  · cases h

/-- Outcome of one boundary-split step of the tango cut (`pred = -1`
meaning "no boundary on this side"). -/
theorem splitStep_facts (y : Tree) (key : Int) (dflt res : Tree × Tree × Tree)
    (h : (if key = -1 then some dflt
          else match Split y key with
            | .error _ => none
            | .ok t => some t) = some res) :
    (key = -1 ∧ res = dflt) ∨ (Contains y key = true ∧ res = SplitRec y key) := by
  split at h
  · rename_i hk
    injection h with h
    exact Or.inl ⟨hk, h.symm⟩
  · rcases hsp : Split y key with e | t
    · rw [hsp] at h; cases h
    · rw [hsp] at h
      injection h with h
      subst h
      exact Or.inr ⟨(Split_ok hsp).1, (Split_ok hsp).2⟩

/-- Key accounting of the case-2 tail of `Tango`: on success the result
holds the keys of the carved tree, of the remaining auxiliary, and of the
anchor that was actually initialized. -/
theorem allKeys_tangoCut (h' : Tree) (pred suc qData : Int) (qq : Tree) (mxO mnO : Option Tree)
    (r : Tree) (ht : tangoCut h' pred suc qData qq mxO mnO = some r)
    (hmx : ∀ a, mxO = some a → a ≠ .nil ∧ allKeys a = {fdata a})
    (hmn : ∀ a, mnO = some a → a ≠ .nil ∧ allKeys a = {fdata a}) :
    (∃ a, mxO = some a ∧ allKeys r = allKeys h' + allKeys qq + {fdata a}) ∨
    (∃ a, mnO = some a ∧ allKeys r = allKeys h' + allKeys qq + {fdata a}) := by
  unfold tangoCut at ht
  dsimp only at ht
  rcases ho1 : (if pred = -1 then some ((Tree.nil, Tree.nil, h') : Tree × Tree × Tree)
      else match Split h' pred with
        | .error _ => none
        | .ok t => some t) with _ | ⟨tl, xl, ta⟩
  · rw [ho1] at ht; cases ht
  rw [ho1] at ht
  dsimp only at ht
  have hfacts1 : allKeys tl + allKeys xl + allKeys ta = allKeys h' ∧
      (xl ≠ .nil → allKeys xl = {fdata xl}) ∧
      (xl = .nil → allKeys tl = 0 ∧ allKeys xl = 0) := by
    rcases splitStep_facts h' pred _ _ ho1 with ⟨hp, hres⟩ | ⟨hc, hres⟩
    · simp only [Prod.mk.injEq] at hres
      obtain ⟨rfl, rfl, rfl⟩ := hres
      exact ⟨by simp [allKeys], fun hc => absurd rfl hc, fun _ => ⟨rfl, rfl⟩⟩
    · have h1 : tl = (SplitRec h' pred).1 := by rw [← hres]
      have h2 : xl = (SplitRec h' pred).2.1 := by rw [← hres]
      have h3 : ta = (SplitRec h' pred).2.2 := by rw [← hres]
      rw [h1, h2, h3]
      exact ⟨allKeys_SplitRec h' pred,
        fun _ => by rw [(SplitRec_mid h' pred hc).2.2.1, (SplitRec_mid h' pred hc).2.1],
        fun hnil => absurd hnil (SplitRec_mid h' pred hc).1⟩
  obtain ⟨hsum1, hxl1, hnil1⟩ := hfacts1
  rcases ho2 : (if suc = -1 then some ((ta, Tree.nil, Tree.nil) : Tree × Tree × Tree)
      else match Split ta suc with
        | .error _ => none
        | .ok t => some t) with _ | ⟨tm, xr, tg⟩
  · rw [ho2] at ht; cases ht
  rw [ho2] at ht
  dsimp only at ht
  have hfacts2 : allKeys tm + allKeys xr + allKeys tg = allKeys ta ∧
      (xr ≠ .nil → allKeys xr = {fdata xr}) ∧
      (xr = .nil → allKeys tg = 0 ∧ allKeys xr = 0) := by
    rcases splitStep_facts ta suc _ _ ho2 with ⟨hp, hres⟩ | ⟨hc, hres⟩
    · simp only [Prod.mk.injEq] at hres
      obtain ⟨rfl, rfl, rfl⟩ := hres
      exact ⟨by simp [allKeys], fun hc => absurd rfl hc, fun _ => ⟨rfl, rfl⟩⟩
    · have h1 : tm = (SplitRec ta suc).1 := by rw [← hres]
      have h2 : xr = (SplitRec ta suc).2.1 := by rw [← hres]
      have h3 : tg = (SplitRec ta suc).2.2 := by rw [← hres]
      rw [h1, h2, h3]
      exact ⟨allKeys_SplitRec ta suc,
        fun _ => by rw [(SplitRec_mid ta suc hc).2.2.1, (SplitRec_mid ta suc hc).2.1],
        fun hnil => absurd hnil (SplitRec_mid ta suc hc).1⟩
  obtain ⟨hsum2, hxr2, hnil2⟩ := hfacts2
  split at ht
  · -- branch 1 (tm.key < q.key): the max anchor is consumed
    split at ht
    · cases ht
    · rename_i hxrd
      rcases hmxo : mxO with _ | mx
      · rw [hmxo] at ht; cases ht
      · rw [hmxo] at ht
        dsimp only at ht
        injection ht with ht
        subst ht
        left
        refine ⟨mx, rfl, ?_⟩
        obtain ⟨hmxne, hmxk⟩ := hmx mx hmxo
        have hxrne : xr ≠ .nil := fun hc => hxrd (by rw [hc]; rfl)
        have hxrk := hxr2 hxrne
        rw [allKeys_Join _ _ _ hmxne, allKeys_Join _ _ _ hxrne]
        by_cases hxld : IsDummy xl = true
        · have hxlnil : xl = .nil := (IsDummy_iff_nil xl).mp hxld
          obtain ⟨htl0, hxl0⟩ := hnil1 hxlnil
          rw [if_pos hxld, allKeys_setType]
          rw [hxl0, htl0] at hsum1
          simp only [add_zero, zero_add] at hsum1
          calc allKeys tm + {fdata xr} + allKeys qq + {fdata mx} + allKeys tg
              = (allKeys tm + allKeys xr + allKeys tg) + allKeys qq + {fdata mx} := by
                rw [← hxrk]; abel
            _ = allKeys h' + allKeys qq + {fdata mx} := by rw [hsum2, hsum1]
        · rw [if_neg hxld]
          have hxlne : xl ≠ .nil := fun hc => hxld (by rw [hc]; rfl)
          have hxlk := hxl1 hxlne
          rw [allKeys_Join _ _ _ hxlne, allKeys_setType]
          calc allKeys tl + {fdata xl} + allKeys tm + {fdata xr} + allKeys qq
                + {fdata mx} + allKeys tg
              = (allKeys tl + allKeys xl + (allKeys tm + allKeys xr + allKeys tg))
                + allKeys qq + {fdata mx} := by rw [← hxlk, ← hxrk]; abel
            _ = allKeys h' + allKeys qq + {fdata mx} := by rw [hsum2, hsum1]
  · -- branch 2: the min anchor is consumed
    split at ht
    · cases ht
    · rename_i hxld
      rcases hmno : mnO with _ | mn
      · rw [hmno] at ht; cases ht
      · rw [hmno] at ht
        dsimp only at ht
        injection ht with ht
        subst ht
        right
        refine ⟨mn, rfl, ?_⟩
        obtain ⟨hmnne, hmnk⟩ := hmn mn hmno
        have hxlne : xl ≠ .nil := fun hc => hxld (by rw [hc]; rfl)
        have hxlk := hxl1 hxlne
        rw [allKeys_Join _ _ _ hmnne, allKeys_Join _ _ _ hxlne]
        by_cases hxrd : IsDummy xr = true
        · have hxrnil : xr = .nil := (IsDummy_iff_nil xr).mp hxrd
          obtain ⟨htg0, hxr0⟩ := hnil2 hxrnil
          rw [if_pos hxrd, allKeys_setType]
          rw [hxr0, htg0] at hsum2
          simp only [add_zero] at hsum2
          calc allKeys tl + {fdata mn} + (allKeys qq + {fdata xl} + allKeys tm)
              = (allKeys tl + allKeys xl + allKeys tm) + allKeys qq + {fdata mn} := by
                rw [← hxlk]; abel
            _ = allKeys h' + allKeys qq + {fdata mn} := by rw [hsum2, hsum1]
        · rw [if_neg hxrd]
          have hxrne : xr ≠ .nil := fun hc => hxrd (by rw [hc]; rfl)
          have hxrk := hxr2 hxrne
          rw [allKeys_Join _ _ _ hxrne, allKeys_setType]
          calc allKeys tl + {fdata mn} + (allKeys qq + {fdata xl}
                + (allKeys tm + {fdata xr} + allKeys tg))
              = (allKeys tl + allKeys xl + (allKeys tm + allKeys xr + allKeys tg))
                + allKeys qq + {fdata mn} := by rw [← hxlk, ← hxrk]; abel
            _ = allKeys h' + allKeys qq + {fdata mn} := by rw [hsum2, hsum1]

/-- `Tango` rebuilds the hierarchy from the pieces of the old one: on
success the key multiset is unchanged. -/
theorem allKeys_Tango (h : Tree) (k : Int) (r : Tree)
    (hq : (Search h k .nil).1 ≠ .nil)
    (ht : Tango h k = some r) :
    allKeys r = allKeys h := by
  unfold Tango at ht
  rcases hqp : Search h k .nil with ⟨q, p⟩
  rw [hqp] at ht hq
  dsimp only [ExtractMin, ExtractMax] at ht hq
  have hqE : IsEmpty (setType q .REGULAR) = false := IsEmpty_setType_REGULAR q hq
  have hqEne : ¬ IsEmpty (setType q .REGULAR) = true := by rw [hqE]; exact Bool.false_ne_true
  have hqRne : setType q .REGULAR ≠ .nil := not_isEmpty_ne_nil hqEne
  set qR := setType q .REGULAR with hqRdef
  split at ht
  · split at ht
    · -- case 1, left: the minimum of the auxiliary becomes the new root piece
      have hmq : Min qR ≠ .nil := Min_ne_nil _ hqRne
      have hdne : (Detach (Min qR)).2.2 ≠ .nil := Detach_last_ne_nil _ hmq
      have hrm := allKeys_RemoveMin qR hqEne
      have hrp := allKeys_ReplaceQ h k (fleft (Min qR))
      rw [hqp] at hrp
      dsimp only at hrp
      rcases hsp : Split (ReplaceQ h k (fleft (Min qR))) (fdata p) with e | ⟨tl, y, tg⟩
      · rw [hsp] at ht; cases ht
      · rw [hsp] at ht
        dsimp only at ht
        injection ht with ht
        subst ht
        obtain ⟨hc, hsplit⟩ := Split_ok hsp
        have h1 : tl = (SplitRec (ReplaceQ h k (fleft (Min qR))) (fdata p)).1 := by
          rw [← hsplit]
        have h2 : y = (SplitRec (ReplaceQ h k (fleft (Min qR))) (fdata p)).2.1 := by
          rw [← hsplit]
        have h3 : tg = (SplitRec (ReplaceQ h k (fleft (Min qR))) (fdata p)).2.2 := by
          rw [← hsplit]
        have hsum : allKeys tl + allKeys y + allKeys tg
            = allKeys (ReplaceQ h k (fleft (Min qR))) := by
          rw [h1, h2, h3]; exact allKeys_SplitRec _ _
        have hyne : y ≠ .nil := by rw [h2]; exact (SplitRec_mid _ _ hc).1
        have hyfd : fdata y = fdata p := by rw [h2]; exact (SplitRec_mid _ _ hc).2.1
        have hymid : allKeys y = {fdata p} := by rw [h2]; exact (SplitRec_mid _ _ hc).2.2.1
        rw [allKeys_Join _ _ _ hdne, allKeys_Join _ _ _ hyne,
          fdata_Detach_last, hyfd]
        have hfinal : allKeys tl + {fdata (Min qR)}
              + (allKeys (RemoveMin qR) + {fdata p} + allKeys tg)
              + allKeys (fleft (Min qR))
            = allKeys h + allKeys (fleft (Min qR)) := by
          calc allKeys tl + {fdata (Min qR)}
                + (allKeys (RemoveMin qR) + {fdata p} + allKeys tg)
                + allKeys (fleft (Min qR))
              = allKeys tl + allKeys y + allKeys tg
                + (allKeys (RemoveMin qR) + allKeys (fleft (Min qR))
                  + {fdata (Min qR)}) := by rw [hymid]; abel
            _ = allKeys (ReplaceQ h k (fleft (Min qR))) + allKeys qR := by
                rw [hsum, hrm]
            _ = allKeys (ReplaceQ h k (fleft (Min qR))) + allKeys q := by
                rw [hqRdef, allKeys_setType]
            _ = allKeys h + allKeys (fleft (Min qR)) := hrp
        exact add_right_cancel hfinal
    · -- case 1, right: the maximum of the auxiliary becomes the new root piece
      have hmq : Max qR ≠ .nil := Max_ne_nil _ hqRne
      have hdne : (Detach (Max qR)).2.2 ≠ .nil := Detach_last_ne_nil _ hmq
      have hrm := allKeys_RemoveMax qR hqEne
      have hrp := allKeys_ReplaceQ h k (fright (Max qR))
      rw [hqp] at hrp
      dsimp only at hrp
      rcases hsp : Split (ReplaceQ h k (fright (Max qR))) (fdata p) with e | ⟨tl, y, tg⟩
      · rw [hsp] at ht; cases ht
      · rw [hsp] at ht
        dsimp only at ht
        injection ht with ht
        subst ht
        obtain ⟨hc, hsplit⟩ := Split_ok hsp
        have h1 : tl = (SplitRec (ReplaceQ h k (fright (Max qR))) (fdata p)).1 := by
          rw [← hsplit]
        have h2 : y = (SplitRec (ReplaceQ h k (fright (Max qR))) (fdata p)).2.1 := by
          rw [← hsplit]
        have h3 : tg = (SplitRec (ReplaceQ h k (fright (Max qR))) (fdata p)).2.2 := by
          rw [← hsplit]
        have hsum : allKeys tl + allKeys y + allKeys tg
            = allKeys (ReplaceQ h k (fright (Max qR))) := by
          rw [h1, h2, h3]; exact allKeys_SplitRec _ _
        have hyne : y ≠ .nil := by rw [h2]; exact (SplitRec_mid _ _ hc).1
        have hyfd : fdata y = fdata p := by rw [h2]; exact (SplitRec_mid _ _ hc).2.1
        have hymid : allKeys y = {fdata p} := by rw [h2]; exact (SplitRec_mid _ _ hc).2.2.1
        rw [allKeys_Join _ _ _ hdne, allKeys_Join _ _ _ hyne,
          fdata_Detach_last, hyfd]
        have hfinal : allKeys tl + {fdata p} + allKeys (RemoveMax qR)
              + {fdata (Max qR)} + allKeys tg
              + allKeys (fright (Max qR))
            = allKeys h + allKeys (fright (Max qR)) := by
          calc allKeys tl + {fdata p} + allKeys (RemoveMax qR)
                + {fdata (Max qR)} + allKeys tg
                + allKeys (fright (Max qR))
              = allKeys tl + allKeys y + allKeys tg
                + (allKeys (RemoveMax qR) + allKeys (fright (Max qR))
                  + {fdata (Max qR)}) := by rw [hymid]; abel
            _ = allKeys (ReplaceQ h k (fright (Max qR))) + allKeys qR := by
                rw [hsum, hrm]
            _ = allKeys (ReplaceQ h k (fright (Max qR))) + allKeys q := by
                rw [hqRdef, allKeys_setType]
            _ = allKeys h + allKeys (fright (Max qR)) := hrp
        exact add_right_cancel hfinal
  · split at ht
    · -- case 2, the max of the auxiliary is the anchor
      have hmq : Max qR ≠ .nil := Max_ne_nil _ hqRne
      have hdne : (Detach (Max qR)).2.2 ≠ .nil := Detach_last_ne_nil _ hmq
      have hrm := allKeys_RemoveMax qR hqEne
      have hrp := allKeys_ReplaceQ h k (fright (Max qR))
      rw [hqp] at hrp
      dsimp only at hrp
      have hcut := allKeys_tangoCut _ _ _ _ _ _ _ _ ht
        (fun a ha => by
          injection ha with ha
          subst ha
          exact ⟨hdne, by rw [allKeys_Detach_last _ hmq, fdata_Detach_last]⟩)
        (fun a ha => by cases ha)
      rcases hcut with ⟨a, ha, hk⟩ | ⟨a, ha, hk⟩
      · injection ha with ha
        subst ha
        rw [fdata_Detach_last] at hk
        have hfinal : allKeys r + allKeys (fright (Max qR))
            = allKeys h + allKeys (fright (Max qR)) := by
          calc allKeys r + allKeys (fright (Max qR))
              = allKeys (ReplaceQ h k (fright (Max qR)))
                + (allKeys (RemoveMax qR) + allKeys (fright (Max qR))
                  + {fdata (Max qR)}) := by rw [hk]; abel
            _ = allKeys (ReplaceQ h k (fright (Max qR))) + allKeys qR := by rw [hrm]
            _ = allKeys (ReplaceQ h k (fright (Max qR))) + allKeys q := by
                rw [hqRdef, allKeys_setType]
            _ = allKeys h + allKeys (fright (Max qR)) := hrp
        exact add_right_cancel hfinal
      · cases ha
    · -- case 2, the min of the auxiliary is the anchor
      have hmq : Min qR ≠ .nil := Min_ne_nil _ hqRne
      have hdne : (Detach (Min qR)).2.2 ≠ .nil := Detach_last_ne_nil _ hmq
      have hrm := allKeys_RemoveMin qR hqEne
      have hrp := allKeys_ReplaceQ h k (fleft (Min qR))
      rw [hqp] at hrp
      dsimp only at hrp
      have hcut := allKeys_tangoCut _ _ _ _ _ _ _ _ ht
        (fun a ha => by cases ha)
        (fun a ha => by
          injection ha with ha
          subst ha
          exact ⟨hdne, by rw [allKeys_Detach_last _ hmq, fdata_Detach_last]⟩)
      rcases hcut with ⟨a, ha, hk⟩ | ⟨a, ha, hk⟩
      · cases ha
      · injection ha with ha
        subst ha
        rw [fdata_Detach_last] at hk
        have hfinal : allKeys r + allKeys (fleft (Min qR))
            = allKeys h + allKeys (fleft (Min qR)) := by
          calc allKeys r + allKeys (fleft (Min qR))
              = allKeys (ReplaceQ h k (fleft (Min qR)))
                + (allKeys (RemoveMin qR) + allKeys (fleft (Min qR))
                  + {fdata (Min qR)}) := by rw [hk]; abel
            _ = allKeys (ReplaceQ h k (fleft (Min qR))) + allKeys qR := by rw [hrm]
            _ = allKeys (ReplaceQ h k (fleft (Min qR))) + allKeys q := by
                rw [hqRdef, allKeys_setType]
            _ = allKeys h + allKeys (fleft (Min qR)) := hrp
        exact add_right_cancel hfinal

/-- Splitting the ascending integer list of `[l, r]` at an interior point. -/
theorem intList_split (m : Int) : ∀ (j : Nat) (l r : Int), (m - l).toNat = j → l ≤ m → m ≤ r →
    intList l r = intList l (m - 1) ++ m :: intList (m + 1) r := by
  intro j
  induction j with
  | zero =>
      intro l r hj h1 h2
      have hlm : l = m := by omega
      subst hlm
      have hL : intList l r = l :: intList (l + 1) r := by
        rw [intList.eq_def, if_neg (by omega)]
      have hR : intList l (l - 1) = [] := by
        rw [intList.eq_def, if_pos (by omega)]
      rw [hL, hR]
      rfl
  | succ j ih =>
      intro l r hj h1 h2
      have hlm : l < m := by omega
      have hL : intList l r = l :: intList (l + 1) r := by
        rw [intList.eq_def, if_neg (by omega)]
      have hL2 : intList l (m - 1) = l :: intList (l + 1) (m - 1) := by
        rw [intList.eq_def, if_neg (by omega)]
      rw [hL, hL2, ih (l + 1) r (by omega) (by omega) h2]
      rfl

/-- The reference tree over `[l, r]` holds exactly the keys of `[l, r]`. -/
theorem allKeys_TangoBuildRec : ∀ (j : Nat) (l r d : Int), (r + 1 - l).toNat = j → 0 < l →
    allKeys (TangoBuildRec l r d) = (intList l r : Multiset Int) := by
  intro j
  induction j using Nat.strong_induction_on with
  | _ j ih =>
    intro l r d hj hl
    by_cases hgt : l > r
    · rw [TangoBuildRec.eq_def, if_pos hgt, intList.eq_def, if_pos hgt]
      rfl
    · rw [TangoBuildRec.eq_def, if_neg hgt, if_neg (by omega)]
      dsimp only
      rw [allKeys]
      have hm1 : l ≤ (l + r + 1) / 2 := by omega
      have hm2 : (l + r + 1) / 2 ≤ r := by omega
      rw [ih ((l + r + 1) / 2 - 1 + 1 - l).toNat (by omega) l ((l + r + 1) / 2 - 1) (d + 1)
          rfl hl,
        ih (r + 1 - ((l + r + 1) / 2 + 1)).toNat (by omega) ((l + r + 1) / 2 + 1) r (d + 1)
          rfl (by omega),
        intList_split ((l + r + 1) / 2) ((l + r + 1) / 2 - l).toNat l r rfl hm1 hm2]
      rw [← Multiset.coe_add, ← Multiset.cons_coe, ← Multiset.singleton_add]
      abel

/-- `build(n)` holds exactly the keys `{1..n}`. -/
theorem allKeys_TangoBuild (n : Int) :
    allKeys (TangoBuild n) = (intList 1 n : Multiset Int) := by
  unfold TangoBuild
  rw [allKeys_setType, allKeys_TangoBuildRec (n + 1 - 1).toNat 1 n 0 rfl (by omega)]

/-- `SearchTango` preserves the key multiset whenever it terminates. -/
theorem allKeys_SearchTangoF (fuel : Nat) (root : Tree) (k : Int) (r : Tree)
    (ht : SearchTangoF fuel root k = some r) : allKeys r = allKeys root := by
  induction fuel generalizing root with
  | zero => cases ht
  | succ n ih =>
      rw [SearchTangoF] at ht
      split at ht
      · rename_i hext
        rcases htg : Tango root k with _ | root'
        · rw [htg] at ht; cases ht
        · rw [htg] at ht
          dsimp only at ht
          rw [ih root' ht, allKeys_Tango root k root' (isExternal_ne_nil hext) htg]
      · injection ht with ht; subst ht; rfl

/-- A sequence of `SearchTango` calls (each with its own fuel bound),
threading the returned root. -/
def runSearches : List (Nat × Int) → Tree → Option Tree
  | [], t => some t
  | (fuel, k) :: ops, t =>
      match SearchTangoF fuel t k with
      | none => none
      | some t' => runSearches ops t'

/-- Key preservation over a whole search sequence. -/
theorem allKeys_runSearches (ops : List (Nat × Int)) (t r : Tree)
    (h : runSearches ops t = some r) : allKeys r = allKeys t := by
  induction ops generalizing t with
  | nil => injection h with h; subst h; rfl
  | cons op ops ih =>
      obtain ⟨fuel, k⟩ := op
      rw [runSearches] at h
      rcases hs : SearchTangoF fuel t k with _ | t'
      · rw [hs] at h; cases h
      · rw [hs] at h
        dsimp only at h
        rw [ih t' h, allKeys_SearchTangoF fuel t k t' hs]

/-- C2: For every n > 0, after build(n) and after every subsequent
search-tango call, the multiset of keys of all REGULAR and EXTERNAL nodes
reachable from the root (crossing EXTERNAL boundaries into every auxiliary
tree) equals exactly {1..n}: no key is lost or duplicated by any tango
re-splice. -/
theorem C2_key_universe_preserved (n : Int) (hn : 0 < n)
    (ops : List (Nat × Int)) (r : Tree)
    (hr : runSearches ops (TangoBuild n) = some r) :
    allKeys r = (intList 1 n : Multiset Int) := by
  rw [allKeys_runSearches ops _ r hr, allKeys_TangoBuild]

/-- Witness for C2: `build(3)` followed by `search-tango(root, 2)`. -/
theorem C2_key_universe_preserved_witness :
    0 < (3 : Int) ∧ allKeys (TangoBuild 3) = (intList 1 3 : Multiset Int) :=
  ⟨by decide, C2_key_universe_preserved 3 (by decide) [(1, 2)] (TangoBuild 3)
    (by simp [runSearches, SearchTangoF, TangoBuild, TangoBuildRec.eq_def, Search,
      IsExternal, setType, IsDummy])⟩

/-- The reference-tree shape of the spec for a subtree rooted at recursion
depth `d`: every node's `depth`, `minDepth` and `maxDepth` equal its
recursion depth, its color is BLACK and its type EXTERNAL. -/
def refShape (d : Int) : Tree → Bool
  | .nil => true
  | .node _ l r _ _ dp mx mn c ty =>
      dp == d && mx == d && mn == d && c == .BLACK && ty == .EXTERNAL &&
      refShape (d + 1) l && refShape (d + 1) r

/-- Perfect balance: at every node the two subtree node counts differ by
at most one. -/
def balancedShape : Tree → Bool
  | .nil => true
  | .node _ l r _ _ _ _ _ _ _ =>
      decide (numNodes l ≤ numNodes r + 1) && decide (numNodes r ≤ numNodes l + 1) &&
      balancedShape l && balancedShape r

/-- Number of EXTERNAL nodes reachable from the root. -/
def countExternal : Tree → Nat
  | .nil => 0
  | .node _ l r _ _ _ _ _ _ ty =>
      countExternal l + countExternal r + (if ty = .EXTERNAL then 1 else 0)

theorem inorderKeys_setType (t : Tree) (ty : NType) :
    inorderKeys (setType t ty) = inorderKeys t := by
  cases t <;> rfl

theorem numNodes_setType (t : Tree) (ty : NType) :
    numNodes (setType t ty) = numNodes t := by
  cases t <;> rfl

theorem balancedShape_setType (t : Tree) (ty : NType) :
    balancedShape (setType t ty) = balancedShape t := by
  cases t with
  | nil => rfl
  | node d l r s h dp mx mn c ty0 =>
      simp only [setType, balancedShape, numNodes_setType]

/-- The in-order key list of the reference tree over `[l, r]` is the
ascending list of `[l, r]`. -/
theorem inorderKeys_TangoBuildRec : ∀ (j : Nat) (l r d : Int), (r + 1 - l).toNat = j →
    0 < l → inorderKeys (TangoBuildRec l r d) = intList l r := by
  intro j
  induction j using Nat.strong_induction_on with
  | _ j ih =>
    intro l r d hj hl
    by_cases hgt : l > r
    · rw [TangoBuildRec.eq_def, if_pos hgt, intList.eq_def, if_pos hgt]
      rfl
    · rw [TangoBuildRec.eq_def, if_neg hgt, if_neg (by omega)]
      dsimp only
      rw [inorderKeys]
      have hm1 : l ≤ (l + r + 1) / 2 := by omega
      have hm2 : (l + r + 1) / 2 ≤ r := by omega
      rw [ih ((l + r + 1) / 2 - 1 + 1 - l).toNat (by omega) l ((l + r + 1) / 2 - 1) (d + 1)
          rfl hl,
        ih (r + 1 - ((l + r + 1) / 2 + 1)).toNat (by omega) ((l + r + 1) / 2 + 1) r (d + 1)
          rfl (by omega),
        intList_split ((l + r + 1) / 2) ((l + r + 1) / 2 - l).toNat l r rfl hm1 hm2]

/-- Node count of the reference tree over `[l, r]`. -/
theorem numNodes_TangoBuildRec : ∀ (j : Nat) (l r d : Int), (r + 1 - l).toNat = j →
    0 < l → numNodes (TangoBuildRec l r d) = (r + 1 - l).toNat := by
  intro j
  induction j using Nat.strong_induction_on with
  | _ j ih =>
    intro l r d hj hl
    by_cases hgt : l > r
    · rw [TangoBuildRec.eq_def, if_pos hgt]
      simp [numNodes]
      omega
    · rw [TangoBuildRec.eq_def, if_neg hgt, if_neg (by omega)]
      dsimp only
      rw [numNodes]
      rw [ih ((l + r + 1) / 2 - 1 + 1 - l).toNat (by omega) l ((l + r + 1) / 2 - 1) (d + 1)
          rfl hl,
        ih (r + 1 - ((l + r + 1) / 2 + 1)).toNat (by omega) ((l + r + 1) / 2 + 1) r (d + 1)
          rfl (by omega)]
      omega

/-- Every node of the reference tree over `[l, r]` at recursion depth `d`
has its three depth aggregates equal to `d`, color BLACK, type EXTERNAL. -/
theorem refShape_TangoBuildRec : ∀ (j : Nat) (l r d : Int), (r + 1 - l).toNat = j →
    refShape d (TangoBuildRec l r d) = true := by
  intro j
  induction j using Nat.strong_induction_on with
  | _ j ih =>
    intro l r d hj
    by_cases hgt : l > r
    · rw [TangoBuildRec.eq_def, if_pos hgt]
      rfl
    · by_cases hl : l ≤ 0
      · rw [TangoBuildRec.eq_def, if_neg hgt, if_pos hl]
        rfl
      · rw [TangoBuildRec.eq_def, if_neg hgt, if_neg hl]
        dsimp only
        rw [refShape]
        rw [ih ((l + r + 1) / 2 - 1 + 1 - l).toNat (by omega) l ((l + r + 1) / 2 - 1) (d + 1)
            rfl,
          ih (r + 1 - ((l + r + 1) / 2 + 1)).toNat (by omega) ((l + r + 1) / 2 + 1) r (d + 1)
            rfl]
        simp

/-- The reference tree over `[l, r]` is perfectly balanced. -/
theorem balancedShape_TangoBuildRec : ∀ (j : Nat) (l r d : Int), (r + 1 - l).toNat = j →
    0 < l → balancedShape (TangoBuildRec l r d) = true := by
  intro j
  induction j using Nat.strong_induction_on with
  | _ j ih =>
    intro l r d hj hl
    by_cases hgt : l > r
    · rw [TangoBuildRec.eq_def, if_pos hgt]
      rfl
    · rw [TangoBuildRec.eq_def, if_neg hgt, if_neg (by omega)]
      dsimp only
      rw [balancedShape]
      rw [ih ((l + r + 1) / 2 - 1 + 1 - l).toNat (by omega) l ((l + r + 1) / 2 - 1) (d + 1)
          rfl hl,
        ih (r + 1 - ((l + r + 1) / 2 + 1)).toNat (by omega) ((l + r + 1) / 2 + 1) r (d + 1)
          rfl (by omega),
        numNodes_TangoBuildRec ((l + r + 1) / 2 - 1 + 1 - l).toNat l ((l + r + 1) / 2 - 1)
          (d + 1) rfl hl,
        numNodes_TangoBuildRec (r + 1 - ((l + r + 1) / 2 + 1)).toNat ((l + r + 1) / 2 + 1) r
          (d + 1) rfl (by omega)]
      simp only [Bool.and_true, Bool.and_eq_true, decide_eq_true_eq]
      constructor <;> omega

/-- One unfold of `build(n)` for positive `n`: the root carries the
midpoint of `[1, n]`, depth aggregates 0, BLACK, and is re-marked
REGULAR. -/
theorem TangoBuild_root (n : Int) (hn : 0 < n) :
    TangoBuild n = .node ((1 + n + 1) / 2) (TangoBuildRec 1 ((1 + n + 1) / 2 - 1) 1)
      (TangoBuildRec ((1 + n + 1) / 2 + 1) n 1) 1 0 0 0 0 .BLACK .REGULAR := by
  unfold TangoBuild
  rw [TangoBuildRec.eq_def, if_neg (by omega), if_neg (by omega)]
  rfl

/-- C7: for every n > 0, build(n) returns the perfectly balanced reference
BST over keys {1..n} built by choosing the midpoint at each range, with
every node's depth, minDepth and maxDepth equal to its recursion depth,
color BLACK and type EXTERNAL, except the overall root which is REGULAR
(with depth aggregates 0); in particular build(15) has root key 8 and the
14 other nodes EXTERNAL. -/
theorem C7_build_reference (n : Int) (hn : 0 < n) :
    inorderKeys (TangoBuild n) = intList 1 n ∧
    numNodes (TangoBuild n) = n.toNat ∧
    balancedShape (TangoBuild n) = true ∧
    fdata (TangoBuild n) = (1 + n + 1) / 2 ∧
    fdepth (TangoBuild n) = 0 ∧ fminDepth (TangoBuild n) = 0 ∧
    fmaxDepth (TangoBuild n) = 0 ∧ fcolor (TangoBuild n) = .BLACK ∧
    IsExternal (TangoBuild n) = false ∧ TangoBuild n ≠ .nil ∧
    refShape 1 (fleft (TangoBuild n)) = true ∧
    refShape 1 (fright (TangoBuild n)) = true ∧
    fdata (TangoBuild 15) = 8 ∧ countExternal (TangoBuild 15) = 14 ∧
    numNodes (TangoBuild 15) = 15 := by
  refine ⟨?_, ?_, ?_, ?_, ?_, ?_, ?_, ?_, ?_, ?_, ?_, ?_, ?_, ?_, ?_⟩
  · rw [TangoBuild, inorderKeys_setType,
      inorderKeys_TangoBuildRec (n + 1 - 1).toNat 1 n 0 rfl (by omega)]
  · rw [TangoBuild, numNodes_setType,
      numNodes_TangoBuildRec (n + 1 - 1).toNat 1 n 0 rfl (by omega)]
    omega
  · rw [TangoBuild, balancedShape_setType,
      balancedShape_TangoBuildRec (n + 1 - 1).toNat 1 n 0 rfl (by omega)]
  · rw [TangoBuild_root n hn]; rfl
  · rw [TangoBuild_root n hn]; rfl
  · rw [TangoBuild_root n hn]; rfl
  · rw [TangoBuild_root n hn]; rfl
  · rw [TangoBuild_root n hn]; rfl
  · rw [TangoBuild_root n hn]
    rfl
  · rw [TangoBuild_root n hn]
    exact fun hc => Tree.noConfusion hc
  · rw [TangoBuild_root n hn]
    exact refShape_TangoBuildRec ((1 + n + 1) / 2 - 1 + 1 - 1).toNat 1
      ((1 + n + 1) / 2 - 1) 1 rfl
  · rw [TangoBuild_root n hn]
    exact refShape_TangoBuildRec (n + 1 - ((1 + n + 1) / 2 + 1)).toNat
      ((1 + n + 1) / 2 + 1) n 1 rfl
  · rw [TangoBuild_root 15 (by omega)]
    decide
  · simp [TangoBuild, TangoBuildRec.eq_def, countExternal, setType]
  · rw [TangoBuild, numNodes_setType,
      numNodes_TangoBuildRec 15 1 15 0 (by decide) (by omega)]
    decide

/-- Witness for C7 at n = 15. -/
theorem C7_build_reference_witness :
    0 < (15 : Int) ∧ fdata (TangoBuild 15) = 8 ∧ countExternal (TangoBuild 15) = 14 :=
  ⟨by decide,
    (C7_build_reference 15 (by decide)).2.2.2.2.2.2.2.2.2.2.2.2.1,
    (C7_build_reference 15 (by decide)).2.2.2.2.2.2.2.2.2.2.2.2.2.1⟩

/-- The claim's operational description of `predecessor(h, d)`, written
from the spec's words: recurse left while `MaxDepth(left) ≥ d`; at the
first node with `depth ≥ d` reached from the left, the second component is
that node's key and the first is `Max(left).key`, or `-1` if its left
subtree is empty; otherwise recurse right and replace a returned first
component of `-1` with the current node's key. -/
def predecessorOp : Tree → Int → Int × Int
  | .nil, _ => (-1, -1)
  | .node key l r _ _ dp _ _ _ _, d =>
      if MaxDepth l ≥ d then predecessorOp l d
      else if dp ≥ d then
        if IsEmpty l then (-1, key) else (fdata (Max l), key)
      else
        match predecessorOp r d with
        | (p, tm) => if p = -1 then (key, tm) else (p, tm)

/-- Right-first mirror image of `predecessorOp`, from the spec's words. -/
def successorOp : Tree → Int → Int × Int
  | .nil, _ => (-1, -1)
  | .node key l r _ _ dp _ _ _ _, d =>
      if MaxDepth r ≥ d then successorOp r d
      else if dp ≥ d then
        if IsEmpty r then (-1, key) else (fdata (Min r), key)
      else
        match successorOp l d with
        | (s, tm) => if s = -1 then (key, tm) else (s, tm)

/-- The code's `PredecessorRec` computes the claim's operational
description. -/
theorem predecessorRec_op (h : Tree) (d : Int) : PredecessorRec h d = predecessorOp h d := by
  induction h with
  | nil => rfl
  | node key l r s ht dp mx mn c ty ihl ihr =>
      rw [PredecessorRec, predecessorOp]
      split
      · exact ihl
      · split
        · by_cases hE : IsEmpty l = true
          · simp [hE]
          · simp [hE]
        · rw [← ihr]
          rcases hp : PredecessorRec r d with ⟨p1, p2⟩
          dsimp only
          by_cases h1 : p1 = -1
          · subst h1; simp
          · simp [h1]

/-- The code's `SuccessorRec` computes the claim's operational
description. -/
theorem successorRec_op (h : Tree) (d : Int) : SuccessorRec h d = successorOp h d := by
  induction h with
  | nil => rfl
  | node key l r s ht dp mx mn c ty ihl ihr =>
      rw [SuccessorRec, successorOp]
      split
      · exact ihr
      · split
        · by_cases hE : IsEmpty r = true
          · simp [hE]
          · simp [hE]
        · rw [← ihl]
          rcases hp : SuccessorRec l d with ⟨s1, s2⟩
          dsimp only
          by_cases h1 : s1 = -1
          · subst h1; simp
          · simp [h1]

/-- C8: under the precondition `MaxDepth(h) ≥ d`, `predecessor(h, d)`
returns the pair described operationally by the spec (left-first descent,
`-1` sentinel replacement on the way back up), and `successor(h, d)` is
its right-first mirror image. -/
theorem C8_predecessor_successor (h : Tree) (d : Int) (hpre : MaxDepth h ≥ d) :
    Predecessor h d = predecessorOp h d ∧ Successor h d = successorOp h d :=
  ⟨predecessorRec_op h d, successorRec_op h d⟩

/-- Witness tree for C8: key 2 at depth 0 with a left child of key 1 at
depth 1. -/
def c8tree : Tree :=
  .node 2 (.node 1 .nil .nil 1 0 1 1 1 .BLACK .REGULAR) .nil 2 0 0 1 0 .BLACK .REGULAR

/-- Witness for C8. -/
theorem C8_predecessor_successor_witness :
    MaxDepth c8tree ≥ 1 ∧
      (Predecessor c8tree 1 = predecessorOp c8tree 1 ∧
        Successor c8tree 1 = successorOp c8tree 1) :=
  ⟨by decide, C8_predecessor_successor c8tree 1 (by decide)⟩

/-- After a successful `SearchTango`, the search for `k` in the returned
root stops on a non-EXTERNAL node. -/
theorem SearchTangoF_post (fuel : Nat) (root : Tree) (k : Int) (r : Tree)
    (h : SearchTangoF fuel root k = some r) :
    IsExternal (Search r k .nil).1 = false := by
  induction fuel generalizing root with
  | zero => cases h
  | succ n ih =>
      rw [SearchTangoF] at h
      split at h
      · rcases htg : Tango root k with _ | root'
        · rw [htg] at h; cases h
        · rw [htg] at h
          dsimp only at h
          exact ih root' h
      · rename_i hext
        injection h with h
        subst h
        exact Bool.eq_false_iff.mpr hext

/-- C9: calling search-tango twice in a row yields, on the second call,
the same root with no structural change: the second call returns the
first call's result unchanged (for any positive fuel bound). -/
theorem C9_searchTango_idempotent (fuel fuel' : Nat) (root : Tree) (k : Int) (r : Tree)
    (h : SearchTangoF fuel root k = some r) (hf : 0 < fuel') :
    SearchTangoF fuel' r k = some r := by
  obtain ⟨m, rfl⟩ : ∃ m, fuel' = m + 1 := ⟨fuel' - 1, by omega⟩
  rw [SearchTangoF, if_neg]
  intro hc
  rw [SearchTangoF_post fuel root k r h] at hc
  cases hc

/-- Witness for C9: search-tango for key 2 on `build(3)`, twice. -/
theorem C9_searchTango_idempotent_witness :
    SearchTangoF 1 (TangoBuild 3) 2 = some (TangoBuild 3) ∧ (0 : Nat) < 1 :=
  ⟨C9_searchTango_idempotent 1 1 (TangoBuild 3) 2 (TangoBuild 3)
    (by simp [SearchTangoF, TangoBuild, TangoBuildRec.eq_def, Search, IsExternal,
      setType, IsDummy])
    (by decide), by decide⟩

/-- Components of `NoExt` at a node. -/
theorem NoExt_node {d : Int} {l r : Tree} {s h dp mx mn : Int} {c : Color} {ty : NType}
    (hN : NoExt (.node d l r s h dp mx mn c ty) = true) :
    ty = NType.REGULAR ∧ NoExt l = true ∧ NoExt r = true := by
  simp only [NoExt, Bool.and_eq_true, beq_iff_eq] at hN
  exact ⟨hN.1.1, hN.1.2, hN.2⟩

theorem keys_node (d : Int) (l r : Tree) (s h dp mx mn : Int) (c : Color) (ty : NType)
    (hty : ty ≠ NType.EXTERNAL) :
    keys (.node d l r s h dp mx mn c ty) = keys l ++ d :: keys r := by
  rw [keys, if_neg hty]

/-- Splitting a sorted in-order list around its node key. -/
theorem pairwise_parts {A B : List Int} {d : Int}
    (hS : List.Pairwise (fun a b => a < b) (A ++ d :: B)) :
    List.Pairwise (fun a b => a < b) A ∧ List.Pairwise (fun a b => a < b) B ∧
      (∀ a ∈ A, a < d) ∧ (∀ b ∈ B, d < b) := by
  rw [List.pairwise_append] at hS
  obtain ⟨hA, hdB, hcross⟩ := hS
  rw [List.pairwise_cons] at hdB
  exact ⟨hA, hdB.2, fun a ha => hcross a ha d (List.mem_cons_self d B), hdB.1⟩

/-- Without EXTERNAL nodes the reachable-key multiset is the in-order key
list of the red-black layer. -/
theorem allKeys_eq_keys (t : Tree) (hN : NoExt t = true) :
    allKeys t = (keys t : Multiset Int) := by
  induction t with
  | nil => rfl
  | node d l r s h dp mx mn c ty ihl ihr =>
      obtain ⟨hty, hNl, hNr⟩ := NoExt_node hN
      rw [keys_node d l r s h dp mx mn c ty (by rw [hty]; intro hc; cases hc)]
      rw [allKeys, ihl hNl, ihr hNr]
      rw [← Multiset.coe_add, ← Multiset.cons_coe, ← Multiset.singleton_add]
      abel

/-- On a tree with sorted in-order keys and no EXTERNAL nodes, `Contains`
decides key membership. -/
theorem Contains_iff_mem (t : Tree) (k : Int) (hN : NoExt t = true)
    (hS : List.Pairwise (fun a b => a < b) (keys t)) :
    Contains t k = true ↔ k ∈ keys t := by
  induction t with
  | nil => rw [Contains_nil]; simp [keys]
  | node d l r s h dp mx mn c ty ihl ihr =>
      obtain ⟨hty, hNl, hNr⟩ := NoExt_node hN
      have htyE : ty ≠ NType.EXTERNAL := by rw [hty]; intro hc; cases hc
      rw [keys_node d l r s h dp mx mn c ty htyE] at hS ⊢
      obtain ⟨hSl, hSr, hld, hdr⟩ := pairwise_parts hS
      rw [Contains_node d l r s h dp mx mn c ty htyE k]
      by_cases hlt : k < d
      · rw [if_pos hlt, ihl hNl hSl]
        constructor
        · intro hk
          simp [hk]
        · intro hk
          simp only [List.mem_append, List.mem_cons] at hk
          rcases hk with h1 | h1 | h1
          · exact h1
          · omega
          · exact absurd (hdr k h1) (by omega)
      · by_cases hgt : k > d
        · rw [if_neg hlt, if_pos hgt, ihr hNr hSr]
          constructor
          · intro hk
            simp [hk]
          · intro hk
            simp only [List.mem_append, List.mem_cons] at hk
            rcases hk with h1 | h1 | h1
            · exact absurd (hld k h1) (by omega)
            · omega
            · exact h1
        · have hkd : k = d := by omega
          subst hkd
          rw [if_neg hlt, if_neg hgt]
          simp
/-- Partition property of `SplitRec` on a sorted, EXTERNAL-free tree:
every key of the first component is below the split key and every key of
the last component above it. -/
theorem SplitRec_partition (t : Tree) (k : Int) (hN : NoExt t = true)
    (hS : List.Pairwise (fun a b => a < b) (keys t)) :
    (∀ a ∈ allKeys (SplitRec t k).1, a < k) ∧
    (∀ a ∈ allKeys (SplitRec t k).2.2, k < a) := by
  induction t with
  | nil =>
      constructor <;> intro a ha <;> simp [SplitRec, allKeys] at ha
  | node d l r s h dp mx mn c ty ihl ihr =>
      obtain ⟨hty, hNl, hNr⟩ := NoExt_node hN
      have htyE : ty ≠ NType.EXTERNAL := by rw [hty]; intro hc; cases hc
      rw [keys_node d l r s h dp mx mn c ty htyE] at hS
      obtain ⟨hSl, hSr, hld, hdr⟩ := pairwise_parts hS
      have hnn : (Tree.node d l r s h dp mx mn c ty) ≠ .nil := fun hc => Tree.noConfusion hc
      have hdet : (Detach (Tree.node d l r s h dp mx mn c ty)).2.2 ≠ .nil :=
        Detach_last_ne_nil _ hnn
      rw [SplitRec]
      by_cases hlt : d < k
      · rw [if_pos hlt]
        dsimp only
        constructor
        · intro a ha
          rw [allKeys_Join _ _ _ hdet, allKeys_setColor, Detach_fst, fdata_Detach_last] at ha
          dsimp only [fleft, fdata] at ha
          simp only [Multiset.mem_add, Multiset.mem_singleton] at ha
          rcases ha with (ha | ha) | ha
          · rw [allKeys_eq_keys l hNl, Multiset.mem_coe] at ha
            have := hld a ha
            omega
          · rw [ha]
            exact hlt
          · exact (ihr hNr hSr).1 a ha
        · intro a ha
          exact (ihr hNr hSr).2 a ha
      · by_cases hgt : d > k
        · rw [if_neg hlt, if_pos hgt]
          dsimp only
          constructor
          · intro a ha
            exact (ihl hNl hSl).1 a ha
          · intro a ha
            rw [allKeys_Join _ _ _ hdet, allKeys_setColor, Detach_snd_fst,
              fdata_Detach_last] at ha
            dsimp only [fright, fdata] at ha
            simp only [Multiset.mem_add, Multiset.mem_singleton] at ha
            rcases ha with (ha | ha) | ha
            · exact (ihl hNl hSl).2 a ha
            · rw [ha]
              exact hgt
            · rw [allKeys_eq_keys r hNr, Multiset.mem_coe] at ha
              have := hdr a ha
              omega
        · rw [if_neg hlt, if_neg hgt]
          dsimp only
          constructor
          · intro a ha
            rw [allKeys_setColor, Detach_fst] at ha
            dsimp only [fleft] at ha
            rw [allKeys_eq_keys l hNl, Multiset.mem_coe] at ha
            have := hld a ha
            omega
          · intro a ha
            rw [allKeys_setColor, Detach_snd_fst] at ha
            dsimp only [fright] at ha
            rw [allKeys_eq_keys r hNr, Multiset.mem_coe] at ha
            have := hdr a ha
            omega

/-- C4: on a valid red-black layer (no EXTERNAL nodes, sorted in-order
keys), `split(y, k)` raises KeyNotFound exactly when `k` is not a key of
`y`; when `k` is present it returns a triple `(L, x, R)` with every key of
`L` strictly less than `k`, `x` holding key `k` with both children dummy,
and every key of `R` strictly greater than `k`. -/
theorem C4_split_key_not_found (y : Tree) (k : Int) (hN : NoExt y = true)
    (hS : List.Pairwise (fun a b => a < b) (keys y)) :
    ((∃ e, Split y k = .error e) ↔ k ∉ keys y) ∧
    (k ∈ keys y →
      Split y k = .ok (SplitRec y k) ∧
      (∀ a ∈ allKeys (SplitRec y k).1, a < k) ∧
      fdata (SplitRec y k).2.1 = k ∧ allKeys (SplitRec y k).2.1 = {k} ∧
      fleft (SplitRec y k).2.1 = .nil ∧ fright (SplitRec y k).2.1 = .nil ∧
      (∀ a ∈ allKeys (SplitRec y k).2.2, k < a)) := by
  have hcont := Contains_iff_mem y k hN hS
  constructor
  · constructor
    · rintro ⟨e, he⟩ hk
      rw [Split, if_pos (hcont.mpr hk)] at he
      cases he
    · intro hk
      refine ⟨"key not found", ?_⟩
      rw [Split, if_neg]
      intro hc
      exact hk (hcont.mp hc)
  · intro hk
    have hc : Contains y k = true := hcont.mpr hk
    have hmid := SplitRec_mid y k hc
    have hpart := SplitRec_partition y k hN hS
    exact ⟨by rw [Split, if_pos hc], hpart.1, hmid.2.1, hmid.2.2.1, hmid.2.2.2.1,
      hmid.2.2.2.2, hpart.2⟩

/-- Witness tree for C4: the sorted REGULAR tree over keys 1, 2, 3. -/
def c4tree : Tree :=
  .node 2 (.node 1 .nil .nil 1 0 0 0 0 .BLACK .REGULAR)
    (.node 3 .nil .nil 1 0 0 0 0 .BLACK .REGULAR) 3 1 0 0 0 .BLACK .REGULAR

/-- Witness for C4 at key 2. -/
theorem C4_split_key_not_found_witness :
    NoExt c4tree = true ∧ List.Pairwise (fun a b => a < b) (keys c4tree) ∧
      ((∃ e, Split c4tree 2 = .error e) ↔ 2 ∉ keys c4tree) :=
  ⟨by decide, by decide, (C4_split_key_not_found c4tree 2 (by decide) (by decide)).1⟩

theorem IsRedLink_reg (d : Int) (l r : Tree) (s h dp mx mn : Int) (c : Color) :
    IsRedLink (.node d l r s h dp mx mn c NType.REGULAR) = decide (c = Color.RED) := rfl

theorem IsEmpty_reg (d : Int) (l r : Tree) (s h dp mx mn : Int) (c : Color) :
    IsEmpty (.node d l r s h dp mx mn c NType.REGULAR) = false := rfl

theorem Height_reg (d : Int) (l r : Tree) (s h dp mx mn : Int) (c : Color) :
    Height (.node d l r s h dp mx mn c NType.REGULAR) = h := rfl

theorem fheight_lb (t : Tree) (hne : IsEmpty t = false) (hu : updConsistent t = true) :
    0 ≤ fheight t := by
  cases t with
  | nil => cases hne
  | node d l r s h dp mx mn c ty =>
      have hty : ty ≠ NType.EXTERNAL := by
        intro hc
        subst hc
        cases hne
      simp only [updConsistent] at hu
      rw [if_neg (by simpa using hty)] at hu
      simp only [Bool.and_eq_true, beq_iff_eq] at hu
      have hh := hu.1.1.1.1.2
      show 0 ≤ h
      rw [hh]
      have hbl : (0 : Int) ≤
          if (Height l + if IsRedLink l = true then 1 else 0) ≠ 0 then (0 : Int) else 1 := by
        split <;> omega
      exact le_trans hbl (le_max_left _ _)

/-- On a checked LLRB whose aggregate fields satisfy the code's own
(mis-parenthesized) recomputation, the canonical (parenthesized) height
recomputation also holds, and the stored height plus the node's own
black-link bit is the tree's black count. -/
theorem aggregates_bridge (t : Tree) : ∀ black : Int,
    Is23Rec t = true → updConsistent t = true → IsBalancedRec t black = true →
    specConsistent t = true ∧
      Height t + (if IsRedLink t then (0 : Int) else 1) = black := by
  induction t with
  | nil =>
      intro black _ _ hb
      simp only [IsBalancedRec, beq_iff_eq] at hb
      refine ⟨rfl, ?_⟩
      rw [show Height Tree.nil = -1 from rfl, show IsRedLink Tree.nil = false from rfl]
      simp only [Bool.false_eq_true, if_false]
      omega
  | node d l r s h dp mx mn c ty ihl ihr =>
      intro black h23 hupd hbal
      by_cases hty : ty = NType.EXTERNAL
      · subst hty
        simp [IsBalancedRec] at hbal
        refine ⟨rfl, ?_⟩
        rw [show Height (Tree.node d l r s h dp mx mn c NType.EXTERNAL) = -1 from rfl,
          show IsRedLink (Tree.node d l r s h dp mx mn c NType.EXTERNAL) = false from rfl]
        simp only [Bool.false_eq_true, if_false]
        omega
      · have hty' : ty = NType.REGULAR := by
          cases ty
          · rfl
          · exact absurd rfl hty
        subst hty'
        simp only [Is23Rec, if_neg hty] at h23
        have hr : IsRedLink r = false := by
          by_cases hrr : IsRedLink r = true
          · rw [if_pos hrr] at h23; cases h23
          · exact Bool.eq_false_iff.mpr hrr
        rw [if_neg (by rw [hr]; exact Bool.false_ne_true)] at h23
        have h23c : Is23Rec l = true ∧ Is23Rec r = true := by
          by_cases hd2 : (IsRedLink (Tree.node d l r s h dp mx mn c NType.REGULAR)
              && IsRedLink l) = true
          · rw [if_pos hd2] at h23; cases h23
          · rw [if_neg hd2] at h23
            simp only [Bool.and_eq_true] at h23
            exact h23
        obtain ⟨h23l, h23r⟩ := h23c
        simp only [updConsistent] at hupd
        rw [if_neg (by simpa using hty)] at hupd
        simp only [Bool.and_eq_true, beq_iff_eq] at hupd
        obtain ⟨⟨⟨⟨⟨hs, hh⟩, hmn⟩, hmx⟩, hul⟩, hur⟩ := hupd
        simp only [IsBalancedRec, if_neg hty] at hbal
        simp only [Bool.and_eq_true] at hbal
        obtain ⟨hbl, hbr⟩ := hbal
        obtain ⟨bb, hbl2, hbr2, hbit⟩ :
            ∃ bb, IsBalancedRec l bb = true ∧ IsBalancedRec r bb = true ∧
              (if IsRedLink (Tree.node d l r s h dp mx mn c NType.REGULAR) then (0 : Int)
                else 1) = black - bb := by
          by_cases hcr : c = Color.RED
          · subst hcr
            rw [show IsRedLink (Tree.node d l r s h dp mx mn Color.RED NType.REGULAR) = true
              from rfl] at hbl hbr ⊢
            simp only [not_true, if_false, if_true] at hbl hbr ⊢
            exact ⟨black, hbl, hbr, by omega⟩
          · have hcb : c = Color.BLACK := by
              cases c
              · exact absurd rfl hcr
              · rfl
            subst hcb
            rw [show IsRedLink (Tree.node d l r s h dp mx mn Color.BLACK NType.REGULAR) = false
              from rfl] at hbl hbr ⊢
            simp only [Bool.false_eq_true, not_false_iff, if_true, if_false] at hbl hbr ⊢
            exact ⟨black - 1, hbl, hbr, by omega⟩
        obtain ⟨hsl, hcl2⟩ := ihl bb h23l hul hbl2
        obtain ⟨hsr, hcr2⟩ := ihr bb h23r hur hbr2
        rw [hr] at hcr2
        simp only [Bool.false_eq_true, if_false] at hcr2
        have hbb0 : 0 ≤ bb := by
          by_cases hre : IsEmpty r = true
          · rw [show Height r = if IsEmpty r = true then -1 else fheight r from rfl,
              if_pos hre] at hcr2
            omega
          · have hfr := fheight_lb r (Bool.eq_false_iff.mpr hre) hur
            rw [show Height r = if IsEmpty r = true then -1 else fheight r from rfl,
              if_neg hre] at hcr2
            omega
        have hbR : (if ¬ IsEmpty r = true then Height r + 1 else 0) = bb := by
          by_cases hre : IsEmpty r = true
          · rw [if_neg (not_not_intro hre)]
            rw [show Height r = if IsEmpty r = true then -1 else fheight r from rfl,
              if_pos hre] at hcr2
            omega
          · rw [if_pos hre]
            omega
        have hbRs : (if IsEmpty r = true then (0 : Int) else Height r + 1) = bb := by
          by_cases hre : IsEmpty r = true
          · rw [if_pos hre]
            rw [show Height r = if IsEmpty r = true then -1 else fheight r from rfl,
              if_pos hre] at hcr2
            omega
          · rw [if_neg hre]
            omega
        have hfin : h = bb := by
          rw [hh, hbR]
          by_cases hrl : IsRedLink l = true
          · rw [hrl] at hcl2 ⊢
            simp only [if_true] at hcl2 ⊢
            omega
          · rw [Bool.eq_false_iff.mpr hrl] at hcl2 ⊢
            simp only [Bool.false_eq_true, if_false] at hcl2 ⊢
            split <;> omega
        constructor
        · simp only [specConsistent]
          rw [if_neg (by simpa using hty)]
          simp only [Bool.and_eq_true, beq_iff_eq]
          refine ⟨⟨⟨⟨⟨hs, ?_⟩, hmn⟩, hmx⟩, hsl⟩, hsr⟩
          rw [hbRs, hfin]
          by_cases hrl : IsRedLink l = true
          · rw [hrl] at hcl2 ⊢
            simp only [if_true] at hcl2 ⊢
            omega
          · rw [Bool.eq_false_iff.mpr hrl] at hcl2 ⊢
            simp only [Bool.false_eq_true, if_false] at hcl2 ⊢
            omega
        · rw [show Height (Tree.node d l r s h dp mx mn c NType.REGULAR) = h from rfl, hbit]
          omega


/-- C5 counterexample: after `insert` on the empty tree, the fresh leaf's
aggregate fields do not equal their recomputation from children (its depth
aggregates keep the `BuildNode` sentinels, so maxDepth differs from the
recomputed value). -/
theorem C5_counterexample : specConsistent (Insert Tree.nil 1) = false := by decide

/-- C5 (amended): on any tree passing the source's own LLRB checker whose
aggregate fields satisfy the code's own (mis-parenthesized) height
recomputation, every node's height also equals the canonical parenthesized
black-link height recomputation, and size, minDepth and maxDepth equal
their recomputation from children. -/
theorem C5_aggregates_canonical (t : Tree) (hchk : Check t = true)
    (hupd : updConsistent t = true) : specConsistent t = true := by
  have h1 : IsBalanced t = true ∧ Is23Rec t = true := by
    simp only [Check, Bool.and_eq_true] at hchk
    exact ⟨hchk.1.1, hchk.1.2⟩
  exact (aggregates_bridge t (leftSpineBlacks t) h1.2 hupd h1.1).1

/-- Witness tree for C5: a consistent single-node LLRB. -/
def c5tree : Tree := .node 1 .nil .nil 1 0 0 0 0 .BLACK .REGULAR

/-- Witness for C5. -/
theorem C5_aggregates_canonical_witness :
    Check c5tree = true ∧ updConsistent c5tree = true ∧ specConsistent c5tree = true :=
  ⟨by decide, by decide, C5_aggregates_canonical c5tree (by decide) (by decide)⟩

/-- On an EXTERNAL-free non-empty tree the leftmost node has no left
child. -/
theorem Min_fleft_nil (t : Tree) (hN : NoExt t = true) (hne : IsEmpty t = false) :
    fleft (Min t) = .nil := by
  induction t with
  | nil => cases hne
  | node d l r s h dp mx mn c ty ihl ihr =>
      obtain ⟨hty, hNl, hNr⟩ := NoExt_node hN
      have htyE : ty ≠ NType.EXTERNAL := by rw [hty]; intro hc; cases hc
      rw [Min, if_neg htyE]
      by_cases hle : IsEmpty l = true
      · rw [if_pos hle]
        show l = Tree.nil
        cases l with
        | nil => rfl
        | node dl ll rl sl hl dpl mxl mnl cl tyl =>
            obtain ⟨htyl, h1, h2⟩ := NoExt_node hNl
            rw [htyl, IsEmpty_reg] at hle
            cases hle
      · rw [if_neg hle]
        exact ihl hNl (Bool.eq_false_iff.mpr hle)

/-- On an EXTERNAL-free non-empty tree the rightmost node has no right
child. -/
theorem Max_fright_nil (t : Tree) (hN : NoExt t = true) (hne : IsEmpty t = false) :
    fright (Max t) = .nil := by
  induction t with
  | nil => cases hne
  | node d l r s h dp mx mn c ty ihl ihr =>
      obtain ⟨hty, hNl, hNr⟩ := NoExt_node hN
      have htyE : ty ≠ NType.EXTERNAL := by rw [hty]; intro hc; cases hc
      rw [Max, if_neg htyE]
      by_cases hre : IsEmpty r = true
      · rw [if_pos hre]
        show r = Tree.nil
        cases r with
        | nil => rfl
        | node dr lr rr sr hr dpr mxr mnr cr tyr =>
            obtain ⟨htyr, h1, h2⟩ := NoExt_node hNr
            rw [htyr, IsEmpty_reg] at hre
            cases hre
      · rw [if_neg hre]
        exact ihr hNr (Bool.eq_false_iff.mpr hre)

/-- The leftmost node of a sorted EXTERNAL-free tree carries its least
key. -/
theorem Min_minimal (t : Tree) (hN : NoExt t = true) (hne : IsEmpty t = false)
    (hS : List.Pairwise (fun a b => a < b) (keys t)) :
    fdata (Min t) ∈ keys t ∧ ∀ a ∈ keys t, fdata (Min t) ≤ a := by
  induction t with
  | nil => cases hne
  | node d l r s h dp mx mn c ty ihl ihr =>
      obtain ⟨hty, hNl, hNr⟩ := NoExt_node hN
      have htyE : ty ≠ NType.EXTERNAL := by rw [hty]; intro hc; cases hc
      rw [keys_node d l r s h dp mx mn c ty htyE] at hS ⊢
      obtain ⟨hSl, hSr, hld, hdr⟩ := pairwise_parts hS
      rw [Min, if_neg htyE]
      by_cases hle : IsEmpty l = true
      · rw [if_pos hle]
        have hlnil : l = Tree.nil := by
          cases l with
          | nil => rfl
          | node dl ll rl sl hl dpl mxl mnl cl tyl =>
              obtain ⟨htyl, h1, h2⟩ := NoExt_node hNl
              rw [htyl, IsEmpty_reg] at hle
              cases hle
        subst hlnil
        constructor
        · show (d : Int) ∈ keys Tree.nil ++ d :: keys r
          simp [keys]
        · intro a ha
          show d ≤ a
          simp only [keys, List.nil_append, List.mem_cons] at ha
          rcases ha with ha | ha
          · omega
          · exact le_of_lt (hdr a ha)
      · rw [if_neg hle]
        obtain ⟨hmem, hmin⟩ := ihl hNl (Bool.eq_false_iff.mpr hle) hSl
        constructor
        · exact List.mem_append.mpr (Or.inl hmem)
        · intro a ha
          rcases List.mem_append.mp ha with ha | ha
          · exact hmin a ha
          · rcases List.mem_cons.mp ha with ha | ha
            · rw [ha]
              exact le_of_lt (hld _ hmem)
            · exact le_of_lt (lt_trans (hld _ hmem) (hdr a ha))

/-- The rightmost node of a sorted EXTERNAL-free tree carries its greatest
key. -/
theorem Max_maximal (t : Tree) (hN : NoExt t = true) (hne : IsEmpty t = false)
    (hS : List.Pairwise (fun a b => a < b) (keys t)) :
    fdata (Max t) ∈ keys t ∧ ∀ a ∈ keys t, a ≤ fdata (Max t) := by
  induction t with
  | nil => cases hne
  | node d l r s h dp mx mn c ty ihl ihr =>
      obtain ⟨hty, hNl, hNr⟩ := NoExt_node hN
      have htyE : ty ≠ NType.EXTERNAL := by rw [hty]; intro hc; cases hc
      rw [keys_node d l r s h dp mx mn c ty htyE] at hS ⊢
      obtain ⟨hSl, hSr, hld, hdr⟩ := pairwise_parts hS
      rw [Max, if_neg htyE]
      by_cases hre : IsEmpty r = true
      · rw [if_pos hre]
        have hrnil : r = Tree.nil := by
          cases r with
          | nil => rfl
          | node dr lr rr sr hr dpr mxr mnr cr tyr =>
              obtain ⟨htyr, h1, h2⟩ := NoExt_node hNr
              rw [htyr, IsEmpty_reg] at hre
              cases hre
        subst hrnil
        constructor
        · show (d : Int) ∈ keys l ++ d :: keys Tree.nil
          simp [keys]
        · intro a ha
          show a ≤ d
          simp only [keys, List.mem_append, List.mem_cons] at ha
          rcases ha with ha | ha | ha
          · exact le_of_lt (hld a ha)
          · omega
          · cases ha
      · rw [if_neg hre]
        obtain ⟨hmem, hmax⟩ := ihr hNr (Bool.eq_false_iff.mpr hre) hSr
        constructor
        · exact List.mem_append.mpr (Or.inr (List.mem_cons.mpr (Or.inr hmem)))
        · intro a ha
          rcases List.mem_append.mp ha with ha | ha
          · exact le_of_lt (lt_trans (hld a ha) (hdr _ hmem))
          · rcases List.mem_cons.mp ha with ha | ha
            · rw [ha]
              exact le_of_lt (hdr _ hmem)
            · exact hmax a ha

/-- Counterexample tree for C6: key 2 at the root with right child 3; the
minimum node is the root itself and keeps its right child. -/
def c6tree : Tree :=
  .node 2 .nil (.node 3 .nil .nil 1 0 0 0 0 .BLACK .REGULAR) 2 1 0 0 0 .BLACK .REGULAR

/-- C6 counterexample: the non-detaching `ExtractMin` of
src/src/RedBlackTree.cpp returns the min node with its right child pointer
intact — not set to the dummy sentinel as the claim requires. -/
theorem C6_counterexample :
    IsEmpty c6tree = false ∧ IsDummy (fright (ExtractMin c6tree).1) = false := by decide

/-- C6 (amended): on a non-empty, EXTERNAL-free, sorted tree the
*detaching* extract variants of TangoTree.cpp satisfy the claim:
`ExtractMinD t = (m, t')` where `m` carries the least key of `t`, both of
`m`'s children are the dummy, and `t'` holds exactly the remaining keys;
`ExtractMaxD t = (t', m)` is the mirror image. -/
theorem C6_extract_detached (t : Tree) (hne : IsEmpty t = false) (hN : NoExt t = true)
    (hS : List.Pairwise (fun a b => a < b) (keys t)) :
    (fdata (ExtractMinD t).1 = fdata (Min t) ∧
      fleft (ExtractMinD t).1 = .nil ∧ fright (ExtractMinD t).1 = .nil ∧
      (∀ a ∈ keys t, fdata (ExtractMinD t).1 ≤ a) ∧
      allKeys (ExtractMinD t).2 + {fdata (ExtractMinD t).1} = allKeys t) ∧
    (fdata (ExtractMaxD t).2 = fdata (Max t) ∧
      fleft (ExtractMaxD t).2 = .nil ∧ fright (ExtractMaxD t).2 = .nil ∧
      (∀ a ∈ keys t, a ≤ fdata (ExtractMaxD t).2) ∧
      allKeys (ExtractMaxD t).1 + {fdata (ExtractMaxD t).2} = allKeys t) := by
  have hne' : ¬ IsEmpty t = true := by rw [hne]; exact Bool.false_ne_true
  constructor
  · refine ⟨fdata_Detach_last _, fleft_Detach_last _, fright_Detach_last _, ?_, ?_⟩
    · intro a ha
      rw [show (ExtractMinD t).1 = (Detach (Min t)).2.2 from rfl, fdata_Detach_last]
      exact (Min_minimal t hN hne hS).2 a ha
    · rw [show (ExtractMinD t).2 = RemoveMin t from rfl,
        show (ExtractMinD t).1 = (Detach (Min t)).2.2 from rfl, fdata_Detach_last]
      have hrm := allKeys_RemoveMin t hne'
      rw [Min_fleft_nil t hN hne] at hrm
      rw [show allKeys Tree.nil = 0 from rfl, add_zero] at hrm
      exact hrm
  · refine ⟨fdata_Detach_last _, fleft_Detach_last _, fright_Detach_last _, ?_, ?_⟩
    · intro a ha
      rw [show (ExtractMaxD t).2 = (Detach (Max t)).2.2 from rfl, fdata_Detach_last]
      exact (Max_maximal t hN hne hS).2 a ha
    · rw [show (ExtractMaxD t).1 = RemoveMax t from rfl,
        show (ExtractMaxD t).2 = (Detach (Max t)).2.2 from rfl, fdata_Detach_last]
      have hrm := allKeys_RemoveMax t hne'
      rw [Max_fright_nil t hN hne] at hrm
      rw [show allKeys Tree.nil = 0 from rfl, add_zero] at hrm
      exact hrm

/-- Witness for C6 on the sorted two-node tree with keys 2 and 3. -/
theorem C6_extract_detached_witness :
    IsEmpty c6tree = false ∧ NoExt c6tree = true ∧
      List.Pairwise (fun a b => a < b) (keys c6tree) ∧
      fdata (ExtractMinD c6tree).1 = fdata (Min c6tree) :=
  ⟨by decide, by decide, by decide,
    (C6_extract_detached c6tree (by decide) (by decide) (by decide)).1.1⟩

/-! In-order key-list preservation through the rebalancing operations, and
preservation of the EXTERNAL-free property.  These drive the full
reconstruction result for `Join` after `Split`. -/

theorem inorderKeys_setColor (t : Tree) (c : Color) :
    inorderKeys (setColor t c) = inorderKeys t := by
  cases t <;> rfl

theorem inorderKeys_setSize (t : Tree) (v : Int) :
    inorderKeys (setSize t v) = inorderKeys t := by
  cases t <;> rfl

theorem inorderKeys_setHeight (t : Tree) (v : Int) :
    inorderKeys (setHeight t v) = inorderKeys t := by
  cases t <;> rfl

theorem inorderKeys_setMinMaxDepth (t : Tree) (a b : Int) :
    inorderKeys (setMinMaxDepth t a b) = inorderKeys t := by
  cases t <;> rfl

theorem inorderKeys_UpdateSize (t : Tree) : inorderKeys (UpdateSize t) = inorderKeys t := by
  unfold UpdateSize
  split
  · rfl
  · exact inorderKeys_setSize t _

theorem inorderKeys_UpdateHeight (t : Tree) : inorderKeys (UpdateHeight t) = inorderKeys t := by
  unfold UpdateHeight
  split
  · rfl
  · exact inorderKeys_setHeight t _

theorem inorderKeys_UpdateDepth (t : Tree) : inorderKeys (UpdateDepth t) = inorderKeys t := by
  unfold UpdateDepth
  split
  · rfl
  · exact inorderKeys_setMinMaxDepth t _ _

theorem inorderKeys_Update (t : Tree) : inorderKeys (Update t) = inorderKeys t := by
  unfold Update
  rw [inorderKeys_UpdateDepth, inorderKeys_UpdateHeight, inorderKeys_UpdateSize]

theorem inorderKeys_flipChild (t : Tree) : inorderKeys (flipChild t) = inorderKeys t := by
  cases t <;> rfl

theorem inorderKeys_FlipColors (t : Tree) : inorderKeys (FlipColors t) = inorderKeys t := by
  cases t with
  | nil => rfl
  | node d l r s h dp mx mn c ty =>
      show inorderKeys (flipChild l) ++ d :: inorderKeys (flipChild r) = _
      rw [inorderKeys_flipChild, inorderKeys_flipChild]
      rfl

theorem inorderKeys_RotateLeft (t : Tree) : inorderKeys (RotateLeft t) = inorderKeys t := by
  cases t with
  | nil => rfl
  | node d l r s h dp mx mn c ty =>
      cases r with
      | nil => rfl
      | node rd rl rr rs rh rdp rmx rmn rc rty =>
          show inorderKeys (Update (.node rd
            (Update (.node d l rl s h dp mx mn .RED ty)) rr rs rh rdp rmx rmn c rty)) = _
          rw [inorderKeys_Update]
          show inorderKeys (Update (.node d l rl s h dp mx mn .RED ty)) ++ rd :: inorderKeys rr
            = _
          rw [inorderKeys_Update]
          show (inorderKeys l ++ d :: inorderKeys rl) ++ rd :: inorderKeys rr
            = inorderKeys l ++ d :: (inorderKeys rl ++ rd :: inorderKeys rr)
          simp

theorem inorderKeys_RotateRight (t : Tree) : inorderKeys (RotateRight t) = inorderKeys t := by
  cases t with
  | nil => rfl
  | node d l r s h dp mx mn c ty =>
      cases l with
      | nil => rfl
      | node ld ll lr ls lh ldp lmx lmn lc lty =>
          show inorderKeys (Update (.node ld ll
            (Update (.node d lr r s h dp mx mn .RED ty)) ls lh ldp lmx lmn c lty)) = _
          rw [inorderKeys_Update]
          show inorderKeys ll ++ ld :: inorderKeys (Update (.node d lr r s h dp mx mn .RED ty))
            = _
          rw [inorderKeys_Update]
          show inorderKeys ll ++ ld :: (inorderKeys lr ++ d :: inorderKeys r)
            = (inorderKeys ll ++ ld :: inorderKeys lr) ++ d :: inorderKeys r
          simp

theorem inorderKeys_Balance (t : Tree) : inorderKeys (Balance t) = inorderKeys t := by
  unfold Balance
  split
  · rfl
  · dsimp only
    rw [inorderKeys_Update]
    split
    · split
      · split
        · rw [inorderKeys_FlipColors, inorderKeys_RotateRight, inorderKeys_RotateLeft]
        · rw [inorderKeys_RotateRight, inorderKeys_RotateLeft]
      · split
        · rw [inorderKeys_FlipColors, inorderKeys_RotateLeft]
        · rw [inorderKeys_RotateLeft]
    · split
      · split
        · rw [inorderKeys_FlipColors, inorderKeys_RotateRight]
        · rw [inorderKeys_RotateRight]
      · split
        · rw [inorderKeys_FlipColors]
        · rfl

theorem inorderKeys_seam (t1 x t2 : Tree) (hx : x ≠ .nil) :
    inorderKeys (Balance (setRight (setLeft (setColor x .RED) t1) t2))
      = inorderKeys t1 ++ fdata x :: inorderKeys t2 := by
  cases x with
  | nil => exact absurd rfl hx
  | node xd xl xr xs xh xdp xmx xmn xc xty =>
      rw [inorderKeys_Balance]
      simp [setColor, setLeft, setRight, inorderKeys, fdata]

theorem inorderKeys_JoinRec (t1 x t2 : Tree) (hx : x ≠ .nil) :
    inorderKeys (JoinRec t1 x t2) = inorderKeys t1 ++ fdata x :: inorderKeys t2 := by
  induction t1, x, t2 using JoinRec.induct with
  | case1 t1 x d l r s h dp mx mn c ty hlt ih =>
      rw [JoinRec.eq_def]
      simp only [if_pos hlt]
      rw [inorderKeys_Balance]
      show inorderKeys (JoinRec t1 x l) ++ d :: inorderKeys r = _
      rw [ih hx]
      show (inorderKeys t1 ++ fdata x :: inorderKeys l) ++ d :: inorderKeys r
        = inorderKeys t1 ++ fdata x :: (inorderKeys l ++ d :: inorderKeys r)
      simp
  | case2 t1 x hlt =>
      rw [JoinRec.eq_def]
      simp only [if_pos hlt]
      exact inorderKeys_seam t1 x .nil hx
  | case3 x t2 d l r s h dp mx mn c ty hnlt hgt ih =>
      rw [JoinRec.eq_def]
      simp only [if_neg hnlt, if_pos hgt]
      rw [inorderKeys_Balance]
      show inorderKeys l ++ d :: inorderKeys (JoinRec r x t2) = _
      rw [ih hx]
      show inorderKeys l ++ d :: (inorderKeys r ++ fdata x :: inorderKeys t2)
        = (inorderKeys l ++ d :: inorderKeys r) ++ fdata x :: inorderKeys t2
      simp
  | case4 x t2 hnlt hgt =>
      rw [JoinRec.eq_def]
      simp only [if_neg hnlt, if_pos hgt]
      exact inorderKeys_seam .nil x t2 hx
  | case5 t1 x t2 hnlt hngt =>
      rw [JoinRec.eq_def]
      simp only [if_neg hnlt, if_neg hngt]
      exact inorderKeys_seam t1 x t2 hx

theorem inorderKeys_Join (t1 x t2 : Tree) (hx : x ≠ .nil) :
    inorderKeys (Join t1 x t2) = inorderKeys t1 ++ fdata x :: inorderKeys t2 := by
  unfold Join
  rw [inorderKeys_setColor, inorderKeys_JoinRec t1 x t2 hx]

/-- `SplitRec` cuts the in-order key sequence into three contiguous
pieces. -/
theorem inorderKeys_SplitRec (t : Tree) (k : Int) :
    inorderKeys (SplitRec t k).1 ++ inorderKeys (SplitRec t k).2.1
      ++ inorderKeys (SplitRec t k).2.2 = inorderKeys t := by
  induction t with
  | nil => simp [SplitRec, inorderKeys]
  | node d l r s h dp mx mn c ty ihl ihr =>
    rw [SplitRec]
    dsimp only
    by_cases hlt : d < k
    · rw [if_pos hlt]
      dsimp only
      rw [inorderKeys_Join _ _ _ (Detach_last_ne_nil _ (fun hc => Tree.noConfusion hc))]
      rw [inorderKeys_setColor, Detach_fst, fdata_Detach_last]
      show (inorderKeys l ++ d :: inorderKeys (SplitRec r k).1)
          ++ inorderKeys (SplitRec r k).2.1 ++ inorderKeys (SplitRec r k).2.2
        = inorderKeys l ++ d :: inorderKeys r
      rw [← ihr]
      simp
    · by_cases hgt : d > k
      · rw [if_neg hlt, if_pos hgt]
        dsimp only
        rw [inorderKeys_Join _ _ _ (Detach_last_ne_nil _ (fun hc => Tree.noConfusion hc))]
        rw [inorderKeys_setColor, Detach_snd_fst, fdata_Detach_last]
        show inorderKeys (SplitRec l k).1 ++ inorderKeys (SplitRec l k).2.1
            ++ (inorderKeys (SplitRec l k).2.2 ++ d :: inorderKeys r)
          = inorderKeys l ++ d :: inorderKeys r
        rw [← ihl]
        simp
      · rw [if_neg hlt, if_neg hgt]
        dsimp only
        rw [inorderKeys_setColor, inorderKeys_setColor, Detach_fst, Detach_snd_fst]
        show inorderKeys l ++ inorderKeys ((Detach (Tree.node d l r s h dp mx mn c ty)).2.2)
            ++ inorderKeys r = inorderKeys l ++ d :: inorderKeys r
        have hmid : inorderKeys ((Detach (Tree.node d l r s h dp mx mn c ty)).2.2) = [d] := by
          show inorderKeys (Update (.node d .nil .nil s h dp mx mn .BLACK ty)) = [d]
          rw [inorderKeys_Update]
          rfl
        rw [hmid]
        simp

theorem inorderKeys_singleton (y : Tree) (hy : y ≠ .nil) (hl : fleft y = .nil)
    (hr : fright y = .nil) : inorderKeys y = [fdata y] := by
  cases y with
  | nil => exact absurd rfl hy
  | node d l r s h dp mx mn c ty =>
      have hl' : l = Tree.nil := hl
      have hr' : r = Tree.nil := hr
      subst hl' hr'
      rfl

/-- Join of the split triple reproduces the in-order key sequence
exactly. -/
theorem inorderKeys_Join_SplitRec (t : Tree) (k : Int) (hc : Contains t k = true) :
    inorderKeys (Join (SplitRec t k).1 (SplitRec t k).2.1 (SplitRec t k).2.2)
      = inorderKeys t := by
  obtain ⟨hne, hfd, hak, hfl, hfr⟩ := SplitRec_mid t k hc
  rw [inorderKeys_Join _ _ _ hne, ← inorderKeys_SplitRec t k,
    inorderKeys_singleton _ hne hfl hfr, hfd]
  simp

theorem NoExt_setColor (t : Tree) (c : Color) : NoExt (setColor t c) = NoExt t := by
  cases t <;> rfl

theorem NoExt_setSize (t : Tree) (v : Int) : NoExt (setSize t v) = NoExt t := by
  cases t <;> rfl

theorem NoExt_setHeight (t : Tree) (v : Int) : NoExt (setHeight t v) = NoExt t := by
  cases t <;> rfl

theorem NoExt_setMinMaxDepth (t : Tree) (a b : Int) :
    NoExt (setMinMaxDepth t a b) = NoExt t := by
  cases t <;> rfl

theorem NoExt_UpdateSize (t : Tree) : NoExt (UpdateSize t) = NoExt t := by
  unfold UpdateSize
  split
  · rfl
  · exact NoExt_setSize t _

theorem NoExt_UpdateHeight (t : Tree) : NoExt (UpdateHeight t) = NoExt t := by
  unfold UpdateHeight
  split
  · rfl
  · exact NoExt_setHeight t _

theorem NoExt_UpdateDepth (t : Tree) : NoExt (UpdateDepth t) = NoExt t := by
  unfold UpdateDepth
  split
  · rfl
  · exact NoExt_setMinMaxDepth t _ _

theorem NoExt_Update (t : Tree) : NoExt (Update t) = NoExt t := by
  unfold Update
  rw [NoExt_UpdateDepth, NoExt_UpdateHeight, NoExt_UpdateSize]

theorem NoExt_flipChild (t : Tree) : NoExt (flipChild t) = NoExt t := by
  cases t <;> rfl

theorem NoExt_FlipColors (t : Tree) : NoExt (FlipColors t) = NoExt t := by
  cases t with
  | nil => rfl
  | node d l r s h dp mx mn c ty =>
      show (decide (ty = NType.REGULAR) && NoExt (flipChild l) && NoExt (flipChild r)) = _
      rw [NoExt_flipChild, NoExt_flipChild]
      rfl

theorem NoExt_RotateLeft (t : Tree) : NoExt (RotateLeft t) = NoExt t := by
  cases t with
  | nil => rfl
  | node d l r s h dp mx mn c ty =>
      cases r with
      | nil => rfl
      | node rd rl rr rs rh rdp rmx rmn rc rty =>
          show NoExt (Update (.node rd
            (Update (.node d l rl s h dp mx mn .RED ty)) rr rs rh rdp rmx rmn c rty)) = _
          rw [NoExt_Update]
          apply Bool.eq_iff_iff.mpr
          show (decide (rty = NType.REGULAR)
              && NoExt (Update (.node d l rl s h dp mx mn .RED ty)) && NoExt rr) = true ↔ _
          rw [NoExt_Update]
          simp only [NoExt, Bool.and_eq_true]
          tauto

theorem NoExt_RotateRight (t : Tree) : NoExt (RotateRight t) = NoExt t := by
  cases t with
  | nil => rfl
  | node d l r s h dp mx mn c ty =>
      cases l with
      | nil => rfl
      | node ld ll lr ls lh ldp lmx lmn lc lty =>
          show NoExt (Update (.node ld ll
            (Update (.node d lr r s h dp mx mn .RED ty)) ls lh ldp lmx lmn c lty)) = _
          rw [NoExt_Update]
          apply Bool.eq_iff_iff.mpr
          show (decide (lty = NType.REGULAR)
              && NoExt ll && NoExt (Update (.node d lr r s h dp mx mn .RED ty))) = true ↔ _
          rw [NoExt_Update]
          simp only [NoExt, Bool.and_eq_true]
          tauto

theorem NoExt_Balance (t : Tree) : NoExt (Balance t) = NoExt t := by
  unfold Balance
  split
  · rfl
  · dsimp only
    rw [NoExt_Update]
    split
    · split
      · split
        · rw [NoExt_FlipColors, NoExt_RotateRight, NoExt_RotateLeft]
        · rw [NoExt_RotateRight, NoExt_RotateLeft]
      · split
        · rw [NoExt_FlipColors, NoExt_RotateLeft]
        · rw [NoExt_RotateLeft]
    · split
      · split
        · rw [NoExt_FlipColors, NoExt_RotateRight]
        · rw [NoExt_RotateRight]
      · split
        · rw [NoExt_FlipColors]
        · rfl

theorem NoExt_seam (t1 x t2 : Tree) (hx : x ≠ .nil) (hxty : IsExternal x = false)
    (h1 : NoExt t1 = true) (h2 : NoExt t2 = true) :
    NoExt (Balance (setRight (setLeft (setColor x .RED) t1) t2)) = true := by
  cases x with
  | nil => exact absurd rfl hx
  | node xd xl xr xs xh xdp xmx xmn xc xty =>
      rw [NoExt_Balance]
      show (decide (xty = NType.REGULAR) && NoExt t1 && NoExt t2) = true
      have hreg : xty = NType.REGULAR := by
        cases xty
        · rfl
        · simp [IsExternal] at hxty
      rw [hreg, h1, h2]
      rfl

theorem NoExt_JoinRec (t1 x t2 : Tree) (hx : x ≠ .nil) (hxty : IsExternal x = false)
    (h1 : NoExt t1 = true) (h2 : NoExt t2 = true) : NoExt (JoinRec t1 x t2) = true := by
  induction t1, x, t2 using JoinRec.induct with
  | case1 t1 x d l r s h dp mx mn c ty hlt ih =>
      rw [JoinRec.eq_def]
      simp only [if_pos hlt]
      rw [NoExt_Balance]
      obtain ⟨hty2, h2l, h2r⟩ := NoExt_node h2
      show (decide (ty = NType.REGULAR) && NoExt (JoinRec t1 x l) && NoExt r) = true
      rw [hty2, ih hx hxty h1 h2l, h2r]
      rfl
  | case2 t1 x hlt =>
      rw [JoinRec.eq_def]
      simp only [if_pos hlt]
      exact NoExt_seam t1 x .nil hx hxty h1 rfl
  | case3 x t2 d l r s h dp mx mn c ty hnlt hgt ih =>
      rw [JoinRec.eq_def]
      simp only [if_neg hnlt, if_pos hgt]
      rw [NoExt_Balance]
      obtain ⟨hty1, h1l, h1r⟩ := NoExt_node h1
      show (decide (ty = NType.REGULAR) && NoExt l && NoExt (JoinRec r x t2)) = true
      rw [hty1, ih hx hxty h1r h2, h1l]
      rfl
  | case4 x t2 hnlt hgt =>
      rw [JoinRec.eq_def]
      simp only [if_neg hnlt, if_pos hgt]
      exact NoExt_seam .nil x t2 hx hxty rfl h2
  | case5 t1 x t2 hnlt hngt =>
      rw [JoinRec.eq_def]
      simp only [if_neg hnlt, if_neg hngt]
      exact NoExt_seam t1 x t2 hx hxty h1 h2

theorem NoExt_Join (t1 x t2 : Tree) (hx : x ≠ .nil) (hxty : IsExternal x = false)
    (h1 : NoExt t1 = true) (h2 : NoExt t2 = true) : NoExt (Join t1 x t2) = true := by
  unfold Join
  rw [NoExt_setColor]
  exact NoExt_JoinRec t1 x t2 hx hxty h1 h2

theorem NoExt_Detach_last (t : Tree) (hN : NoExt t = true) (hne : t ≠ .nil) :
    NoExt (Detach t).2.2 = true ∧ IsExternal (Detach t).2.2 = false := by
  cases t with
  | nil => exact absurd rfl hne
  | node d l r s h dp mx mn c ty =>
      obtain ⟨hty, h1, h2⟩ := NoExt_node hN
      subst hty
      constructor
      · show NoExt (Update (.node d .nil .nil s h dp mx mn .BLACK NType.REGULAR)) = true
        rw [NoExt_Update]
        rfl
      · show IsExternal (Update (.node d .nil .nil s h dp mx mn .BLACK NType.REGULAR)) = false
        rfl

theorem NoExt_SplitRec (t : Tree) (k : Int) (hN : NoExt t = true) :
    NoExt (SplitRec t k).1 = true ∧ NoExt (SplitRec t k).2.1 = true ∧
    NoExt (SplitRec t k).2.2 = true := by
  induction t with
  | nil => exact ⟨rfl, rfl, rfl⟩
  | node d l r s h dp mx mn c ty ihl ihr =>
      obtain ⟨hty, hNl, hNr⟩ := NoExt_node hN
      have hnn : (Tree.node d l r s h dp mx mn c ty) ≠ .nil := fun hc => Tree.noConfusion hc
      obtain ⟨hdN, hdE⟩ := NoExt_Detach_last _ hN hnn
      rw [SplitRec]
      by_cases hlt : d < k
      · rw [if_pos hlt]
        dsimp only
        obtain ⟨ih1, ih2, ih3⟩ := ihr hNr
        refine ⟨?_, ih2, ih3⟩
        refine NoExt_Join _ _ _ (Detach_last_ne_nil _ hnn) hdE ?_ ih1
        rw [NoExt_setColor, Detach_fst]
        exact hNl
      · by_cases hgt : d > k
        · rw [if_neg hlt, if_pos hgt]
          dsimp only
          obtain ⟨ih1, ih2, ih3⟩ := ihl hNl
          refine ⟨ih1, ih2, ?_⟩
          refine NoExt_Join _ _ _ (Detach_last_ne_nil _ hnn) hdE ih3 ?_
          rw [NoExt_setColor, Detach_snd_fst]
          exact hNr
        · rw [if_neg hlt, if_neg hgt]
          dsimp only
          refine ⟨?_, hdN, ?_⟩
          · rw [NoExt_setColor, Detach_fst]
            exact hNl
          · rw [NoExt_setColor, Detach_snd_fst]
            exact hNr

theorem keys_eq_inorder (t : Tree) (hN : NoExt t = true) : keys t = inorderKeys t := by
  induction t with
  | nil => rfl
  | node d l r s h dp mx mn c ty ihl ihr =>
      obtain ⟨hty, hNl, hNr⟩ := NoExt_node hN
      have htyE : ty ≠ NType.EXTERNAL := by rw [hty]; intro hc; cases hc
      rw [keys_node d l r s h dp mx mn c ty htyE, ihl hNl, ihr hNr]
      rfl

/-- A tree with sorted in-order keys and no EXTERNAL node passes the
source's BST checker between any bounds its keys respect. -/
theorem IsBSTRec_of_sorted (t : Tree) : ∀ mn mx : Tree, NoExt t = true →
    List.Pairwise (fun a b => a < b) (keys t) →
    (¬ IsEmpty mn = true → ∀ a ∈ keys t, fdata mn ≤ a) →
    (¬ IsEmpty mx = true → ∀ a ∈ keys t, a ≤ fdata mx) →
    IsBSTRec t mn mx = true := by
  induction t with
  | nil => intro mn mx _ _ _ _; rfl
  | node d l r s h dp mx0 mn0 c ty ihl ihr =>
      intro mn mx hN hS hmn hmx
      obtain ⟨hty, hNl, hNr⟩ := NoExt_node hN
      have htyE : ty ≠ NType.EXTERNAL := by rw [hty]; intro hc; cases hc
      rw [keys_node d l r s h dp mx0 mn0 c ty htyE] at hS hmn hmx
      obtain ⟨hSl, hSr, hld, hdr⟩ := pairwise_parts hS
      have hdmem : (d : Int) ∈ keys l ++ d :: keys r := by simp
      rw [IsBSTRec, if_neg htyE]
      rw [if_neg, if_neg]
      · rw [Bool.and_eq_true]
        constructor
        · refine ihl mn _ hNl hSl ?_ ?_
          · intro hne a ha
            exact hmn hne a (List.mem_append.mpr (Or.inl ha))
          · intro _ a ha
            show a ≤ d
            exact le_of_lt (hld a ha)
        · refine ihr _ mx hNr hSr ?_ ?_
          · intro _ a ha
            show d ≤ a
            exact le_of_lt (hdr a ha)
          · intro hne a ha
            exact hmx hne a (List.mem_append.mpr (Or.inr (List.mem_cons.mpr (Or.inr ha))))
      · intro hc
        simp only [Bool.and_eq_true, decide_eq_true_eq] at hc
        exact absurd (hmx hc.1 d hdmem) (by omega)
      · intro hc
        simp only [Bool.and_eq_true, decide_eq_true_eq] at hc
        exact absurd (hmn hc.1 d hdmem) (by omega)

theorem IsBST_of_sorted (t : Tree) (hN : NoExt t = true)
    (hS : List.Pairwise (fun a b => a < b) (keys t)) : IsBST t = true := by
  unfold IsBST
  split
  · rfl
  · exact IsBSTRec_of_sorted t .nil .nil hN hS (fun hc => absurd rfl hc)
      (fun hc => absurd rfl hc)

/-! Transparency of the color/structure checkers under the aggregate
writers: `Update` and the scalar setters change no color, type or child,
so `Is23Rec` and `IsBalancedRec` are unaffected. -/

theorem IsRedLink_node (d : Int) (l r : Tree) (s h dp mx mn : Int) (c : Color) (ty : NType) :
    IsRedLink (.node d l r s h dp mx mn c ty)
      = (decide ¬(ty = NType.EXTERNAL) && decide (c = Color.RED)) := by
  by_cases hty : ty = NType.EXTERNAL
  · subst hty
    rfl
  · have hty' : ty = NType.REGULAR := by
      cases ty
      · rfl
      · exact absurd rfl hty
    subst hty'
    rfl

theorem IsRedLink_setSize (t : Tree) (v : Int) : IsRedLink (setSize t v) = IsRedLink t := by
  cases t <;> rfl

theorem IsRedLink_setHeight (t : Tree) (v : Int) :
    IsRedLink (setHeight t v) = IsRedLink t := by
  cases t <;> rfl

theorem IsRedLink_setMinMaxDepth (t : Tree) (a b : Int) :
    IsRedLink (setMinMaxDepth t a b) = IsRedLink t := by
  cases t <;> rfl

theorem IsRedLink_UpdateSize (t : Tree) : IsRedLink (UpdateSize t) = IsRedLink t := by
  unfold UpdateSize
  split
  · rfl
  · exact IsRedLink_setSize t _

theorem IsRedLink_UpdateHeight (t : Tree) : IsRedLink (UpdateHeight t) = IsRedLink t := by
  unfold UpdateHeight
  split
  · rfl
  · exact IsRedLink_setHeight t _

theorem IsRedLink_UpdateDepth (t : Tree) : IsRedLink (UpdateDepth t) = IsRedLink t := by
  unfold UpdateDepth
  split
  · rfl
  · exact IsRedLink_setMinMaxDepth t _ _

theorem IsRedLink_Update (t : Tree) : IsRedLink (Update t) = IsRedLink t := by
  unfold Update
  rw [IsRedLink_UpdateDepth, IsRedLink_UpdateHeight, IsRedLink_UpdateSize]

theorem Is23Rec_setSize (t : Tree) (v : Int) : Is23Rec (setSize t v) = Is23Rec t := by
  cases t with
  | nil => rfl
  | node d l r s h dp mx mn c ty =>
      simp only [setSize, Is23Rec, IsRedLink_node]

theorem Is23Rec_setHeight (t : Tree) (v : Int) : Is23Rec (setHeight t v) = Is23Rec t := by
  cases t with
  | nil => rfl
  | node d l r s h dp mx mn c ty =>
      simp only [setHeight, Is23Rec, IsRedLink_node]

theorem Is23Rec_setMinMaxDepth (t : Tree) (a b : Int) :
    Is23Rec (setMinMaxDepth t a b) = Is23Rec t := by
  cases t with
  | nil => rfl
  | node d l r s h dp mx mn c ty =>
      simp only [setMinMaxDepth, Is23Rec, IsRedLink_node]

theorem Is23Rec_UpdateSize (t : Tree) : Is23Rec (UpdateSize t) = Is23Rec t := by
  unfold UpdateSize
  split
  · rfl
  · exact Is23Rec_setSize t _

theorem Is23Rec_UpdateHeight (t : Tree) : Is23Rec (UpdateHeight t) = Is23Rec t := by
  unfold UpdateHeight
  split
  · rfl
  · exact Is23Rec_setHeight t _

theorem Is23Rec_UpdateDepth (t : Tree) : Is23Rec (UpdateDepth t) = Is23Rec t := by
  unfold UpdateDepth
  split
  · rfl
  · exact Is23Rec_setMinMaxDepth t _ _

theorem Is23Rec_Update (t : Tree) : Is23Rec (Update t) = Is23Rec t := by
  unfold Update
  rw [Is23Rec_UpdateDepth, Is23Rec_UpdateHeight, Is23Rec_UpdateSize]

theorem IsBalancedRec_setSize (t : Tree) (v : Int) (b : Int) :
    IsBalancedRec (setSize t v) b = IsBalancedRec t b := by
  cases t with
  | nil => rfl
  | node d l r s h dp mx mn c ty =>
      simp only [setSize, IsBalancedRec, IsRedLink_node]

theorem IsBalancedRec_setHeight (t : Tree) (v : Int) (b : Int) :
    IsBalancedRec (setHeight t v) b = IsBalancedRec t b := by
  cases t with
  | nil => rfl
  | node d l r s h dp mx mn c ty =>
      simp only [setHeight, IsBalancedRec, IsRedLink_node]

theorem IsBalancedRec_setMinMaxDepth (t : Tree) (a b v : Int) :
    IsBalancedRec (setMinMaxDepth t a b) v = IsBalancedRec t v := by
  cases t with
  | nil => rfl
  | node d l r s h dp mx mn c ty =>
      simp only [setMinMaxDepth, IsBalancedRec, IsRedLink_node]

theorem IsBalancedRec_UpdateSize (t : Tree) (b : Int) :
    IsBalancedRec (UpdateSize t) b = IsBalancedRec t b := by
  unfold UpdateSize
  split
  · rfl
  · exact IsBalancedRec_setSize t _ b

theorem IsBalancedRec_UpdateHeight (t : Tree) (b : Int) :
    IsBalancedRec (UpdateHeight t) b = IsBalancedRec t b := by
  unfold UpdateHeight
  split
  · rfl
  · exact IsBalancedRec_setHeight t _ b

theorem IsBalancedRec_UpdateDepth (t : Tree) (b : Int) :
    IsBalancedRec (UpdateDepth t) b = IsBalancedRec t b := by
  unfold UpdateDepth
  split
  · rfl
  · exact IsBalancedRec_setMinMaxDepth t _ _ b

theorem IsBalancedRec_Update (t : Tree) (b : Int) :
    IsBalancedRec (Update t) b = IsBalancedRec t b := by
  unfold Update
  rw [IsBalancedRec_UpdateDepth, IsBalancedRec_UpdateHeight, IsBalancedRec_UpdateSize]

theorem updConsistent_children {d : Int} {l r : Tree} {s h dp mx mn : Int} {c : Color}
    {ty : NType} (hty : ty ≠ NType.EXTERNAL)
    (hu : updConsistent (.node d l r s h dp mx mn c ty) = true) :
    updConsistent l = true ∧ updConsistent r = true := by
  simp only [updConsistent] at hu
  rw [if_neg (by simpa using hty)] at hu
  simp only [Bool.and_eq_true] at hu
  exact ⟨hu.1.2, hu.2⟩

theorem updConsistent_setColor (t : Tree) (c : Color) :
    updConsistent (setColor t c) = updConsistent t := by
  cases t with
  | nil => rfl
  | node d l r s h dp mx mn c0 ty =>
      simp only [setColor, updConsistent, fminDepth, fmaxDepth, fdepth]

/-- An `Update`d node is aggregate-consistent whenever its children are:
the three stages store exactly the recomputations the checker tests. -/
theorem updConsistent_Update (x : Tree) (hl : updConsistent (fleft x) = true)
    (hr : updConsistent (fright x) = true) : updConsistent (Update x) = true := by
  cases x with
  | nil => rfl
  | node d l r s h dp mx mn c ty =>
      cases ty with
      | EXTERNAL =>
          show updConsistent (.node d l r s h dp mx mn c NType.EXTERNAL) = true
          rfl
      | REGULAR =>
          have hl' : updConsistent l = true := hl
          have hr' : updConsistent r = true := hr
          rw [show Update (.node d l r s h dp mx mn c NType.REGULAR)
              = .node d l r (Size l + Size r + 1)
                (max (if Height l + (if IsRedLink l then 1 else 0) ≠ 0 then 0 else 1)
                     (if ¬ IsEmpty r then Height r + 1 else 0))
                dp
                (max dp (max (MaxDepth l) (MaxDepth r)))
                (min dp (min (MinDepth l) (MinDepth r)))
                c NType.REGULAR from rfl]
          simp [updConsistent, fminDepth, fmaxDepth, fdepth, hl', hr']

/-! Node-level characterizations of the balance and 2-3 checkers, used in
the `Balance` case analysis. -/

theorem balanced_red_node (d : Int) (l r : Tree) (s h dp mx mn : Int) (b : Int) :
    IsBalancedRec (.node d l r s h dp mx mn .RED NType.REGULAR) b
      = (IsBalancedRec l b && IsBalancedRec r b) := by
  simp only [IsBalancedRec, IsRedLink_node]
  rw [if_neg (by intro hc; cases hc)]
  simp

theorem balanced_black_node (d : Int) (l r : Tree) (s h dp mx mn : Int) (b : Int) :
    IsBalancedRec (.node d l r s h dp mx mn .BLACK NType.REGULAR) b
      = (IsBalancedRec l (b - 1) && IsBalancedRec r (b - 1)) := by
  simp only [IsBalancedRec, IsRedLink_node]
  rw [if_neg (by intro hc; cases hc)]
  simp

theorem is23_node (d : Int) (l r : Tree) (s h dp mx mn : Int) (c : Color) :
    Is23Rec (.node d l r s h dp mx mn c NType.REGULAR) = true ↔
      (IsRedLink r = false ∧ ¬(c = Color.RED ∧ IsRedLink l = true) ∧
        Is23Rec l = true ∧ Is23Rec r = true) := by
  simp only [Is23Rec, IsRedLink_node]
  rw [if_neg (by intro hc; cases hc)]
  constructor
  · intro hh
    by_cases hr : IsRedLink r = true
    · rw [if_pos hr] at hh
      cases hh
    · have hr' : IsRedLink r = false := Bool.eq_false_iff.mpr hr
      rw [if_neg hr] at hh
      refine ⟨hr', ?_⟩
      by_cases hp : (decide ¬(NType.REGULAR = NType.EXTERNAL) && decide (c = Color.RED)
          && IsRedLink l) = true
      · rw [if_pos hp] at hh
        cases hh
      · rw [if_neg hp] at hh
        simp only [Bool.and_eq_true, decide_eq_true_eq] at hp
        rw [Bool.and_eq_true] at hh
        refine ⟨?_, hh.1, hh.2⟩
        rintro ⟨hc1, hc2⟩
        exact hp ⟨⟨by simp, hc1⟩, hc2⟩
  · rintro ⟨hr, hp, hl, hrr⟩
    rw [if_neg (by rw [hr]; exact Bool.false_ne_true)]
    rw [if_neg]
    · rw [Bool.and_eq_true]
      exact ⟨hl, hrr⟩
    · intro hc
      simp only [Bool.and_eq_true, decide_eq_true_eq] at hc
      exact hp ⟨hc.1.2, hc.2⟩

theorem is23_blacken (d : Int) (l r : Tree) (s h dp mx mn : Int) (c : Color) :
    Is23Rec (setColor (.node d l r s h dp mx mn c NType.REGULAR) .BLACK) = true ↔
      (IsRedLink r = false ∧ Is23Rec l = true ∧ Is23Rec r = true) := by
  show Is23Rec (.node d l r s h dp mx mn .BLACK NType.REGULAR) = true ↔ _
  rw [is23_node]
  constructor
  · rintro ⟨h1, _, h3, h4⟩
    exact ⟨h1, h3, h4⟩
  · rintro ⟨h1, h3, h4⟩
    have hnp : ¬(Color.BLACK = Color.RED ∧ IsRedLink l = true) := by
      rintro ⟨hc1, hc2⟩
      cases hc1
    exact ⟨h1, hnp, h3, h4⟩

theorem is23_unblacken {y : Tree} (h23 : Is23Rec (setColor y .BLACK) = true)
    (hnp : ¬(IsRedLink y = true ∧ IsRedLink (fleft y) = true)) : Is23Rec y = true := by
  cases y with
  | nil => rfl
  | node d l r s h dp mx mn c ty =>
      cases ty with
      | EXTERNAL => rfl
      | REGULAR =>
          rw [is23_blacken] at h23
          rw [is23_node]
          obtain ⟨h1, h3, h4⟩ := h23
          refine ⟨h1, ?_, h3, h4⟩
          rintro ⟨hc1, hc2⟩
          refine hnp ⟨?_, hc2⟩
          rw [IsRedLink_node, hc1]
          simp

theorem blacken_balanced {y : Tree} {b : Int} (hb : IsBalancedRec y b = true) :
    IsBalancedRec (setColor y .BLACK) (b + (if IsRedLink y then 1 else 0)) = true := by
  cases y with
  | nil =>
      simp only [IsBalancedRec, beq_iff_eq] at hb ⊢
      show (b + if IsRedLink Tree.nil then 1 else 0) = 0
      rw [show IsRedLink Tree.nil = false from rfl]
      simp only [Bool.false_eq_true, if_false]
      omega
  | node d l r s h dp mx mn c ty =>
      cases ty with
      | EXTERNAL =>
          show IsBalancedRec (.node d l r s h dp mx mn .BLACK NType.EXTERNAL) _ = true
          rw [show IsRedLink (Tree.node d l r s h dp mx mn c NType.EXTERNAL) = false
            from by rw [IsRedLink_node]; simp]
          simp only [Bool.false_eq_true, if_false, add_zero]
          simp [IsBalancedRec] at hb ⊢
          exact hb
      | REGULAR =>
          cases c with
          | RED =>
              rw [balanced_red_node] at hb
              show IsBalancedRec (.node d l r s h dp mx mn .BLACK NType.REGULAR) _ = true
              rw [balanced_black_node]
              rw [show IsRedLink (Tree.node d l r s h dp mx mn Color.RED NType.REGULAR) = true
                from by rw [IsRedLink_node]; simp]
              simp only [if_true]
              rw [show b + 1 - 1 = b from by omega]
              exact hb
          | BLACK =>
              show IsBalancedRec (.node d l r s h dp mx mn .BLACK NType.REGULAR) _ = true
              rw [show IsRedLink (Tree.node d l r s h dp mx mn Color.BLACK NType.REGULAR)
                = false from by rw [IsRedLink_node]; simp]
              simp only [Bool.false_eq_true, if_false, add_zero]
              exact hb

/-- One `Balance` step at a rebuilt node whose left child may carry the
red-root / red-left insertion violation, the right child being an intact
black-rooted LLRB subtree.  A RED node never faces a red-red left child
(hypothesis `hC`): its own red link would make three reds in a row. -/
theorem Update_node_reg (d : Int) (l r : Tree) (s h dp mx mn : Int) (c : Color) :
    Update (.node d l r s h dp mx mn c NType.REGULAR)
      = .node d l r (Size l + Size r + 1)
          (max (if Height l + (if IsRedLink l then 1 else 0) ≠ 0 then 0 else 1)
               (if ¬ IsEmpty r then Height r + 1 else 0))
          dp (max dp (max (MaxDepth l) (MaxDepth r)))
          (min dp (min (MinDepth l) (MinDepth r))) c NType.REGULAR := rfl

theorem fleft_node (d : Int) (l r : Tree) (s h dp mx mn : Int) (c : Color) (ty : NType) :
    fleft (.node d l r s h dp mx mn c ty) = l := rfl

theorem fright_node (d : Int) (l r : Tree) (s h dp mx mn : Int) (c : Color) (ty : NType) :
    fright (.node d l r s h dp mx mn c ty) = r := rfl

theorem balance_left (d : Int) (yL r : Tree) (s h dp mx mn : Int) (c : Color) (P : Int)
    (hyB : IsBalancedRec yL P = true) (hrB : IsBalancedRec r P = true)
    (hy23 : Is23Rec (setColor yL .BLACK) = true) (hr23 : Is23Rec r = true)
    (hrRed : IsRedLink r = false)
    (hyu : updConsistent yL = true) (hru : updConsistent r = true)
    (hyN : NoExt yL = true) (hrN : NoExt r = true)
    (hC : c = Color.RED → ¬(IsRedLink yL = true ∧ IsRedLink (fleft yL) = true)) :
    IsBalancedRec (Balance (.node d yL r s h dp mx mn c NType.REGULAR))
        (P + (if c = Color.BLACK then 1 else 0)) = true ∧
    Is23Rec (setColor (Balance (.node d yL r s h dp mx mn c NType.REGULAR)) .BLACK) = true ∧
    ((IsRedLink (Balance (.node d yL r s h dp mx mn c NType.REGULAR)) = true ∧
      IsRedLink (fleft (Balance (.node d yL r s h dp mx mn c NType.REGULAR))) = true) →
        c = Color.RED) ∧
    updConsistent (Balance (.node d yL r s h dp mx mn c NType.REGULAR)) = true ∧
    NoExt (Balance (.node d yL r s h dp mx mn c NType.REGULAR)) = true ∧
    inorderKeys (Balance (.node d yL r s h dp mx mn c NType.REGULAR))
      = inorderKeys yL ++ d :: inorderKeys r := by
  by_cases hB2 : (IsRedLink yL = true ∧ IsRedLink (fleft yL) = true)
  · -- rotate right, then both children red: flip colors
    obtain ⟨hyr, hlyr⟩ := hB2
    have hcB : c = Color.BLACK := by
      cases c
      · exact absurd ⟨hyr, hlyr⟩ (hC rfl)
      · rfl
    subst hcB
    cases yL with
    | nil => rw [show IsRedLink Tree.nil = false from rfl] at hyr; cases hyr
    | node dy ly ry sy hy dpy mxy mny cy tyy =>
    obtain ⟨htyy, hNly, hNry⟩ := NoExt_node hyN
    subst htyy
    have hcy : cy = Color.RED := by
      rw [IsRedLink_node] at hyr
      simpa using hyr
    subst hcy
    rw [fleft_node] at hlyr
    cases ly with
    | nil => rw [show IsRedLink Tree.nil = false from rfl] at hlyr; cases hlyr
    | node dly lly rly sly hly dply mxly mnly cly tyly =>
    obtain ⟨htyly, hNlly, hNrly⟩ := NoExt_node hNly
    subst htyly
    have hcly : cly = Color.RED := by
      rw [IsRedLink_node] at hlyr
      simpa using hlyr
    subst hcly
    -- name the two rotated-and-updated nodes with their aggregates abstracted
    obtain ⟨S2, H2, M2, N2, hH⟩ :
        ∃ S2 H2 M2 N2, Update (.node d ry r s h dp mx mn .RED NType.REGULAR)
          = .node d ry r S2 H2 dp M2 N2 .RED NType.REGULAR := ⟨_, _, _, _, Update_node_reg _ _ _ _ _ _ _ _ _⟩
    obtain ⟨S1, H1, M1, N1, hU⟩ :
        ∃ S1 H1 M1 N1,
          Update (.node dy (.node dly lly rly sly hly dply mxly mnly .RED NType.REGULAR)
              (.node d ry r S2 H2 dp M2 N2 .RED NType.REGULAR) sy hy dpy mxy mny .BLACK
              NType.REGULAR)
          = .node dy (.node dly lly rly sly hly dply mxly mnly .RED NType.REGULAR)
              (.node d ry r S2 H2 dp M2 N2 .RED NType.REGULAR) S1 H1 dpy M1 N1 .BLACK
              NType.REGULAR := ⟨_, _, _, _, Update_node_reg _ _ _ _ _ _ _ _ _⟩
    have hres : Balance (.node d
          (.node dy (.node dly lly rly sly hly dply mxly mnly .RED NType.REGULAR) ry sy hy
            dpy mxy mny .RED NType.REGULAR) r s h dp mx mn .BLACK NType.REGULAR)
        = Update (.node dy (.node dly lly rly sly hly dply mxly mnly .BLACK NType.REGULAR)
            (.node d ry r S2 H2 dp M2 N2 .BLACK NType.REGULAR) S1 H1 dpy M1 N1 .RED
            NType.REGULAR) := by
      unfold Balance
      rw [if_neg (show ¬ IsEmpty (Tree.node d
          (.node dy (.node dly lly rly sly hly dply mxly mnly .RED NType.REGULAR) ry sy hy
            dpy mxy mny .RED NType.REGULAR) r s h dp mx mn .BLACK NType.REGULAR) = true from
        by rw [IsEmpty_reg]; exact Bool.false_ne_true)]
      dsimp only
      have e1 : IsRedLink (.node dy
          (.node dly lly rly sly hly dply mxly mnly .RED NType.REGULAR) ry sy hy dpy mxy mny
          .RED NType.REGULAR) = true := by
        rw [IsRedLink_node]; simp
      have e2 : IsRedLink (.node dly lly rly sly hly dply mxly mnly .RED NType.REGULAR)
          = true := by
        rw [IsRedLink_node]; simp
      simp only [fleft_node, fright_node, hrRed, Bool.and_false, Bool.false_eq_true, if_false,
        e1, e2, Bool.and_self, if_true]
      -- now the term is Update (if cond3 then FlipColors (RotateRight Z) else RotateRight Z)
      rw [show RotateRight (.node d
          (.node dy (.node dly lly rly sly hly dply mxly mnly .RED NType.REGULAR) ry sy hy
            dpy mxy mny .RED NType.REGULAR) r s h dp mx mn .BLACK NType.REGULAR)
        = Update (.node dy (.node dly lly rly sly hly dply mxly mnly .RED NType.REGULAR)
            (Update (.node d ry r s h dp mx mn .RED NType.REGULAR)) sy hy dpy mxy mny .BLACK
            NType.REGULAR) from rfl]
      rw [hH, hU]
      rw [show fleft (.node dy (.node dly lly rly sly hly dply mxly mnly .RED NType.REGULAR)
          (.node d ry r S2 H2 dp M2 N2 .RED NType.REGULAR) S1 H1 dpy M1 N1 .BLACK
          NType.REGULAR) = .node dly lly rly sly hly dply mxly mnly .RED NType.REGULAR
        from rfl]
      rw [show fright (.node dy (.node dly lly rly sly hly dply mxly mnly .RED NType.REGULAR)
          (.node d ry r S2 H2 dp M2 N2 .RED NType.REGULAR) S1 H1 dpy M1 N1 .BLACK
          NType.REGULAR) = .node d ry r S2 H2 dp M2 N2 .RED NType.REGULAR from rfl]
      have e3 : IsRedLink (.node d ry r S2 H2 dp M2 N2 .RED NType.REGULAR) = true := by
        rw [IsRedLink_node]; simp
      simp only [e2, e3, Bool.and_self, if_true]
      rfl
    -- component facts
    have hb1 := hyB
    rw [balanced_red_node, Bool.and_eq_true] at hb1
    have hb2 := hb1.1
    rw [balanced_red_node, Bool.and_eq_true] at hb2
    rw [is23_blacken] at hy23
    obtain ⟨hryRed, h23ly, h23ry⟩ := hy23
    rw [is23_node] at h23ly
    obtain ⟨hrlyRed, hpairly, h23lly, h23rly⟩ := h23ly
    have hupdc := updConsistent_children (by intro hc; cases hc) hyu
    have hupdc2 := updConsistent_children (by intro hc; cases hc) hupdc.1
    refine ⟨?_, ?_, ?_, ?_, ?_, ?_⟩
    · rw [hres, IsBalancedRec_Update, if_pos rfl, balanced_red_node, balanced_black_node,
        balanced_black_node, show P + 1 - 1 = P from by omega, hb2.1, hb2.2, hb1.2, hrB]
      rfl
    · rw [hres]
      obtain ⟨S3, H3, M3, N3, hU2⟩ :
          ∃ S3 H3 M3 N3,
            Update (.node dy (.node dly lly rly sly hly dply mxly mnly .BLACK NType.REGULAR)
                (.node d ry r S2 H2 dp M2 N2 .BLACK NType.REGULAR) S1 H1 dpy M1 N1 .RED
                NType.REGULAR)
            = .node dy (.node dly lly rly sly hly dply mxly mnly .BLACK NType.REGULAR)
                (.node d ry r S2 H2 dp M2 N2 .BLACK NType.REGULAR) S3 H3 dpy M3 N3 .RED
                NType.REGULAR := ⟨_, _, _, _, Update_node_reg _ _ _ _ _ _ _ _ _⟩
      rw [hU2, is23_blacken]
      refine ⟨by rw [IsRedLink_node]; simp, ?_, ?_⟩
      · rw [is23_node]
        have hnp : ¬(Color.BLACK = Color.RED ∧ IsRedLink lly = true) := by
          rintro ⟨hc, _⟩
          cases hc
        exact ⟨hrlyRed, hnp, h23lly, h23rly⟩
      · rw [is23_node]
        have hnp : ¬(Color.BLACK = Color.RED ∧ IsRedLink ry = true) := by
          rintro ⟨hc, _⟩
          cases hc
        exact ⟨hrRed, hnp, h23ry, hr23⟩
    · rw [hres]
      rintro ⟨h1, h2⟩
      rw [fleft_Update, fleft_node, IsRedLink_node] at h2
      simp at h2
    · rw [hres]
      refine updConsistent_Update _ ?_ ?_
      · show updConsistent (.node dly lly rly sly hly dply mxly mnly .BLACK NType.REGULAR)
          = true
        rw [show (Tree.node dly lly rly sly hly dply mxly mnly .BLACK NType.REGULAR)
            = setColor (.node dly lly rly sly hly dply mxly mnly .RED NType.REGULAR) .BLACK
          from rfl, updConsistent_setColor]
        exact hupdc.1
      · show updConsistent (.node d ry r S2 H2 dp M2 N2 .BLACK NType.REGULAR) = true
        rw [show (Tree.node d ry r S2 H2 dp M2 N2 .BLACK NType.REGULAR)
            = setColor (.node d ry r S2 H2 dp M2 N2 .RED NType.REGULAR) .BLACK from rfl,
          updConsistent_setColor, ← hH]
        exact updConsistent_Update _ hupdc.2 hru
    · rw [hres, NoExt_Update]
      simp [NoExt, hNlly, hNrly, hupdc, hNry, hrN]
    · rw [hres, inorderKeys_Update]
      simp [inorderKeys]
  · -- no fixup fires: Balance only updates
    have hres : Balance (.node d yL r s h dp mx mn c NType.REGULAR)
        = Update (.node d yL r s h dp mx mn c NType.REGULAR) := by
      unfold Balance
      rw [if_neg (show ¬ IsEmpty (Tree.node d yL r s h dp mx mn c NType.REGULAR) = true from
        by rw [IsEmpty_reg]; exact Bool.false_ne_true)]
      dsimp only
      have hB2' : (IsRedLink yL && IsRedLink (fleft yL)) = false :=
        Bool.eq_false_iff.mpr (fun hc => hB2 (by simpa [Bool.and_eq_true] using hc))
      simp only [fleft_node, fright_node, hrRed, Bool.and_false, Bool.false_eq_true, if_false,
        hB2']
    refine ⟨?_, ?_, ?_, ?_, ?_, ?_⟩
    · rw [hres, IsBalancedRec_Update]
      cases c with
      | RED =>
          rw [balanced_red_node, show P + (if Color.RED = Color.BLACK then (1 : Int) else 0)
            = P from by simp, hyB, hrB]
          rfl
      | BLACK =>
          rw [balanced_black_node, if_pos rfl, show P + 1 - 1 = P from by omega, hyB, hrB]
          rfl
    · rw [hres]
      obtain ⟨S1, H1, M1, N1, hU⟩ :
          ∃ S1 H1 M1 N1, Update (.node d yL r s h dp mx mn c NType.REGULAR)
            = .node d yL r S1 H1 dp M1 N1 c NType.REGULAR :=
        ⟨_, _, _, _, Update_node_reg _ _ _ _ _ _ _ _ _⟩
      rw [hU, is23_blacken]
      exact ⟨hrRed, is23_unblacken hy23 hB2, hr23⟩
    · rw [hres]
      rintro ⟨h1, h2⟩
      rw [IsRedLink_Update, IsRedLink_node] at h1
      simpa using h1
    · rw [hres]
      exact updConsistent_Update _ hyu hru
    · rw [hres, NoExt_Update]
      simp [NoExt, hyN, hrN]
    · rw [hres, inorderKeys_Update]
      rfl

/-- One `Balance` step at a rebuilt node whose right child carries the
join result (possibly red-rooted, but never with a red-red violation),
the left child being an intact subtree of a valid LLRB.  Such nodes are
always BLACK: they lie on a right spine. -/
theorem balance_right (d : Int) (l yR : Tree) (s h dp mx mn : Int) (P : Int)
    (hlB : IsBalancedRec l P = true) (hyB : IsBalancedRec yR P = true)
    (hl23 : Is23Rec l = true) (hy23 : Is23Rec (setColor yR .BLACK) = true)
    (hynrr : ¬(IsRedLink yR = true ∧ IsRedLink (fleft yR) = true))
    (hlu : updConsistent l = true) (hyu : updConsistent yR = true)
    (hlN : NoExt l = true) (hyN : NoExt yR = true) :
    IsBalancedRec (Balance (.node d l yR s h dp mx mn .BLACK NType.REGULAR)) (P + 1) = true ∧
    Is23Rec (setColor (Balance (.node d l yR s h dp mx mn .BLACK NType.REGULAR)) .BLACK)
      = true ∧
    ¬(IsRedLink (Balance (.node d l yR s h dp mx mn .BLACK NType.REGULAR)) = true ∧
      IsRedLink (fleft (Balance (.node d l yR s h dp mx mn .BLACK NType.REGULAR))) = true) ∧
    updConsistent (Balance (.node d l yR s h dp mx mn .BLACK NType.REGULAR)) = true ∧
    NoExt (Balance (.node d l yR s h dp mx mn .BLACK NType.REGULAR)) = true ∧
    inorderKeys (Balance (.node d l yR s h dp mx mn .BLACK NType.REGULAR))
      = inorderKeys l ++ d :: inorderKeys yR := by
  have hc2 : (IsRedLink l && IsRedLink (fleft l)) = false := by
    by_cases hlr : IsRedLink l = true
    · cases l with
      | nil => rw [show IsRedLink Tree.nil = false from rfl] at hlr; cases hlr
      | node dl ll rl sl hl dpl mxl mnl cl tyl =>
          obtain ⟨htyl, _, _⟩ := NoExt_node hlN
          subst htyl
          have hcl : cl = Color.RED := by
            rw [IsRedLink_node] at hlr
            simpa using hlr
          subst hcl
          rw [is23_node] at hl23
          have hll : IsRedLink (fleft (Tree.node dl ll rl sl hl dpl mxl mnl Color.RED
              NType.REGULAR)) = false := by
            rw [fleft_node]
            exact Bool.eq_false_iff.mpr (fun hcc => hl23.2.1 ⟨rfl, hcc⟩)
          rw [hll, Bool.and_false]
    · rw [Bool.eq_false_iff.mpr hlr, Bool.false_and]
  by_cases hyr : IsRedLink yR = true
  · by_cases hlr : IsRedLink l = true
    · -- R2a: both children red: flip colors
      cases l with
      | nil => rw [show IsRedLink Tree.nil = false from rfl] at hlr; cases hlr
      | node dl ll rl sl hgl dpl mxl mnl cl tyl =>
      obtain ⟨htyl, hNll, hNrl⟩ := NoExt_node hlN
      subst htyl
      have hcl : cl = Color.RED := by
        rw [IsRedLink_node] at hlr
        simpa using hlr
      subst hcl
      cases yR with
      | nil => rw [show IsRedLink Tree.nil = false from rfl] at hyr; cases hyr
      | node dy ly ry sy hgy dpy mxy mny cy tyy =>
      obtain ⟨htyy, hNly, hNry⟩ := NoExt_node hyN
      subst htyy
      have hcy : cy = Color.RED := by
        rw [IsRedLink_node] at hyr
        simpa using hyr
      subst hcy
      have hlrT : IsRedLink (.node dl ll rl sl hgl dpl mxl mnl .RED NType.REGULAR) = true := by
        rw [IsRedLink_node]; simp
      have hyrT : IsRedLink (.node dy ly ry sy hgy dpy mxy mny .RED NType.REGULAR) = true := by
        rw [IsRedLink_node]; simp
      have hll' : IsRedLink ll = false := by
        rw [hlrT, fleft_node, Bool.true_and] at hc2
        exact hc2
      have hres : Balance (.node d (.node dl ll rl sl hgl dpl mxl mnl .RED NType.REGULAR)
            (.node dy ly ry sy hgy dpy mxy mny .RED NType.REGULAR) s h dp mx mn .BLACK
            NType.REGULAR)
          = Update (.node d (.node dl ll rl sl hgl dpl mxl mnl .BLACK NType.REGULAR)
              (.node dy ly ry sy hgy dpy mxy mny .BLACK NType.REGULAR) s h dp mx mn .RED
              NType.REGULAR) := by
        unfold Balance
        rw [if_neg (show ¬ IsEmpty (Tree.node d
            (.node dl ll rl sl hgl dpl mxl mnl .RED NType.REGULAR)
            (.node dy ly ry sy hgy dpy mxy mny .RED NType.REGULAR) s h dp mx mn .BLACK
            NType.REGULAR) = true from by rw [IsEmpty_reg]; exact Bool.false_ne_true)]
        dsimp only
        simp only [fleft_node, fright_node, hlrT, hyrT, hll', decide_not, eq_self_iff_true,
          decide_True, Bool.not_true, Bool.false_and, Bool.true_and, Bool.and_false,
          Bool.false_eq_true, if_false, Bool.and_self, if_true]
        rfl
      rw [is23_node] at hl23
      obtain ⟨hrlRed, hpairl, h23ll, h23rl⟩ := hl23
      refine ⟨?_, ?_, ?_, ?_, ?_, ?_⟩
      · rw [hres, IsBalancedRec_Update, balanced_red_node]
        have h1 := blacken_balanced hlB
        rw [hlrT, if_pos rfl] at h1
        have h2 := blacken_balanced hyB
        rw [hyrT, if_pos rfl] at h2
        rw [show setColor (.node dl ll rl sl hgl dpl mxl mnl .RED NType.REGULAR) .BLACK
            = .node dl ll rl sl hgl dpl mxl mnl .BLACK NType.REGULAR from rfl] at h1
        rw [show setColor (.node dy ly ry sy hgy dpy mxy mny .RED NType.REGULAR) .BLACK
            = .node dy ly ry sy hgy dpy mxy mny .BLACK NType.REGULAR from rfl] at h2
        rw [h1, h2]
        rfl
      · rw [hres]
        obtain ⟨S1, H1, M1, N1, hU⟩ :
            ∃ S1 H1 M1 N1,
              Update (.node d (.node dl ll rl sl hgl dpl mxl mnl .BLACK NType.REGULAR)
                  (.node dy ly ry sy hgy dpy mxy mny .BLACK NType.REGULAR) s h dp mx mn .RED
                  NType.REGULAR)
              = .node d (.node dl ll rl sl hgl dpl mxl mnl .BLACK NType.REGULAR)
                  (.node dy ly ry sy hgy dpy mxy mny .BLACK NType.REGULAR) S1 H1 dp M1 N1 .RED
                  NType.REGULAR := ⟨_, _, _, _, Update_node_reg _ _ _ _ _ _ _ _ _⟩
        rw [hU, is23_blacken]
        refine ⟨by rw [IsRedLink_node]; simp, ?_, ?_⟩
        · rw [is23_node]
          have hnp : ¬(Color.BLACK = Color.RED ∧ IsRedLink ll = true) := by
            rintro ⟨hcc, _⟩
            cases hcc
          exact ⟨hrlRed, hnp, h23ll, h23rl⟩
        · exact hy23
      · rw [hres]
        rintro ⟨h1, h2⟩
        rw [fleft_Update, fleft_node, IsRedLink_node] at h2
        simp at h2
      · rw [hres]
        refine updConsistent_Update _ ?_ ?_
        · show updConsistent (.node dl ll rl sl hgl dpl mxl mnl .BLACK NType.REGULAR) = true
          rw [show (Tree.node dl ll rl sl hgl dpl mxl mnl .BLACK NType.REGULAR)
              = setColor (.node dl ll rl sl hgl dpl mxl mnl .RED NType.REGULAR) .BLACK
            from rfl, updConsistent_setColor]
          exact hlu
        · show updConsistent (.node dy ly ry sy hgy dpy mxy mny .BLACK NType.REGULAR) = true
          rw [show (Tree.node dy ly ry sy hgy dpy mxy mny .BLACK NType.REGULAR)
              = setColor (.node dy ly ry sy hgy dpy mxy mny .RED NType.REGULAR) .BLACK
            from rfl, updConsistent_setColor]
          exact hyu
      · rw [hres, NoExt_Update]
        simp [NoExt, hNll, hNrl, hNly, hNry]
      · rw [hres, inorderKeys_Update]
        rfl
    · -- R1: rotate left
      have hlr' : IsRedLink l = false := Bool.eq_false_iff.mpr hlr
      cases yR with
      | nil => rw [show IsRedLink Tree.nil = false from rfl] at hyr; cases hyr
      | node dy ly ry sy hgy dpy mxy mny cy tyy =>
      obtain ⟨htyy, hNly, hNry⟩ := NoExt_node hyN
      subst htyy
      have hcy : cy = Color.RED := by
        rw [IsRedLink_node] at hyr
        simpa using hyr
      subst hcy
      rw [is23_blacken] at hy23
      obtain ⟨hryRed, h23ly, h23ry⟩ := hy23
      have hly' : IsRedLink ly = false := by
        refine Bool.eq_false_iff.mpr (fun hcc => hynrr ⟨hyr, ?_⟩)
        rw [fleft_node]
        exact hcc
      rw [balanced_red_node, Bool.and_eq_true] at hyB
      have hupdy := updConsistent_children (by intro hc; cases hc) hyu
      obtain ⟨S2, H2, M2, N2, hH⟩ :
          ∃ S2 H2 M2 N2, Update (.node d l ly s h dp mx mn .RED NType.REGULAR)
            = .node d l ly S2 H2 dp M2 N2 .RED NType.REGULAR :=
        ⟨_, _, _, _, Update_node_reg _ _ _ _ _ _ _ _ _⟩
      obtain ⟨S1, H1, M1, N1, hU⟩ :
          ∃ S1 H1 M1 N1,
            Update (.node dy (.node d l ly S2 H2 dp M2 N2 .RED NType.REGULAR) ry sy hgy dpy
                mxy mny .BLACK NType.REGULAR)
            = .node dy (.node d l ly S2 H2 dp M2 N2 .RED NType.REGULAR) ry S1 H1 dpy M1 N1
                .BLACK NType.REGULAR := ⟨_, _, _, _, Update_node_reg _ _ _ _ _ _ _ _ _⟩
      have hyrT : IsRedLink (.node dy ly ry sy hgy dpy mxy mny .RED NType.REGULAR) = true := by
        rw [IsRedLink_node]; simp
      have e4 : IsRedLink (.node d l ly S2 H2 dp M2 N2 .RED NType.REGULAR) = true := by
        rw [IsRedLink_node]; simp
      have hres : Balance (.node d l (.node dy ly ry sy hgy dpy mxy mny .RED NType.REGULAR)
            s h dp mx mn .BLACK NType.REGULAR)
          = Update (.node dy (.node d l ly S2 H2 dp M2 N2 .RED NType.REGULAR) ry S1 H1 dpy
              M1 N1 .BLACK NType.REGULAR) := by
        unfold Balance
        rw [if_neg (show ¬ IsEmpty (Tree.node d l
            (.node dy ly ry sy hgy dpy mxy mny .RED NType.REGULAR) s h dp mx mn .BLACK
            NType.REGULAR) = true from by rw [IsEmpty_reg]; exact Bool.false_ne_true)]
        dsimp only
        simp only [fleft_node, fright_node, hlr', hyrT, Bool.false_eq_true, not_false_iff,
          decide_True, Bool.true_and, if_true, decide_not, Bool.not_false]
        rw [show RotateLeft (.node d l
            (.node dy ly ry sy hgy dpy mxy mny .RED NType.REGULAR) s h dp mx mn .BLACK
            NType.REGULAR)
          = Update (.node dy (Update (.node d l ly s h dp mx mn .RED NType.REGULAR)) ry sy
              hgy dpy mxy mny .BLACK NType.REGULAR) from rfl]
        rw [hH, hU]
        simp only [fleft_node, fright_node, e4, hlr', hryRed, Bool.and_false,
          Bool.false_eq_true, if_false, Bool.true_and]
      refine ⟨?_, ?_, ?_, ?_, ?_, ?_⟩
      · rw [hres, IsBalancedRec_Update, balanced_black_node,
          show P + 1 - 1 = P from by omega, ← hH, IsBalancedRec_Update, balanced_red_node,
          hlB, hyB.1, hyB.2]
        rfl
      · rw [hres]
        obtain ⟨S3, H3, M3, N3, hU2⟩ :
            ∃ S3 H3 M3 N3,
              Update (.node dy (.node d l ly S2 H2 dp M2 N2 .RED NType.REGULAR) ry S1 H1 dpy
                  M1 N1 .BLACK NType.REGULAR)
              = .node dy (.node d l ly S2 H2 dp M2 N2 .RED NType.REGULAR) ry S3 H3 dpy M3 N3
                  .BLACK NType.REGULAR := ⟨_, _, _, _, Update_node_reg _ _ _ _ _ _ _ _ _⟩
        rw [hU2, is23_blacken]
        refine ⟨hryRed, ?_, h23ry⟩
        rw [← hH, Is23Rec_Update, is23_node]
        have hnp : ¬(Color.RED = Color.RED ∧ IsRedLink l = true) := by
          rintro ⟨_, hcc⟩
          rw [hlr'] at hcc
          cases hcc
        exact ⟨hly', hnp, hl23, h23ly⟩
      · rw [hres]
        rintro ⟨h1, h2⟩
        rw [IsRedLink_Update, IsRedLink_node] at h1
        simp at h1
      · rw [hres]
        refine updConsistent_Update _ ?_ ?_
        · show updConsistent (.node d l ly S2 H2 dp M2 N2 .RED NType.REGULAR) = true
          rw [← hH]
          exact updConsistent_Update _ hlu hupdy.1
        · exact hupdy.2
      · rw [hres, NoExt_Update]
        simp [NoExt, hlN, hNly, hNry]
      · rw [hres, inorderKeys_Update]
        have hio : inorderKeys (.node d l ly S2 H2 dp M2 N2 .RED NType.REGULAR)
            = inorderKeys l ++ d :: inorderKeys ly := by
          rw [← hH, inorderKeys_Update]
          rfl
        show inorderKeys (.node d l ly S2 H2 dp M2 N2 .RED NType.REGULAR) ++ dy
            :: inorderKeys ry = _
        rw [hio]
        simp [inorderKeys]
  · -- R2b: no fixup
    have hyr' : IsRedLink yR = false := Bool.eq_false_iff.mpr hyr
    have hres : Balance (.node d l yR s h dp mx mn .BLACK NType.REGULAR)
        = Update (.node d l yR s h dp mx mn .BLACK NType.REGULAR) := by
      unfold Balance
      rw [if_neg (show ¬ IsEmpty (Tree.node d l yR s h dp mx mn .BLACK NType.REGULAR) = true
        from by rw [IsEmpty_reg]; exact Bool.false_ne_true)]
      dsimp only
      simp only [fleft_node, fright_node, hyr', Bool.and_false, Bool.false_eq_true, if_false,
        hc2]
    refine ⟨?_, ?_, ?_, ?_, ?_, ?_⟩
    · rw [hres, IsBalancedRec_Update, balanced_black_node,
        show P + 1 - 1 = P from by omega, hlB, hyB]
      rfl
    · rw [hres]
      obtain ⟨S1, H1, M1, N1, hU⟩ :
          ∃ S1 H1 M1 N1, Update (.node d l yR s h dp mx mn .BLACK NType.REGULAR)
            = .node d l yR S1 H1 dp M1 N1 .BLACK NType.REGULAR :=
        ⟨_, _, _, _, Update_node_reg _ _ _ _ _ _ _ _ _⟩
      rw [hU, is23_blacken]
      exact ⟨hyr', hl23, is23_unblacken hy23 hynrr⟩
    · rw [hres]
      rintro ⟨h1, h2⟩
      rw [IsRedLink_Update, IsRedLink_node] at h1
      simp at h1
    · rw [hres]
      exact updConsistent_Update _ hlu hyu
    · rw [hres, NoExt_Update]
      simp [NoExt, hlN, hyN]
    · rw [hres, inorderKeys_Update]
      rfl

/-- Rank of a subtree: black links on any path from above it to a leaf,
its own link included (stored height plus its own black bit). -/
def Rk (t : Tree) : Int := Height t + (if IsRedLink t then 0 else 1)

/-- A valid standalone LLRB subtree: the source's 2-3 and balance checks
(at its own rank), consistent aggregates and no EXTERNAL node. -/
def validLLRB (t : Tree) : Prop :=
  Is23Rec t = true ∧ updConsistent t = true ∧ NoExt t = true ∧
    IsBalancedRec t (Rk t) = true

theorem Height_ge (t : Tree) (hu : updConsistent t = true) : -1 ≤ Height t := by
  unfold Height
  split
  · omega
  · rename_i hne
    have := fheight_lb t (Bool.eq_false_iff.mpr hne) hu
    omega

theorem Height_node_reg (d : Int) (l r : Tree) (s h dp mx mn : Int) (c : Color) :
    Height (.node d l r s h dp mx mn c NType.REGULAR) = h := rfl

/-- Children of a valid LLRB node: both valid, the right link black, both
ranks equal to the node's stored height, and no red-red pair with the
node's own link. -/
theorem valid_children (d : Int) (l r : Tree) (s h dp mx mn : Int) (c : Color)
    (hv : validLLRB (.node d l r s h dp mx mn c NType.REGULAR)) :
    validLLRB l ∧ validLLRB r ∧ IsRedLink r = false ∧
    Rk l = h ∧ Rk r = h ∧ ¬(c = Color.RED ∧ IsRedLink l = true) := by
  obtain ⟨h23, hu, hN, hB⟩ := hv
  rw [is23_node] at h23
  obtain ⟨hrRed, hpair, h23l, h23r⟩ := h23
  obtain ⟨hul, hur⟩ := updConsistent_children (by intro hc; cases hc) hu
  obtain ⟨_, hNl, hNr⟩ := NoExt_node hN
  have hBc : IsBalancedRec l h = true ∧ IsBalancedRec r h = true := by
    cases c with
    | RED =>
        rw [show Rk (.node d l r s h dp mx mn .RED NType.REGULAR) = h from by
          unfold Rk
          rw [Height_node_reg, IsRedLink_node]
          simp] at hB
        rw [balanced_red_node, Bool.and_eq_true] at hB
        exact hB
    | BLACK =>
        rw [show Rk (.node d l r s h dp mx mn .BLACK NType.REGULAR) = h + 1 from by
          unfold Rk
          rw [Height_node_reg, IsRedLink_node]
          simp] at hB
        rw [balanced_black_node, Bool.and_eq_true] at hB
        rw [show h + 1 - 1 = h from by omega] at hB
        exact hB
  have hbrl := aggregates_bridge l h h23l hul hBc.1
  have hbrr := aggregates_bridge r h h23r hur hBc.2
  have hRkl : Rk l = h := by
    unfold Rk
    rw [← hbrl.2]
  have hRkr : Rk r = h := by
    unfold Rk
    rw [← hbrr.2]
  have hpair' : ¬(c = Color.RED ∧ IsRedLink l = true) := by
    rintro ⟨hc1, hc2⟩
    subst hc1
    exact hpair ⟨rfl, hc2⟩
  refine ⟨⟨h23l, hul, hNl, ?_⟩, ⟨h23r, hur, hNr, ?_⟩, hrRed, hRkl, hRkr, hpair'⟩
  · rw [hRkl]
    exact hBc.1
  · rw [hRkr]
    exact hBc.2

/-- The seam step of `JoinRec`: hang `x` as a RED node over the two
equal-rank black-rooted trees. -/
theorem balance_seam (t1 x t2 : Tree) (B : Int) (hx : x ≠ .nil)
    (hxE : IsExternal x = false)
    (h1B : IsBalancedRec t1 B = true) (h2B : IsBalancedRec t2 B = true)
    (h123 : Is23Rec t1 = true) (h223 : Is23Rec t2 = true)
    (h1Red : IsRedLink t1 = false) (h2Red : IsRedLink t2 = false)
    (h1u : updConsistent t1 = true) (h2u : updConsistent t2 = true)
    (h1N : NoExt t1 = true) (h2N : NoExt t2 = true) :
    IsBalancedRec (Balance (setRight (setLeft (setColor x .RED) t1) t2)) B = true ∧
    Is23Rec (setColor (Balance (setRight (setLeft (setColor x .RED) t1) t2)) .BLACK)
      = true ∧
    ¬(IsRedLink (Balance (setRight (setLeft (setColor x .RED) t1) t2)) = true ∧
      IsRedLink (fleft (Balance (setRight (setLeft (setColor x .RED) t1) t2))) = true) ∧
    updConsistent (Balance (setRight (setLeft (setColor x .RED) t1) t2)) = true ∧
    NoExt (Balance (setRight (setLeft (setColor x .RED) t1) t2)) = true := by
  cases x with
  | nil => exact absurd rfl hx
  | node xd xl xr xs xh xdp xmx xmn xc xty =>
  have htyx : xty = NType.REGULAR := by
    cases xty
    · rfl
    · simp [IsExternal] at hxE
  subst htyx
  rw [show setRight (setLeft (setColor
      (.node xd xl xr xs xh xdp xmx xmn xc NType.REGULAR) .RED) t1) t2
    = .node xd t1 t2 xs xh xdp xmx xmn .RED NType.REGULAR from rfl]
  have hres : Balance (.node xd t1 t2 xs xh xdp xmx xmn .RED NType.REGULAR)
      = Update (.node xd t1 t2 xs xh xdp xmx xmn .RED NType.REGULAR) := by
    unfold Balance
    rw [if_neg (show ¬ IsEmpty (Tree.node xd t1 t2 xs xh xdp xmx xmn .RED NType.REGULAR)
      = true from by rw [IsEmpty_reg]; exact Bool.false_ne_true)]
    dsimp only
    simp only [fleft_node, fright_node, h1Red, h2Red, Bool.and_false, Bool.false_and,
      Bool.false_eq_true, if_false]
  refine ⟨?_, ?_, ?_, ?_, ?_⟩
  · rw [hres, IsBalancedRec_Update, balanced_red_node, h1B, h2B]
    rfl
  · rw [hres]
    obtain ⟨S1, H1, M1, N1, hU⟩ :
        ∃ S1 H1 M1 N1, Update (.node xd t1 t2 xs xh xdp xmx xmn .RED NType.REGULAR)
          = .node xd t1 t2 S1 H1 xdp M1 N1 .RED NType.REGULAR :=
      ⟨_, _, _, _, Update_node_reg _ _ _ _ _ _ _ _ _⟩
    rw [hU, is23_blacken]
    exact ⟨h2Red, h123, h223⟩
  · rw [hres]
    rintro ⟨h1, h2⟩
    rw [fleft_Update, fleft_node, h1Red] at h2
    cases h2
  · rw [hres]
    exact updConsistent_Update _ h1u h2u
  · rw [hres, NoExt_Update]
    simp [NoExt, h1N, h2N]

/-- `JoinRec` preserves validity: joining two valid trees (the left one
black-rooted; the right one red-rooted only when strictly taller) through
a fresh seam node yields a tree balanced at the larger rank, with at most
a root-level red-red violation, and that only under a red right input. -/
theorem Rk_node (d : Int) (l r : Tree) (s h dp mx mn : Int) (c : Color) :
    Rk (.node d l r s h dp mx mn c NType.REGULAR)
      = h + (if c = Color.BLACK then (1 : Int) else 0) := by
  cases c with
  | RED =>
      unfold Rk
      rw [Height_node_reg, IsRedLink_node]
      simp
  | BLACK =>
      unfold Rk
      rw [Height_node_reg, IsRedLink_node]
      simp

theorem JoinRec_valid (t1 x t2 : Tree) :
    x ≠ .nil → IsExternal x = false → validLLRB t1 → validLLRB t2 →
    IsRedLink t1 = false → (IsRedLink t2 = true → Height t1 < Height t2) →
    IsBalancedRec (JoinRec t1 x t2) (max (Rk t1) (Rk t2)) = true ∧
    Is23Rec (setColor (JoinRec t1 x t2) .BLACK) = true ∧
    (IsRedLink t2 = false →
      ¬(IsRedLink (JoinRec t1 x t2) = true ∧ IsRedLink (fleft (JoinRec t1 x t2)) = true)) ∧
    updConsistent (JoinRec t1 x t2) = true ∧ NoExt (JoinRec t1 x t2) = true := by
  induction t1, x, t2 using JoinRec.induct with
  | case1 t1 x d l r s h dp mx mn c ty hlt ih =>
      intro hx hxE h1 h2 hS1 hS2
      obtain ⟨hty2, _, _⟩ := NoExt_node h2.2.2.1
      subst hty2
      obtain ⟨hvl, hvr, hrRed, hRkl, hRkr, hpair⟩ := valid_children d l r s h dp mx mn c h2
      have hlt' : Height t1 < h := by rw [Height_node_reg] at hlt; exact hlt
      have hS2' : IsRedLink l = true → Height t1 < Height l := by
        intro hrl
        have := hRkl
        unfold Rk at this
        rw [hrl] at this
        simp at this
        omega
      have ihres := ih hx hxE h1 hvl hS1 hS2'
      have hb1 : Rk t1 ≤ h := by
        unfold Rk
        split <;> omega
      have hmax : max (Rk t1) (Rk l) = h := by
        rw [hRkl]
        omega
      rw [hmax] at ihres
      have hC : c = Color.RED →
          ¬(IsRedLink (JoinRec t1 x l) = true ∧
            IsRedLink (fleft (JoinRec t1 x l)) = true) := by
        intro hc
        have hlb : IsRedLink l = false := by
          by_cases hq : IsRedLink l = true
          · exact absurd ⟨hc, hq⟩ hpair
          · exact Bool.eq_false_iff.mpr hq
        exact ihres.2.2.1 hlb
      have hJ : JoinRec t1 x (.node d l r s h dp mx mn c NType.REGULAR)
          = Balance (.node d (JoinRec t1 x l) r s h dp mx mn c NType.REGULAR) := by
        rw [JoinRec.eq_def]
        simp only [if_pos hlt]
      obtain ⟨b1, b2, b3, b4, b5, b6⟩ := balance_left d (JoinRec t1 x l) r s h dp mx mn c h
        ihres.1 (by rw [← hRkr]; exact hvr.2.2.2) ihres.2.1 hvr.1 hrRed
        ihres.2.2.2.1 hvr.2.1 ihres.2.2.2.2 hvr.2.2.1 hC
      rw [hJ]
      have hparam : max (Rk t1) (Rk (.node d l r s h dp mx mn c NType.REGULAR))
          = h + (if c = Color.BLACK then (1 : Int) else 0) := by
        rw [Rk_node]
        split <;> omega
      refine ⟨?_, b2, ?_, b4, b5⟩
      · rw [hparam]
        exact b1
      · intro hred2
        have hcB : c = Color.BLACK := by
          cases c
          · rw [IsRedLink_node] at hred2
            simp at hred2
          · rfl
        intro hrr
        have := b3 hrr
        rw [hcB] at this
        cases this
  | case2 t1 x hlt =>
      intro hx hxE h1 h2 hS1 hS2
      exfalso
      have := Height_ge t1 h1.2.1
      rw [show Height Tree.nil = -1 from rfl] at hlt
      omega
  | case3 x t2 d l r s h dp mx mn c ty hnlt hgt ih =>
      intro hx hxE h1 h2 hS1 hS2
      obtain ⟨hty1, _, _⟩ := NoExt_node h1.2.2.1
      subst hty1
      have hcB : c = Color.BLACK := by
        cases c
        · rw [IsRedLink_node] at hS1
          simp at hS1
        · rfl
      subst hcB
      obtain ⟨hvl, hvr, hrRed, hRkl, hRkr, hpair⟩ := valid_children d l r s h dp mx mn
        Color.BLACK h1
      have hgt' : Height t2 < h := by rw [Height_node_reg] at hgt; exact hgt
      have hred2 : IsRedLink t2 = false := by
        by_cases hq : IsRedLink t2 = true
        · have := hS2 hq
          rw [Height_node_reg] at this
          omega
        · exact Bool.eq_false_iff.mpr hq
      have hS2' : IsRedLink t2 = true → Height r < Height t2 := by
        intro hq
        rw [hq] at hred2
        cases hred2
      have ihres := ih hx hxE hvr h2 hrRed hS2'
      have hb2 : Rk t2 ≤ h := by
        unfold Rk
        split <;> omega
      have hmax : max (Rk r) (Rk t2) = h := by
        rw [hRkr]
        omega
      rw [hmax] at ihres
      have hJ : JoinRec (.node d l r s h dp mx mn .BLACK NType.REGULAR) x t2
          = Balance (.node d l (JoinRec r x t2) s h dp mx mn .BLACK NType.REGULAR) := by
        rw [JoinRec.eq_def]
        simp only [if_neg hnlt, if_pos hgt]
      obtain ⟨b1, b2, b3, b4, b5, b6⟩ := balance_right d l (JoinRec r x t2) s h dp mx mn h
        (by rw [← hRkl]; exact hvl.2.2.2) ihres.1 hvl.1 ihres.2.1 (ihres.2.2.1 hred2)
        hvl.2.1 ihres.2.2.2.1 hvl.2.2.1 ihres.2.2.2.2
      rw [hJ]
      have hparam : max (Rk (.node d l r s h dp mx mn .BLACK NType.REGULAR)) (Rk t2)
          = h + 1 := by
        rw [Rk_node, if_pos rfl]
        omega
      refine ⟨?_, b2, fun _ => b3, b4, b5⟩
      rw [hparam]
      exact b1
  | case4 x t2 hnlt hgt =>
      intro hx hxE h1 h2 hS1 hS2
      exfalso
      have := Height_ge t2 h2.2.1
      rw [show Height Tree.nil = -1 from rfl] at hgt
      omega
  | case5 t1 x t2 hnlt hngt =>
      intro hx hxE h1 h2 hS1 hS2
      have hred2 : IsRedLink t2 = false := by
        by_cases hq : IsRedLink t2 = true
        · exact absurd (hS2 hq) hnlt
        · exact Bool.eq_false_iff.mpr hq
      have hHeq : Height t1 = Height t2 := by omega
      have hRk1 : Rk t1 = Height t1 + 1 := by
        unfold Rk
        rw [hS1]
        simp
      have hRk2 : Rk t2 = Height t2 + 1 := by
        unfold Rk
        rw [hred2]
        simp
      have hB1 : IsBalancedRec t1 (Height t1 + 1) = true := by
        rw [← hRk1]
        exact h1.2.2.2
      have hB2 : IsBalancedRec t2 (Height t1 + 1) = true := by
        rw [hHeq, ← hRk2]
        exact h2.2.2.2
      have hJ : JoinRec t1 x t2 = Balance (setRight (setLeft (setColor x .RED) t1) t2) := by
        rw [JoinRec.eq_def]
        simp only [if_neg hnlt, if_neg hngt]
      obtain ⟨b1, b2, b3, b4, b5⟩ := balance_seam t1 x t2 (Height t1 + 1) hx hxE hB1 hB2
        h1.1 h2.1 hS1 hred2 h1.2.1 h2.2.1 h1.2.2.1 h2.2.2.1
      rw [hJ]
      have hparam : max (Rk t1) (Rk t2) = Height t1 + 1 := by
        rw [hRk1, hRk2]
        omega
      rw [hparam]
      exact ⟨b1, b2, fun _ => b3, b4, b5⟩

theorem is23_setColor_black (t : Tree) (h23 : Is23Rec t = true) :
    Is23Rec (setColor t .BLACK) = true := by
  cases t with
  | nil => rfl
  | node d l r s h dp mx mn c ty =>
      cases ty with
      | EXTERNAL => rfl
      | REGULAR =>
          rw [is23_node] at h23
          rw [is23_blacken]
          exact ⟨h23.1, h23.2.2.1, h23.2.2.2⟩

theorem IsRedLink_setColor_black (t : Tree) : IsRedLink (setColor t .BLACK) = false := by
  cases t with
  | nil => rfl
  | node d l r s h dp mx mn c ty =>
      cases ty with
      | EXTERNAL => rfl
      | REGULAR =>
          show IsRedLink (.node d l r s h dp mx mn .BLACK NType.REGULAR) = false
          rw [IsRedLink_node]
          simp

theorem Height_setColor (t : Tree) (c : Color) : Height (setColor t c) = Height t := by
  cases t with
  | nil => rfl
  | node d l r s h dp mx mn c0 ty =>
      cases ty <;> rfl

/-- Blackening the root of a valid tree keeps it valid. -/
theorem valid_blacken (t : Tree) (hv : validLLRB t) :
    validLLRB (setColor t .BLACK) ∧ IsRedLink (setColor t .BLACK) = false := by
  obtain ⟨h23, hu, hN, hB⟩ := hv
  refine ⟨⟨is23_setColor_black t h23, ?_, ?_, ?_⟩, IsRedLink_setColor_black t⟩
  · rw [updConsistent_setColor]
    exact hu
  · rw [NoExt_setColor]
    exact hN
  · have hb := blacken_balanced hB
    have hparam : Rk t + (if IsRedLink t then (1 : Int) else 0)
        = Rk (setColor t .BLACK) := by
      unfold Rk
      rw [Height_setColor, IsRedLink_setColor_black]
      by_cases hr : IsRedLink t = true
      · rw [hr]
        simp
      · rw [Bool.eq_false_iff.mpr hr]
        simp
    rw [hparam] at hb
    exact hb

/-- On a balanced tree the left-spine black count is the balance
parameter. -/
theorem leftSpineBlacks_eq (t : Tree) : ∀ b : Int, IsBalancedRec t b = true →
    leftSpineBlacks t = b := by
  induction t with
  | nil =>
      intro b hB
      simp only [IsBalancedRec, beq_iff_eq] at hB
      rw [leftSpineBlacks]
      omega
  | node d l r s h dp mx mn c ty ihl ihr =>
      intro b hB
      by_cases hty : ty = NType.EXTERNAL
      · subst hty
        simp [IsBalancedRec] at hB
        simp [leftSpineBlacks]
        omega
      · rw [leftSpineBlacks]
        rw [if_neg hty]
        simp only [IsBalancedRec, if_neg hty, Bool.and_eq_true] at hB
        rw [ihl _ hB.1]
        split <;> omega

/-- A tree passing the source's checker with consistent aggregates is a
valid LLRB in the `validLLRB` sense. -/
theorem validLLRB_of_check (t : Tree) (hchk : Check t = true)
    (hupd : updConsistent t = true) (hN : NoExt t = true) : validLLRB t := by
  have hc : IsBalanced t = true ∧ Is23Rec t = true := by
    simp only [Check, Bool.and_eq_true] at hchk
    exact ⟨hchk.1.1, hchk.1.2⟩
  have hbal : IsBalancedRec t (leftSpineBlacks t) = true := hc.1
  have hbr := aggregates_bridge t (leftSpineBlacks t) hc.2 hupd hbal
  refine ⟨hc.2, hupd, hN, ?_⟩
  rw [show Rk t = leftSpineBlacks t from by unfold Rk; rw [← hbr.2]]
  exact hbal

/-- Joining two valid black-rooted trees through a detached node yields a
valid black-rooted tree. -/
theorem Join_valid (t1 x t2 : Tree) (hx : x ≠ .nil) (hxE : IsExternal x = false)
    (h1 : validLLRB t1) (h2 : validLLRB t2)
    (hr1 : IsRedLink t1 = false) (hr2 : IsRedLink t2 = false) :
    validLLRB (Join t1 x t2) ∧ IsRedLink (Join t1 x t2) = false := by
  obtain ⟨b1, b2, b3, b4, b5⟩ := JoinRec_valid t1 x t2 hx hxE h1 h2 hr1
    (fun hc => by rw [hc] at hr2; cases hr2)
  unfold Join
  have hb := blacken_balanced b1
  refine ⟨⟨b2, ?_, ?_, ?_⟩, IsRedLink_setColor_black _⟩
  · rw [updConsistent_setColor]
    exact b4
  · rw [NoExt_setColor]
    exact b5
  · have h23' : Is23Rec (setColor (JoinRec t1 x t2) .BLACK) = true := b2
    have hu' : updConsistent (setColor (JoinRec t1 x t2) .BLACK) = true := by
      rw [updConsistent_setColor]
      exact b4
    have hkey := (aggregates_bridge (setColor (JoinRec t1 x t2) .BLACK) _ h23' hu' hb).2
    rw [IsRedLink_setColor_black] at hkey
    have hrk : Rk (setColor (JoinRec t1 x t2) .BLACK)
        = max (Rk t1) (Rk t2) + (if IsRedLink (JoinRec t1 x t2) then 1 else 0) := by
      unfold Rk
      rw [IsRedLink_setColor_black]
      simp only [Bool.false_eq_true, if_false] at hkey ⊢
      exact hkey
    rw [hrk]
    exact hb

theorem IsExternal_false_of_NoExt (t : Tree) (hne : t ≠ .nil) (hN : NoExt t = true) :
    IsExternal t = false := by
  cases t with
  | nil => exact absurd rfl hne
  | node d l r s h dp mx mn c ty =>
      obtain ⟨hty, _, _⟩ := NoExt_node hN
      subst hty
      rfl

/-- Both kept halves of a split of a valid LLRB are valid black-rooted
LLRBs. -/
theorem SplitRec_valid (t : Tree) (k : Int) (hv : validLLRB t)
    (hc : Contains t k = true) :
    validLLRB (SplitRec t k).1 ∧ IsRedLink (SplitRec t k).1 = false ∧
    validLLRB (SplitRec t k).2.2 ∧ IsRedLink (SplitRec t k).2.2 = false := by
  induction t with
  | nil => rw [Contains_nil] at hc; cases hc
  | node d l r s h dp mx mn c ty ihl ihr =>
      have hN := hv.2.2.1
      obtain ⟨hty, hNl, hNr⟩ := NoExt_node hN
      subst hty
      obtain ⟨hvl, hvr, hrr, hRkl, hRkr, hpair⟩ := valid_children d l r s h dp mx mn c hv
      rw [Contains_node d l r s h dp mx mn c _ (by intro hx; cases hx) k] at hc
      have hnn : (Tree.node d l r s h dp mx mn c NType.REGULAR) ≠ .nil :=
        fun hx => Tree.noConfusion hx
      have hdne := Detach_last_ne_nil _ hnn
      obtain ⟨hdN, hdE⟩ := NoExt_Detach_last _ hN hnn
      rw [SplitRec]
      by_cases hlt : d < k
      · rw [if_pos hlt]
        dsimp only
        have hkr : Contains r k = true := by
          rw [if_neg (by omega), if_pos (by omega)] at hc
          exact hc
        obtain ⟨ih1, ih2, ih3, ih4⟩ := ihr hvr hkr
        obtain ⟨hbl, hblr⟩ := valid_blacken l hvl
        rw [Detach_fst]
        dsimp only [fleft]
        obtain ⟨hJ1, hJ2⟩ := Join_valid _ _ _ hdne hdE hbl ih1 hblr ih2
        exact ⟨hJ1, hJ2, ih3, ih4⟩
      · by_cases hgt : d > k
        · rw [if_neg hlt, if_pos hgt]
          dsimp only
          have hkl : Contains l k = true := by
            rw [if_pos (by omega)] at hc
            exact hc
          obtain ⟨ih1, ih2, ih3, ih4⟩ := ihl hvl hkl
          obtain ⟨hbr, hbrr⟩ := valid_blacken r hvr
          rw [Detach_snd_fst]
          dsimp only [fright]
          obtain ⟨hJ1, hJ2⟩ := Join_valid _ _ _ hdne hdE ih3 hbr ih4 hbrr
          exact ⟨ih1, ih2, hJ1, hJ2⟩
        · rw [if_neg hlt, if_neg hgt]
          dsimp only
          rw [Detach_fst, Detach_snd_fst]
          dsimp only [fleft, fright]
          obtain ⟨hbl, hblr⟩ := valid_blacken l hvl
          obtain ⟨hbr, hbrr⟩ := valid_blacken r hvr
          exact ⟨hbl, hblr, hbr, hbrr⟩

/-- C3: for every valid LLRB `t` (checker-passing, consistent aggregates,
EXTERNAL-free, strictly sorted keys) and every key `k` present in `t`,
`Split(t, k)` succeeds with the triple `(L, x, R)` and `Join(L, x, R)`
yields an LLRB with the same key multiset and the same in-order key
sequence as `t`, passing the source's BST, 2-3 and balance checks, with
all aggregates equal to their recomputation. -/
theorem C3_join_split (t : Tree) (k : Int)
    (hchk : Check t = true) (hupd : updConsistent t = true) (hN : NoExt t = true)
    (hS : List.Pairwise (fun a b => a < b) (keys t)) (hk : Contains t k = true) :
    Split t k = .ok (SplitRec t k) ∧
    allKeys (Join (SplitRec t k).1 (SplitRec t k).2.1 (SplitRec t k).2.2)
      = allKeys t ∧
    keys (Join (SplitRec t k).1 (SplitRec t k).2.1 (SplitRec t k).2.2) = keys t ∧
    Check (Join (SplitRec t k).1 (SplitRec t k).2.1 (SplitRec t k).2.2) = true ∧
    updConsistent (Join (SplitRec t k).1 (SplitRec t k).2.1 (SplitRec t k).2.2)
      = true := by
  have hv := validLLRB_of_check t hchk hupd hN
  obtain ⟨hL, hLr, hR, hRr⟩ := SplitRec_valid t k hv hk
  obtain ⟨hmne, hmfd, hmak, hmfl, hmfr⟩ := SplitRec_mid t k hk
  obtain ⟨hNL, hNm, hNR⟩ := NoExt_SplitRec t k hN
  have hmE : IsExternal (SplitRec t k).2.1 = false :=
    IsExternal_false_of_NoExt _ hmne hNm
  obtain ⟨hJv, hJr⟩ := Join_valid _ _ _ hmne hmE hL hR hLr hRr
  obtain ⟨hJ23, hJu, hJN, hJb⟩ := hJv
  have hkeys : keys (Join (SplitRec t k).1 (SplitRec t k).2.1 (SplitRec t k).2.2)
      = keys t := by
    rw [keys_eq_inorder _ hJN, inorderKeys_Join_SplitRec t k hk,
      ← keys_eq_inorder t hN]
  refine ⟨?_, ?_, hkeys, ?_, hJu⟩
  · unfold Split
    rw [if_pos hk]
  · rw [allKeys_Join _ _ _ hmne, hmfd, ← hmak, allKeys_SplitRec]
  · have hbal : IsBalanced
        (Join (SplitRec t k).1 (SplitRec t k).2.1 (SplitRec t k).2.2) = true := by
      unfold IsBalanced
      rw [leftSpineBlacks_eq _ _ hJb]
      exact hJb
    have hbst : IsBST
        (Join (SplitRec t k).1 (SplitRec t k).2.1 (SplitRec t k).2.2) = true := by
      refine IsBST_of_sorted _ hJN ?_
      rw [hkeys]
      exact hS
    unfold Check
    rw [hbal, hJ23, hbst]
    rfl

/-- Witness for C3: the sorted three-node tree split at its root key. -/
theorem C3_join_split_witness :
    Check c4tree = true ∧ updConsistent c4tree = true ∧ NoExt c4tree = true ∧
    List.Pairwise (fun a b => a < b) (keys c4tree) ∧ Contains c4tree 2 = true ∧
    Split c4tree 2 = .ok (SplitRec c4tree 2) :=
  ⟨by decide, by decide, by decide, by decide, by decide,
    (C3_join_split c4tree 2 (by decide) (by decide) (by decide) (by decide)
      (by decide)).1⟩

end TangoTree
